import Mathlib

/-!
Verification of the rust-lexical conversion library against its
natural-language specification.

The development shallowly embeds the code of the repository:

* `src/lexical-core/src/util/options.rs` — the configuration builders and
  their validation helpers (`to_radix`, `to_exponent_char`, `to_nan_string`,
  `to_inf_string`, `to_infinity_string`, the four `*OptionsBuilder.build`
  functions and the pre-built constructors).  These are translated directly
  from the source.
* `src/lexical-core/src/ftoa/api.rs` — the float-to-string pipeline
  (`filter_special`, `filter_sign`, `ftoa`, `trim`, the `wrap!`-generated
  implementations and the slice entry points).  Translated directly from the
  source; the digit generator it forwards to (grisu2/ryu, not part of the
  sources provided) is modelled from the spec.
* the parse path (`atof`/`atoi`, not part of the sources provided) is
  modelled from the spec (§4.3, §6 of spec.md).

Bytes are modelled as natural numbers (the `u8` values), byte strings as
`List ℕ`.  Machine floats are modelled as sign/mantissa/exponent triples
with explicit bounds; bit-for-bit equality of floats is equality of the
canonical triples.
-/

namespace Lexical

/-- ASCII byte values used throughout. -/
def byteDot : ℕ := 46

def byteMinus : ℕ := 45

def bytePlus : ℕ := 43

def byteZero : ℕ := 48

def byteE : ℕ := 101

def byteCaret : ℕ := 94

/-- Default spelling of NaN, the byte string "NaN". -/
def defaultNanString : List ℕ := [78, 97, 78]

/-- Default spelling of short infinity, the byte string "inf". -/
def defaultInfString : List ℕ := [105, 110, 102]

/-- Default spelling of long infinity, the byte string "infinity". -/
def defaultInfinityString : List ℕ := [105, 110, 102, 105, 110, 105, 116, 121]

/-!
## Float data model

A binary float of a given width is described by `FloatFmt`: `prec` is the
number of significand bits (24 for f32, 53 for f64), `emin` the minimal and
`etop` the maximal exponent of the scaled integer mantissa, so that every
finite value is `± m * 2^e` with `m < 2^prec` and `emin ≤ e ≤ etop`.
-/

structure FloatFmt where
  prec : ℕ
  emin : ℤ
  etop : ℤ
deriving DecidableEq, Repr

/-- Format of IEEE-754 binary32 (f32): 24 significand bits, scaled exponent
range [-149, 104]. -/
def fmt32 : FloatFmt := ⟨24, -149, 104⟩

/-- Format of IEEE-754 binary64 (f64): 53 significand bits, scaled exponent
range [-1074, 971]. -/
def fmt64 : FloatFmt := ⟨53, -1074, 971⟩

/-- A machine float value: finite (sign, integer mantissa, scaled exponent),
infinity with a sign, or NaN with a sign.  A `true` sign means the sign bit
is set (negative).  Zero is `finite s 0 emin`. -/
inductive FloatVal where
  | finite (sign : Bool) (m : ℕ) (e : ℤ)
  | inf (sign : Bool)
  | nan (sign : Bool)
deriving DecidableEq, Repr

namespace FloatVal

/-- Sign-bit test, `f.is_sign_negative()` in Rust. -/
def isSignNegative : FloatVal → Bool
  | finite s _ _ => s
  | inf s => s
  | nan s => s

/-- Zero test, `f.is_zero()` in Rust (true for both signed zeros). -/
def isZero : FloatVal → Bool
  | finite _ m _ => m = 0
  | _ => false

/-- NaN test. -/
def isNan : FloatVal → Bool
  | nan _ => true
  | _ => false

/-- Test of `f.is_special()` in Rust lexical: infinite or NaN. -/
def isSpecial : FloatVal → Bool
  | finite _ _ _ => false
  | _ => true

/-- Finiteness test. -/
def isFinite : FloatVal → Bool
  | finite _ _ _ => true
  | _ => false

/-- Rust unary negation on floats: flips the sign bit of every class of
value, NaN included. -/
def neg : FloatVal → FloatVal
  | finite s m e => finite (!s) m e
  | inf s => inf (!s)
  | nan s => nan (!s)

/-- Force the sign bit to the given value. -/
def withSign (s : Bool) : FloatVal → FloatVal
  | finite _ m e => finite s m e
  | inf _ => inf s
  | nan _ => nan s

/-- Rational value of the magnitude of a finite float. -/
def mag : FloatVal → ℚ
  | finite _ m e => (m : ℚ) * (2 : ℚ) ^ e
  | _ => 0

end FloatVal

/-- A float representation is canonical (corresponds to exactly one bit
pattern) when the mantissa is in range, the exponent is in range, and the
value is either normal (top mantissa bit set) or has the minimal exponent. -/
def Canonical (fmt : FloatFmt) : FloatVal → Prop
  | .finite _ m e =>
      m < 2 ^ fmt.prec ∧ fmt.emin ≤ e ∧ e ≤ fmt.etop ∧
        (2 ^ (fmt.prec - 1) ≤ m ∨ e = fmt.emin)
  | _ => True

instance (fmt : FloatFmt) (f : FloatVal) : Decidable (Canonical fmt f) := by
  cases f with
  | finite s m e => exact inferInstanceAs (Decidable (_ ∧ _ ∧ _ ∧ _))
  | inf s => exact inferInstanceAs (Decidable True)
  | nan s => exact inferInstanceAs (Decidable True)

/-!
## Configuration layer — embedding of `src/lexical-core/src/util/options.rs`

The helpers and builders below are translated function-by-function from the
source file.  `NumberFormat` in the source is a bit-flag set from which only
the digit separator byte is consulted by this file, so it is embedded as a
structure holding that byte; `NumberFormat::STANDARD` has no separator (the
NUL byte, which is not a digit in any radix).
-/

/-- Embedding of Rust `char::to_digit`: digit value of a byte in the given
radix, if it is a valid digit (`0-9`, `a-z`, `A-Z` case-insensitively). -/
def charToDigit (b : ℕ) (radix : ℕ) : Option ℕ :=
  if 48 ≤ b ∧ b ≤ 57 then
    if b - 48 < radix then some (b - 48) else none
  else if 97 ≤ b ∧ b ≤ 122 then
    if b - 87 < radix then some (b - 87) else none
  else if 65 ≤ b ∧ b ≤ 90 then
    if b - 55 < radix then some (b - 55) else none
  else none

/-- Embedding of `NumberFormat`; only the digit-separator byte is relevant
to the options layer. -/
structure NumberFormat where
  digit_separator : ℕ
deriving DecidableEq, Repr

/-- Source constant `NumberFormat::STANDARD` (no digit separator). -/
def NumberFormat.STANDARD : NumberFormat := ⟨0⟩

/-- Source constant `DEFAULT_RADIX`. -/
def DEFAULT_RADIX : ℕ := 10

/-- Source constant `DEFAULT_LOSSY`. -/
def DEFAULT_LOSSY : Bool := false

/-- Source constant `DEFAULT_TRIM_FLOATS`. -/
def DEFAULT_TRIM_FLOATS : Bool := false

/-- Rounding kinds; only `NearestTieEven` is used by the default build. -/
inductive RoundingKind where
  | NearestTieEven
  | NearestTieAwayZero
  | TowardPositiveInfinity
  | TowardNegativeInfinity
  | TowardZero
deriving DecidableEq, Repr

/-- Modelled from the spec: the per-radix default exponent notation
character used by `exponent_notation_char` (from the `util::config` module,
not among the provided sources): `e` unless `e` would be a digit of the
radix. -/
def exponent_notation_char (radix : ℕ) : ℕ :=
  if 15 ≤ radix then byteCaret else byteE

/-- Source helper `starts_with_n`. -/
def starts_with_n (bytes : List ℕ) : Bool :=
  match bytes.head? with
  | some 78 => true
  | some 110 => true
  | _ => false

/-- Source helper `starts_with_i`. -/
def starts_with_i (bytes : List ℕ) : Bool :=
  match bytes.head? with
  | some 73 => true
  | some 105 => true
  | _ => false

/-- Source helper `to_radix` (the `radix`-feature variant): a radix is valid
when it lies in [2, 36]. -/
def to_radix (radix : ℕ) : Option ℕ :=
  if 2 ≤ radix ∧ radix ≤ 36 then some radix else none

/-- Source helper `to_exponent_char`: the exponent character is valid when
it is not a digit of the radix. -/
def to_exponent_char (ec : ℕ) (radix : ℕ) : Option ℕ :=
  match charToDigit ec radix with
  | none => some ec
  | some _ => none

/-- Source helper `to_format_integer`: the digit separator must not be a
digit of the radix. -/
def to_format_integer (format : NumberFormat) (radix : ℕ) : Option NumberFormat :=
  match charToDigit format.digit_separator radix with
  | none => some format
  | some _ => none

/-- Source helper `to_format_float`: the digit separator must not be a digit
of the radix and must differ from the exponent character. -/
def to_format_float (format : NumberFormat) (radix : ℕ) (ec : ℕ) : Option NumberFormat :=
  let is_valid_digit := (charToDigit format.digit_separator radix).isNone
  if is_valid_digit ∧ format.digit_separator ≠ ec then some format else none

/-- Source helper `to_rounding` (default build, without the `rounding`
feature): only round-nearest-tie-even is accepted. -/
def to_rounding (rounding : RoundingKind) : Option RoundingKind :=
  if rounding = RoundingKind.NearestTieEven then some rounding else none

/-- Source helper `to_nan_string`: must begin with `N`/`n`. -/
def to_nan_string (nan_string : List ℕ) : Option (List ℕ) :=
  if starts_with_n nan_string then some nan_string else none

/-- Source helper `to_inf_string`: must begin with `I`/`i`. -/
def to_inf_string (inf_string : List ℕ) : Option (List ℕ) :=
  if starts_with_i inf_string then some inf_string else none

/-- Source helper `to_infinity_string`: the long-infinity spelling must be
at least as long as the short one and begin with `I`/`i`. -/
def to_infinity_string (infinity_string : List ℕ) (inf_string : List ℕ) :
    Option (List ℕ) :=
  let longer := infinity_string.length ≥ inf_string.length
  let starts_with := starts_with_i infinity_string
  if longer ∧ starts_with then some infinity_string else none

/-- Builder for `ParseIntegerOptions`. -/
structure ParseIntegerOptionsBuilder where
  radix : ℕ
  format : NumberFormat
deriving DecidableEq, Repr

/-- Validated options for parsing integers. -/
structure ParseIntegerOptions where
  radix : ℕ
  format : NumberFormat
deriving DecidableEq, Repr

/-- Source `ParseIntegerOptionsBuilder::new`. -/
def ParseIntegerOptionsBuilder.new : ParseIntegerOptionsBuilder :=
  ⟨DEFAULT_RADIX, NumberFormat.STANDARD⟩

/-- Source `ParseIntegerOptionsBuilder::build`. -/
def ParseIntegerOptionsBuilder.build (b : ParseIntegerOptionsBuilder) :
    Option ParseIntegerOptions := do
  let radix ← to_radix b.radix
  let format ← to_format_integer b.format radix
  some ⟨radix, format⟩

/-- Source `ParseIntegerOptions::binary`, written
`builder().radix(2).build().unwrap()`. -/
def ParseIntegerOptions.binary : Option ParseIntegerOptions :=
  (ParseIntegerOptionsBuilder.build { ParseIntegerOptionsBuilder.new with radix := 2 })

/-- Source `ParseIntegerOptions::decimal`. -/
def ParseIntegerOptions.decimal : Option ParseIntegerOptions :=
  ParseIntegerOptionsBuilder.new.build

/-- Source `ParseIntegerOptions::hexadecimal`. -/
def ParseIntegerOptions.hexadecimal : Option ParseIntegerOptions :=
  (ParseIntegerOptionsBuilder.build { ParseIntegerOptionsBuilder.new with radix := 16 })

/-- Builder for `ParseFloatOptions`. -/
structure ParseFloatOptionsBuilder where
  lossy : Bool
  exponent_char : ℕ
  radix : ℕ
  format : NumberFormat
  rounding : RoundingKind
  nan_string : List ℕ
  inf_string : List ℕ
  infinity_string : List ℕ
deriving DecidableEq, Repr

/-- Validated options for parsing floats. -/
structure ParseFloatOptions where
  lossy : Bool
  exponent_char : ℕ
  radix : ℕ
  format : NumberFormat
  rounding : RoundingKind
  nan_string : List ℕ
  inf_string : List ℕ
  infinity_string : List ℕ
deriving DecidableEq, Repr

/-- Source `ParseFloatOptionsBuilder::new` (the process-wide default NaN,
inf, infinity spellings and default rounding are their initial values). -/
def ParseFloatOptionsBuilder.new : ParseFloatOptionsBuilder :=
  ⟨DEFAULT_LOSSY, exponent_notation_char DEFAULT_RADIX, DEFAULT_RADIX,
    NumberFormat.STANDARD, RoundingKind.NearestTieEven,
    defaultNanString, defaultInfString, defaultInfinityString⟩

/-- Source `ParseFloatOptionsBuilder::build`. -/
def ParseFloatOptionsBuilder.build (b : ParseFloatOptionsBuilder) :
    Option ParseFloatOptions := do
  let radix ← to_radix b.radix
  let exponent_char ← to_exponent_char b.exponent_char radix
  let format ← to_format_float b.format radix exponent_char
  let rounding ← to_rounding b.rounding
  let nan_string ← to_nan_string b.nan_string
  let inf_string ← to_inf_string b.inf_string
  let infinity_string ← to_infinity_string b.infinity_string inf_string
  some ⟨b.lossy, exponent_char, radix, format, rounding, nan_string,
    inf_string, infinity_string⟩

/-- Source `ParseFloatOptions::binary`. -/
def ParseFloatOptions.binary : Option ParseFloatOptions :=
  (ParseFloatOptionsBuilder.build { ParseFloatOptionsBuilder.new with radix := 2 })

/-- Source `ParseFloatOptions::decimal`. -/
def ParseFloatOptions.decimal : Option ParseFloatOptions :=
  ParseFloatOptionsBuilder.new.build

/-- Source `ParseFloatOptions::hexadecimal`, written
`builder().radix(16).exponent_char(b'p').build().unwrap()`. -/
def ParseFloatOptions.hexadecimal : Option ParseFloatOptions :=
  (ParseFloatOptionsBuilder.build
    { ParseFloatOptionsBuilder.new with radix := 16, exponent_char := 112 })

/-- Builder for `WriteIntegerOptions`. -/
structure WriteIntegerOptionsBuilder where
  radix : ℕ
deriving DecidableEq, Repr

/-- Validated options for writing integers. -/
structure WriteIntegerOptions where
  radix : ℕ
deriving DecidableEq, Repr

/-- Source `WriteIntegerOptionsBuilder::new`. -/
def WriteIntegerOptionsBuilder.new : WriteIntegerOptionsBuilder := ⟨DEFAULT_RADIX⟩

/-- Source `WriteIntegerOptionsBuilder::build`. -/
def WriteIntegerOptionsBuilder.build (b : WriteIntegerOptionsBuilder) :
    Option WriteIntegerOptions := do
  let radix ← to_radix b.radix
  some ⟨radix⟩

/-- Source `WriteIntegerOptions::binary`. -/
def WriteIntegerOptions.binary : Option WriteIntegerOptions :=
  (WriteIntegerOptionsBuilder.build ⟨2⟩)

/-- Source `WriteIntegerOptions::decimal`. -/
def WriteIntegerOptions.decimal : Option WriteIntegerOptions :=
  WriteIntegerOptionsBuilder.new.build

/-- Source `WriteIntegerOptions::hexadecimal`. -/
def WriteIntegerOptions.hexadecimal : Option WriteIntegerOptions :=
  (WriteIntegerOptionsBuilder.build ⟨16⟩)

/-- Builder for `WriteFloatOptions`. -/
structure WriteFloatOptionsBuilder where
  exponent_char : ℕ
  radix : ℕ
  trim_floats : Bool
  nan_string : List ℕ
  inf_string : List ℕ
deriving DecidableEq, Repr

/-- Validated options for writing floats. -/
structure WriteFloatOptions where
  exponent_char : ℕ
  radix : ℕ
  trim_floats : Bool
  nan_string : List ℕ
  inf_string : List ℕ
deriving DecidableEq, Repr

/-- Source `WriteFloatOptionsBuilder::new`. -/
def WriteFloatOptionsBuilder.new : WriteFloatOptionsBuilder :=
  ⟨exponent_notation_char DEFAULT_RADIX, DEFAULT_RADIX, DEFAULT_TRIM_FLOATS,
    defaultNanString, defaultInfString⟩

/-- Source `WriteFloatOptionsBuilder::build`. -/
def WriteFloatOptionsBuilder.build (b : WriteFloatOptionsBuilder) :
    Option WriteFloatOptions := do
  let radix ← to_radix b.radix
  let exponent_char ← to_exponent_char b.exponent_char radix
  let nan_string ← to_nan_string b.nan_string
  let inf_string ← to_inf_string b.inf_string
  some ⟨exponent_char, radix, b.trim_floats, nan_string, inf_string⟩

/-- Source `WriteFloatOptions::binary`. -/
def WriteFloatOptions.binary : Option WriteFloatOptions :=
  (WriteFloatOptionsBuilder.build { WriteFloatOptionsBuilder.new with radix := 2 })

/-- Source `WriteFloatOptions::decimal`. -/
def WriteFloatOptions.decimal : Option WriteFloatOptions :=
  WriteFloatOptionsBuilder.new.build

/-- Source `WriteFloatOptions::hexadecimal`: note the source sets
`.radix(2)`, not 16, before `.exponent_char(b'p')`. -/
def WriteFloatOptions.hexadecimal : Option WriteFloatOptions :=
  (WriteFloatOptionsBuilder.build
    { WriteFloatOptionsBuilder.new with radix := 2, exponent_char := 112 })

/-!
## Float-to-string pipeline — embedding of `src/lexical-core/src/ftoa/api.rs`

The functions below are translated from the source.  Writing into the
caller's byte buffer and returning the written sub-slice is embedded as
returning the list of bytes written.  The digit generator that
`forward` dispatches to (grisu2/ryu/radix, not among the provided
sources) is a parameter `gen`; a concrete generator modelled from the
spec is supplied later.  The trim-floats compile feature and the
process-wide NaN/infinity spelling globals are parameters. -/

/-- Test whether a byte string ends in the two bytes `".0"`. -/
def endsInDotZero (bs : List ℕ) : Bool :=
  match bs.reverse with
  | z :: d :: _ => z == 48 && d == 46
  | _ => false

/-- Source `filter_special`: emit `"0.0"` for zero when trimming is
disabled, the NaN spelling for NaN, the infinity spelling for the
(positive) infinity, and otherwise forward to the digit generator. -/
def filter_special (gen : ℕ → FloatVal → List ℕ) (trim : Bool)
    (nan inf : List ℕ) (radix : ℕ) (value : FloatVal) : List ℕ :=
  if !trim && value.isZero then [byteZero, byteDot, byteZero]
  else if value.isNan then nan
  else if value.isSpecial then inf
  else gen radix value

/-- Source `filter_sign`: emit a single `"0"` for zero when trimming is
enabled; write `-` and negate when the sign bit is set; then handle
special values. -/
def filter_sign (gen : ℕ → FloatVal → List ℕ) (trim : Bool)
    (nan inf : List ℕ) (radix : ℕ) (value : FloatVal) : List ℕ :=
  if trim && value.isZero then [byteZero]
  else if value.isSignNegative then
    byteMinus :: filter_special gen trim nan inf radix value.neg
  else filter_special gen trim nan inf radix value

/-- Source `trim`: drop a trailing `".0"` when the trim-floats feature is
enabled. -/
def trimOut (trim : Bool) (bs : List ℕ) : List ℕ :=
  if trim && endsInDotZero bs then bs.take (bs.length - 2) else bs

/-- Source `wrap!`-generated implementation (`f32toa_impl`/`f64toa_impl`
before specialization): run the sign/special filters then the trim step. -/
def ftoaImpl (gen : ℕ → FloatVal → List ℕ) (trim : Bool)
    (nan inf : List ℕ) (radix : ℕ) (value : FloatVal) : List ℕ :=
  trimOut trim (filter_sign gen trim nan inf radix value)

/-!
## Rounding, digit generation and parsing

The digit generator (grisu2/ryu/`radix` back-ends) and the parse path
(`atof`/`atoi`) are part of the repository but not among the provided
sources; per the spec they are modelled from spec.md §4.2, §4.3 and §6.
-/

/-- Modelled from the spec: round a rational to the nearest integer with
ties going to the even neighbour (the default rounding rule,
`RoundingKind::NearestTieEven`). -/
def roundHalfEven (q : ℚ) : ℤ :=
  if q - (⌊q⌋ : ℚ) < 1 / 2 then ⌊q⌋
  else if 1 / 2 < q - (⌊q⌋ : ℚ) then ⌊q⌋ + 1
  else if ⌊q⌋ % 2 = 0 then ⌊q⌋ else ⌊q⌋ + 1

/-- Assemble a rounded mantissa and exponent into a float: renormalize a
mantissa that rounded up to `2^prec`, and overflow past the top exponent
to infinity. -/
def mkRounded (fmt : FloatFmt) (e : ℤ) (m : ℤ) : FloatVal :=
  if m < 0 then FloatVal.finite false 0 fmt.emin
  else if m.toNat = 2 ^ fmt.prec then
    if fmt.etop < e + 1 then FloatVal.inf false
    else FloatVal.finite false (2 ^ (fmt.prec - 1)) (e + 1)
  else if fmt.etop < e then FloatVal.inf false
  else FloatVal.finite false m.toNat e

/-- Modelled from the spec: the decimal-to-binary converter's rounding
step — the nearest representable float of the given format to a positive
rational, ties to the even mantissa, overflowing to infinity
(spec.md §4.3).  The exponent is clamped below at `emin` and the mantissa
is the input scaled by that exponent, rounded half-to-even. -/
def roundNearestPos (fmt : FloatFmt) (q : ℚ) : FloatVal :=
  mkRounded fmt (max fmt.emin (Int.log 2 q - (fmt.prec - 1 : ℤ)))
    (roundHalfEven (q * (2 : ℚ) ^ (-(max fmt.emin (Int.log 2 q - (fmt.prec - 1 : ℤ))))))

/-- ASCII byte of a digit value: `0`-`9` then `a`-`z`. -/
def digitByte (d : ℕ) : ℕ := if d < 10 then d + 48 else d + 87

/-- Big-endian digit values of a natural number in the given radix (empty
for zero). -/
def natDigits (radix n : ℕ) : List ℕ := (Nat.digits radix n).reverse

/-- Modelled from the spec: round a positive rational to `n` significant
digits in the given base.  Returns the big-endian digit values and the
exponent of the leading digit (one less than the digit count when read as
`d₁.d₂…dₖ × base^E`). -/
def sigDigits (radix : ℕ) (q : ℚ) (n : ℕ) : List ℕ × ℤ :=
  let E := Int.log radix q
  let scaled := roundHalfEven (q * (radix : ℚ) ^ ((n : ℤ) - 1 - E))
  let ds := natDigits radix scaled.toNat
  (ds, E + ((ds.length : ℤ) - (n : ℤ)))

/-- Value of a big-endian digit list (Horner evaluation). -/
def digitsVal (radix : ℕ) (ds : List ℕ) : ℕ :=
  ds.foldl (fun a d => a * radix + d) 0

/-- Rational value denoted by digits `ds` with leading-digit exponent `E`,
read as `d₁.d₂…dₖ × radix^E`. -/
def sciVal (radix : ℕ) (ds : List ℕ) (E : ℤ) : ℚ :=
  (digitsVal radix ds : ℚ) * (radix : ℚ) ^ (E - (ds.length : ℤ) + 1)

/-- Map digit values to their ASCII bytes. -/
def renderDigits (ds : List ℕ) : List ℕ := ds.map digitByte

/-- Render a (signed) exponent value in the given base. -/
def renderExpDigits (radix : ℕ) (E : ℤ) : List ℕ :=
  if E < 0 then byteMinus :: renderDigits (natDigits radix (-E).toNat)
  else renderDigits (natDigits radix E.toNat)

/-- Modelled from the spec: lay the generated digits out in fixed-point or
exponential form depending on the magnitude of the decimal exponent
(spec.md §4.2), always including a decimal point. -/
def render (radix : ℕ) (ds : List ℕ) (E : ℤ) : List ℕ :=
  if 0 ≤ E ∧ E < (ds.length : ℤ) then
    renderDigits (ds.take (E.toNat + 1)) ++ [byteDot] ++
      (if ds.length ≤ E.toNat + 1 then [byteZero]
       else renderDigits (ds.drop (E.toNat + 1)))
  else if -4 ≤ E ∧ E < 0 then
    [byteZero, byteDot] ++ List.replicate (-(E + 1)).toNat byteZero ++
      renderDigits ds
  else
    match ds with
    | [] => [byteZero]
    | d :: rest =>
        digitByte d :: byteDot ::
          ((if rest = [] then [byteZero] else renderDigits rest) ++
            (exponent_notation_char radix :: renderExpDigits radix E))

/-- Modelled from the spec: number of significant decimal digits at which
the expansion of `q = m·2^e` is exact (`q · 10^(exactLen-1-E)` is an
integer). -/
def exactLen (q : ℚ) (e : ℤ) : ℕ := (Int.log 10 q + 1 - min e 0).toNat

/-- Modelled from the spec: the digit-count search of the shortest-output
generator — try `k` significant digits, accept as soon as the rounded
digits parse back to the original float, and fall back to the current
count when the fuel runs out. -/
def searchShortest (fmt : FloatFmt) (q : ℚ) (target : FloatVal) :
    ℕ → ℕ → List ℕ × ℤ
  | k, 0 => sigDigits 10 q k
  | k, fuel + 1 =>
    let p := sigDigits 10 q k
    if roundNearestPos fmt (sciVal 10 p.1 p.2) = target then p
    else searchShortest fmt q target (k + 1) fuel

/-- Modelled from the spec: the shortest-round-trip decimal digit
generator for a positive, finite, non-zero float (the grisu-style fast
path's contract, spec.md §4.2). -/
def genDecimal (fmt : FloatFmt) (f : FloatVal) : List ℕ :=
  match f with
  | .finite _ m e =>
      let q : ℚ := (m : ℚ) * (2 : ℚ) ^ e
      let p := searchShortest fmt q (.finite false m e) 1 (exactLen q e - 1)
      render 10 p.1 p.2
  | _ => []

/-- Modelled from the spec: the radix-N digit generator — the same digit
emission over an exact accumulator, emitting a number of significant
digits bounded by the type's width (spec.md §4.2, §5). -/
def genRadix (fmt : FloatFmt) (radix : ℕ) (f : FloatVal) : List ℕ :=
  match f with
  | .finite _ m e =>
      let q : ℚ := (m : ℚ) * (2 : ℚ) ^ e
      let p := sigDigits radix q fmt.prec
      render radix p.1 p.2
  | _ => []

/-- Source `forward`: dispatch to the decimal algorithm for base 10 and to
the radix algorithm otherwise. -/
def forward (fmt : FloatFmt) (radix : ℕ) (f : FloatVal) : List ℕ :=
  if radix = 10 then genDecimal fmt f else genRadix fmt radix f

/-- Source `f32toa_impl` with the spelling globals and trim feature
explicit. -/
def f32toa_withConfig (trim : Bool) (nan inf : List ℕ) (radix : ℕ)
    (f : FloatVal) : List ℕ :=
  ftoaImpl (forward fmt32) trim nan inf radix f

/-- Source `f32toa_impl` under the default build (no trim feature, default
spellings). -/
def f32toa_impl (radix : ℕ) (f : FloatVal) : List ℕ :=
  f32toa_withConfig DEFAULT_TRIM_FLOATS defaultNanString defaultInfString radix f

/-- Source `f64toa_impl` with the spelling globals and trim feature
explicit. -/
def f64toa_withConfig (trim : Bool) (nan inf : List ℕ) (radix : ℕ)
    (f : FloatVal) : List ℕ :=
  ftoaImpl (forward fmt64) trim nan inf radix f

/-- Source `f64toa_impl` under the default build. -/
def f64toa_impl (radix : ℕ) (f : FloatVal) : List ℕ :=
  f64toa_withConfig DEFAULT_TRIM_FLOATS defaultNanString defaultInfString radix f

/-- Modelled from the spec: the published compile-time maximum output size
for f32 (sufficient for the longest possible digit sequence plus sign,
decimal point, exponent marker and exponent digits across all supported
bases, spec.md §6). -/
def MAX_F32_SIZE : ℕ := 256

/-- Modelled from the spec: the published compile-time maximum output size
for f64. -/
def MAX_F64_SIZE : ℕ := 1280

/-- Modelled from the spec: the slice-mode entry point `f32toa_slice` —
aborts (returns `none`, writing nothing) when the destination buffer is
smaller than the published maximum, and otherwise writes the formatted
bytes (spec.md §4.5). -/
def f32toa_slice (f : FloatVal) (radix : ℕ) (buflen : ℕ) :
    Option (List ℕ) :=
  if buflen < MAX_F32_SIZE then none else some (f32toa_impl radix f)

/-- Modelled from the spec: the slice-mode entry point `f64toa_slice`. -/
def f64toa_slice (f : FloatVal) (radix : ℕ) (buflen : ℕ) :
    Option (List ℕ) :=
  if buflen < MAX_F64_SIZE then none else some (f64toa_impl radix f)

/-!
### Parse path (modelled from the spec, §4.3 and §6)
-/

/-- Whether a byte is a digit of the radix. -/
def isDigitByte (radix b : ℕ) : Bool := (charToDigit b radix).isSome

/-- Split a byte string into its longest leading run of digits and the
rest. -/
def scanDigits (radix : ℕ) : List ℕ → List ℕ × List ℕ
  | [] => ([], [])
  | b :: rest =>
      if isDigitByte radix b then
        let p := scanDigits radix rest
        (b :: p.1, p.2)
      else ([], b :: rest)

/-- Value of a run of digit bytes (Horner evaluation). -/
def digitBytesVal (radix : ℕ) (bs : List ℕ) : ℕ :=
  bs.foldl (fun a b => a * radix + (charToDigit b radix).getD 0) 0

/-- Consume an optional leading sign; returns the sign, the number of
bytes consumed and the rest. -/
def scanSign : List ℕ → Bool × ℕ × List ℕ
  | [] => (false, 0, [])
  | b :: rest =>
      if b = byteMinus then (true, 1, rest)
      else if b = bytePlus then (false, 1, rest)
      else (false, 0, b :: rest)

/-- Consume an optional fraction `.digits`; a lone `.` with no following
digit is not consumed.  Returns (bytes consumed, fraction digit bytes,
rest). -/
def scanFrac (radix : ℕ) (bs : List ℕ) : ℕ × List ℕ × List ℕ :=
  match bs with
  | [] => (0, [], [])
  | b :: rest =>
      if b = byteDot then
        let p := scanDigits radix rest
        if p.1 = [] then (0, [], bs) else (p.1.length + 1, p.1, p.2)
      else (0, [], bs)

/-- Consume an optional exponent `ec [sign] digits`; an exponent marker
not followed by at least one digit is not consumed.  Returns (bytes
consumed, exponent value, rest). -/
def scanExpPart (radix : ℕ) (ec : ℕ) (bs : List ℕ) : ℕ × ℤ × List ℕ :=
  match bs with
  | [] => (0, 0, [])
  | b :: rest =>
      if b = ec then
        let s := scanSign rest
        let p := scanDigits radix s.2.2
        if p.1 = [] then (0, 0, bs)
        else (1 + s.2.1 + p.1.length,
          if s.1 then -(digitBytesVal radix p.1 : ℤ)
          else (digitBytesVal radix p.1 : ℤ), p.2)
      else (0, 0, bs)

/-- Modelled from the spec: the float parser after the sign scan.
Consumes `special-string | digits [. digits] [ec [sign] digits]` and
returns the number of bytes of the longest valid prefix (0 when no prefix
is a valid number, the sign bytes included otherwise) together with the
parsed value; digits are converted exactly and rounded to the nearest
representable float (spec.md §4.3, §6). -/
def atofBody (fmt : FloatFmt) (radix : ℕ) (ec : ℕ)
    (nan inf infinity : List ℕ) (sgn : Bool) (s : ℕ) (bs1 : List ℕ) :
    ℕ × FloatVal :=
  if infinity.isPrefixOf bs1 then (s + infinity.length, FloatVal.inf sgn)
  else if inf.isPrefixOf bs1 then (s + inf.length, FloatVal.inf sgn)
  else if nan.isPrefixOf bs1 then (s + nan.length, FloatVal.nan sgn)
  else
    let ip := scanDigits radix bs1
    if ip.1 = [] then (0, FloatVal.finite false 0 fmt.emin)
    else
      let fr := scanFrac radix ip.2
      let ex := scanExpPart radix ec fr.2.2
      let mant : ℕ := digitBytesVal radix (ip.1 ++ fr.2.1)
      let q : ℚ := (mant : ℚ) * (radix : ℚ) ^ (ex.2.1 - (fr.2.1.length : ℤ))
      let v := if mant = 0 then FloatVal.finite sgn 0 fmt.emin
               else (roundNearestPos fmt q).withSign sgn
      (s + ip.1.length + fr.1 + ex.1, v)

/-- Modelled from the spec: the float parser core — scan an optional sign
then run the body. -/
def atofCore (fmt : FloatFmt) (radix : ℕ) (ec : ℕ)
    (nan inf infinity : List ℕ) (bs : List ℕ) : ℕ × FloatVal :=
  atofBody fmt radix ec nan inf infinity (scanSign bs).1 (scanSign bs).2.1
    (scanSign bs).2.2

/-- Modelled from the spec: checked float parsing — succeed only when the
whole input is a valid number, otherwise fail with the offset of the
first unconsumed byte (offset 0 when no valid prefix exists). -/
def atofChecked (fmt : FloatFmt) (radix : ℕ) (ec : ℕ)
    (nan inf infinity : List ℕ) (bs : List ℕ) : Except ℕ FloatVal :=
  let p := atofCore fmt radix ec nan inf infinity bs
  if 0 < p.1 ∧ p.1 = bs.length then Except.ok p.2 else Except.error p.1

/-- Modelled from the spec: unchecked float parsing — always returns the
value of the longest valid prefix (the zero value when none exists). -/
def atofUnchecked (fmt : FloatFmt) (radix : ℕ) (ec : ℕ)
    (nan inf infinity : List ℕ) (bs : List ℕ) : FloatVal :=
  (atofCore fmt radix ec nan inf infinity bs).2

/-- Source `try_parse_radix::<f32>` under the default configuration. -/
def try_parse_radix_f32 (bs : List ℕ) (radix : ℕ) : Except ℕ FloatVal :=
  atofChecked fmt32 radix (exponent_notation_char radix)
    defaultNanString defaultInfString defaultInfinityString bs

/-- Source `parse_radix::<f32>` under the default configuration. -/
def parse_radix_f32 (bs : List ℕ) (radix : ℕ) : FloatVal :=
  atofUnchecked fmt32 radix (exponent_notation_char radix)
    defaultNanString defaultInfString defaultInfinityString bs

/-- Source `try_parse_radix::<f64>` under the default configuration. -/
def try_parse_radix_f64 (bs : List ℕ) (radix : ℕ) : Except ℕ FloatVal :=
  atofChecked fmt64 radix (exponent_notation_char radix)
    defaultNanString defaultInfString defaultInfinityString bs

/-- Source `parse_radix::<f64>` under the default configuration. -/
def parse_radix_f64 (bs : List ℕ) (radix : ℕ) : FloatVal :=
  atofUnchecked fmt64 radix (exponent_notation_char radix)
    defaultNanString defaultInfString defaultInfinityString bs

/-- Modelled from the spec: the integer parser core — `[sign] digits`,
returning the length of the longest valid prefix (0 when none) and its
value. -/
def atoiCore (radix : ℕ) (bs : List ℕ) : ℕ × ℤ :=
  let sg := scanSign bs
  let p := scanDigits radix sg.2.2
  if p.1 = [] then (0, 0)
  else (sg.2.1 + p.1.length,
    if sg.1 then -(digitBytesVal radix p.1 : ℤ)
    else (digitBytesVal radix p.1 : ℤ))

/-- Source `try_parse_radix::<i32>`-style checked integer parsing
(overflow wrapping is not exercised by the claims and is not
modelled). -/
def try_parse_radix_int (bs : List ℕ) (radix : ℕ) : Except ℕ ℤ :=
  let p := atoiCore radix bs
  if 0 < p.1 ∧ p.1 = bs.length then Except.ok p.2 else Except.error p.1

/-- Source `parse_radix::<i32>`-style unchecked integer parsing. -/
def parse_radix_int (bs : List ℕ) (radix : ℕ) : ℤ :=
  (atoiCore radix bs).2

/-!
## Theorems

All definitions precede this point; everything below is a theorem.
-/

/-- Helper: a string ending in `".0"` has at least two bytes. -/
theorem endsInDotZero_length {bs : List ℕ} (h : endsInDotZero bs = true) :
    2 ≤ bs.length := by
  unfold endsInDotZero at h
  rcases hr : bs.reverse with _ | ⟨a, _ | ⟨b, t⟩⟩ <;> rw [hr] at h
  · exact absurd h (by decide)
  · exact absurd h (by simp)
  · have hlen : bs.length = bs.reverse.length := (List.length_reverse bs).symm
    rw [hr] at hlen
    simp [hlen]

/-- Helper: prepending a minus sign does not change whether a string ends
in `".0"`. -/
theorem endsInDotZero_cons_minus (xs : List ℕ) :
    endsInDotZero (byteMinus :: xs) = endsInDotZero xs := by
  unfold endsInDotZero
  rw [List.reverse_cons]
  rcases hr : xs.reverse with _ | ⟨a, _ | ⟨b, t⟩⟩
  · simp [byteMinus]
  · simp [byteMinus]
  · simp only [List.cons_append]

/-- Helper: the trim step commutes with a prepended minus sign. -/
theorem trimOut_cons_minus (t : Bool) (xs : List ℕ) :
    trimOut t (byteMinus :: xs) = byteMinus :: trimOut t xs := by
  unfold trimOut
  rw [endsInDotZero_cons_minus]
  by_cases h : (t && endsInDotZero xs) = true
  · rw [if_pos h, if_pos h]
    have h2 : 2 ≤ xs.length := by
      refine endsInDotZero_length ?_
      have := h
      simp only [Bool.and_eq_true] at this
      exact this.2
    have hlen : (byteMinus :: xs).length - 2 = (xs.length - 2) + 1 := by
      simp only [List.length_cons]
      omega
    rw [hlen, List.take_succ_cons]
  · rw [if_neg h, if_neg h]

/-- Helper: Rust negation flips only the sign, so it preserves zeroness. -/
theorem neg_isZero (f : FloatVal) : f.neg.isZero = f.isZero := by
  cases f <;> rfl

/-- Helper: Rust negation flips the sign bit. -/
theorem neg_isSignNegative (f : FloatVal) :
    f.neg.isSignNegative = !f.isSignNegative := by
  cases f <;> rfl

/-- Helper: Rust negation is an involution. -/
theorem neg_neg (f : FloatVal) : f.neg.neg = f := by
  cases f <;> simp [FloatVal.neg]

/-- C5 (amended): for every non-zero float with a positive sign bit,
formatting its negation yields `-` prepended to formatting the value, for
every digit generator, trim setting, configured spelling and radix.  (The
original claim, quantified over all non-zero floats, fails for negative
floats: see the counterexample.) -/
theorem C5_sign_symmetry_amended (gen : ℕ → FloatVal → List ℕ) (trim : Bool)
    (nan inf : List ℕ) (radix : ℕ) (f : FloatVal)
    (hz : f.isZero = false) (hs : f.isSignNegative = false) :
    ftoaImpl gen trim nan inf radix f.neg
      = byteMinus :: ftoaImpl gen trim nan inf radix f := by
  unfold ftoaImpl filter_sign
  rw [neg_isZero, hz, neg_isSignNegative, hs, neg_neg]
  simp only [Bool.and_false, Bool.not_false, if_neg (by simp : ¬((false : Bool) = true)),
    if_pos rfl]
  exact trimOut_cons_minus trim _

/-- Witness for C5's amended theorem at the concrete value 1.0 (f32
encoding, mantissa 2^23, exponent -23) with the default configuration. -/
theorem C5_sign_symmetry_amended_witness :
    ftoaImpl (fun _ _ => [byteZero]) false defaultNanString defaultInfString 10
        (FloatVal.neg (.finite false 8388608 (-23)))
      = byteMinus :: ftoaImpl (fun _ _ => [byteZero]) false defaultNanString
          defaultInfString 10 (.finite false 8388608 (-23)) :=
  C5_sign_symmetry_amended _ false defaultNanString defaultInfString 10
    (.finite false 8388608 (-23)) (by decide) (by decide)

/-- C6 (amended): formatting NaN yields exactly the configured NaN
spelling, and formatting positive/negative infinity yields the configured
short-infinity spelling (with a leading `-` for negative infinity),
provided that, when trimming is enabled, the spellings do not themselves
end in `".0"` (true of the defaults).  (The unamended claim fails when
trimming is enabled and a spelling ends in `".0"`: see the
counterexample.) -/
theorem C6_special_fidelity_amended (gen : ℕ → FloatVal → List ℕ)
    (trim : Bool) (nan inf : List ℕ) (radix : ℕ)
    (h : trim = true → endsInDotZero nan = false ∧ endsInDotZero inf = false) :
    ftoaImpl gen trim nan inf radix (.nan false) = nan ∧
    ftoaImpl gen trim nan inf radix (.inf false) = inf ∧
    ftoaImpl gen trim nan inf radix (.inf true) = byteMinus :: inf := by
  cases trim with
  | false =>
    refine ⟨?_, ?_, ?_⟩ <;>
      simp [ftoaImpl, filter_sign, filter_special, FloatVal.isZero,
        FloatVal.isNan, FloatVal.isSpecial, FloatVal.isSignNegative,
        FloatVal.neg, trimOut]
  | true =>
    obtain ⟨hn, hi⟩ := h rfl
    refine ⟨?_, ?_, ?_⟩
    · simp [ftoaImpl, filter_sign, filter_special, FloatVal.isZero,
        FloatVal.isNan, FloatVal.isSpecial, FloatVal.isSignNegative,
        FloatVal.neg, trimOut, hn]
    · simp [ftoaImpl, filter_sign, filter_special, FloatVal.isZero,
        FloatVal.isNan, FloatVal.isSpecial, FloatVal.isSignNegative,
        FloatVal.neg, trimOut, hi]
    · simp [ftoaImpl, filter_sign, filter_special, FloatVal.isZero,
        FloatVal.isNan, FloatVal.isSpecial, FloatVal.isSignNegative,
        FloatVal.neg, trimOut, endsInDotZero_cons_minus, hi]

/-- Witness for C6's amended theorem at the default spellings with trimming
enabled. -/
theorem C6_special_fidelity_amended_witness :
    ftoaImpl (fun _ _ => [byteZero]) true defaultNanString defaultInfString 10
        (.nan false) = defaultNanString ∧
    ftoaImpl (fun _ _ => [byteZero]) true defaultNanString defaultInfString 10
        (.inf false) = defaultInfString ∧
    ftoaImpl (fun _ _ => [byteZero]) true defaultNanString defaultInfString 10
        (.inf true) = byteMinus :: defaultInfString :=
  C6_special_fidelity_amended _ true defaultNanString defaultInfString 10
    (fun _ => by decide)

/-- C7: zero formatting policy.  With trimming enabled a zero of either
sign formats as the single byte `"0"`; with trimming disabled positive
zero formats as `"0.0"` and negative zero as `"-0.0"` — for every digit
generator, spelling configuration and radix. -/
theorem C7_zero_policy (gen : ℕ → FloatVal → List ℕ) (nan inf : List ℕ)
    (radix : ℕ) :
    (∀ (s : Bool) (e : ℤ),
      ftoaImpl gen true nan inf radix (.finite s 0 e) = [byteZero]) ∧
    (∀ e : ℤ, ftoaImpl gen false nan inf radix (.finite false 0 e)
      = [byteZero, byteDot, byteZero]) ∧
    (∀ e : ℤ, ftoaImpl gen false nan inf radix (.finite true 0 e)
      = [byteMinus, byteZero, byteDot, byteZero]) := by
  refine ⟨?_, ?_, ?_⟩
  · intro s e
    unfold ftoaImpl filter_sign
    simp [FloatVal.isZero, trimOut, endsInDotZero]
  · intro e
    unfold ftoaImpl filter_sign filter_special
    simp [FloatVal.isZero, FloatVal.isSignNegative, trimOut, endsInDotZero]
  · intro e
    unfold ftoaImpl filter_sign filter_special
    simp [FloatVal.isZero, FloatVal.isSignNegative, FloatVal.neg, trimOut,
      endsInDotZero]

/-- C10: for a NaN whose sign bit is set, the formatter writes `-` followed
by the configured NaN spelling, because `filter_sign` writes the sign and
negates before `filter_special` checks for NaN.  Stated for the default
(trim-disabled) build, every generator, spelling and radix. -/
theorem C10_negative_nan (gen : ℕ → FloatVal → List ℕ) (nan inf : List ℕ)
    (radix : ℕ) :
    ftoaImpl gen false nan inf radix (.nan true) = byteMinus :: nan := by
  unfold ftoaImpl filter_sign filter_special
  simp [FloatVal.isZero, FloatVal.isSignNegative, FloatVal.isNan,
    FloatVal.neg, trimOut]

/-- Helper: `to_radix` only ever returns its argument. -/
theorem to_radix_eq_some {r s : ℕ} (h : to_radix r = some s) : s = r := by
  unfold to_radix at h
  by_cases hc : 2 ≤ r ∧ r ≤ 36
  · rw [if_pos hc] at h
    exact (Option.some_inj.mp h).symm
  · rw [if_neg hc] at h
    exact absurd h (Option.some_ne_none s).symm

/-- Helper: `to_inf_string` only ever returns its argument. -/
theorem to_inf_string_eq_some {s t : List ℕ} (h : to_inf_string s = some t) :
    t = s := by
  unfold to_inf_string at h
  by_cases hc : starts_with_i s = true
  · rw [if_pos hc] at h
    exact (Option.some_inj.mp h).symm
  · rw [if_neg hc] at h
    exact absurd h (Option.some_ne_none t).symm

/-- Helper: an out-of-range radix is rejected by `to_radix`. -/
theorem to_radix_none {r : ℕ} (h : r < 2 ∨ 36 < r) : to_radix r = none := by
  unfold to_radix
  rw [if_neg]
  omega

/-- C4: building an options value yields `none` whenever an invariant is
violated: an out-of-range radix (such as 37) makes every builder's `build`
return `none`; an exponent character that is a valid digit of the chosen
radix makes the float builders' `build` return `none`; a long-infinity
spelling shorter than the short-infinity spelling makes
`ParseFloatOptionsBuilder.build` return `none`. -/
theorem C4_options_build_rejects_invalid :
    (∀ b : ParseIntegerOptionsBuilder, b.radix < 2 ∨ 36 < b.radix →
      b.build = none) ∧
    (∀ b : ParseFloatOptionsBuilder, b.radix < 2 ∨ 36 < b.radix →
      b.build = none) ∧
    (∀ b : WriteIntegerOptionsBuilder, b.radix < 2 ∨ 36 < b.radix →
      b.build = none) ∧
    (∀ b : WriteFloatOptionsBuilder, b.radix < 2 ∨ 36 < b.radix →
      b.build = none) ∧
    (∀ b : ParseFloatOptionsBuilder, ∀ d,
      charToDigit b.exponent_char b.radix = some d → b.build = none) ∧
    (∀ b : WriteFloatOptionsBuilder, ∀ d,
      charToDigit b.exponent_char b.radix = some d → b.build = none) ∧
    (∀ b : ParseFloatOptionsBuilder,
      b.infinity_string.length < b.inf_string.length → b.build = none) := by
  refine ⟨?_, ?_, ?_, ?_, ?_, ?_, ?_⟩
  · intro b h
    simp [ParseIntegerOptionsBuilder.build, to_radix_none h]
  · intro b h
    simp [ParseFloatOptionsBuilder.build, to_radix_none h]
  · intro b h
    simp [WriteIntegerOptionsBuilder.build, to_radix_none h]
  · intro b h
    simp [WriteFloatOptionsBuilder.build, to_radix_none h]
  · intro b d h
    unfold ParseFloatOptionsBuilder.build
    cases hr : to_radix b.radix with
    | none => simp
    | some r =>
      have hrb := to_radix_eq_some hr
      subst hrb
      simp [to_exponent_char, h]
  · intro b d h
    unfold WriteFloatOptionsBuilder.build
    cases hr : to_radix b.radix with
    | none => simp
    | some r =>
      have hrb := to_radix_eq_some hr
      subst hrb
      simp [to_exponent_char, h]
  · intro b h
    unfold ParseFloatOptionsBuilder.build
    cases hr : to_radix b.radix with
    | none => simp
    | some r =>
      cases he : to_exponent_char b.exponent_char r with
      | none => simp [he]
      | some ec =>
        cases hf : to_format_float b.format r ec with
        | none => simp [he, hf]
        | some fm =>
          cases hd : to_rounding b.rounding with
          | none => simp [he, hf, hd]
          | some rk =>
            cases hn : to_nan_string b.nan_string with
            | none => simp [he, hf, hd, hn]
            | some ns =>
              cases hi : to_inf_string b.inf_string with
              | none => simp [he, hf, hd, hn, hi]
              | some is₀ =>
                have hib := to_inf_string_eq_some hi
                subst hib
                have : to_infinity_string b.infinity_string b.inf_string = none := by
                  unfold to_infinity_string
                  rw [if_neg]
                  intro hc
                  have := hc.1
                  omega
                simp [he, hf, hd, hn, hi, this]

/-- Witness for C4 at concrete invalid configurations: radix 37, exponent
character `0` (a digit in radix 10), and long-infinity spelling `in`
shorter than the default short-infinity spelling `inf`. -/
theorem C4_options_build_rejects_invalid_witness :
    ParseFloatOptionsBuilder.build
      { ParseFloatOptionsBuilder.new with radix := 37 } = none ∧
    ParseFloatOptionsBuilder.build
      { ParseFloatOptionsBuilder.new with exponent_char := 48 } = none ∧
    ParseFloatOptionsBuilder.build
      { ParseFloatOptionsBuilder.new with infinity_string := [105, 110] } = none :=
  ⟨C4_options_build_rejects_invalid.2.1 _ (Or.inr (by decide)),
   C4_options_build_rejects_invalid.2.2.2.2.1 _ 0 (by decide),
   C4_options_build_rejects_invalid.2.2.2.2.2.2 _ (by decide)⟩

/-- C9: evaluation of every pre-built named options constructor.  All twelve
succeed (return `some`), and all represent the radix their name denotes —
except `WriteFloatOptions::hexadecimal`, which the source builds with
`.radix(2)` and therefore represents radix 2, contradicting its own name and
doc comment (`ParseFloatOptions::hexadecimal` uses 16). -/
theorem C9_prebuilt_constructors_eval :
    ParseIntegerOptions.binary.map (·.radix) = some 2 ∧
    ParseIntegerOptions.decimal.map (·.radix) = some 10 ∧
    ParseIntegerOptions.hexadecimal.map (·.radix) = some 16 ∧
    ParseFloatOptions.binary.map (·.radix) = some 2 ∧
    ParseFloatOptions.decimal.map (·.radix) = some 10 ∧
    ParseFloatOptions.hexadecimal.map (·.radix) = some 16 ∧
    WriteIntegerOptions.binary.map (·.radix) = some 2 ∧
    WriteIntegerOptions.decimal.map (·.radix) = some 10 ∧
    WriteIntegerOptions.hexadecimal.map (·.radix) = some 16 ∧
    WriteFloatOptions.binary.map (·.radix) = some 2 ∧
    WriteFloatOptions.decimal.map (·.radix) = some 10 ∧
    WriteFloatOptions.hexadecimal.map (·.radix) = some 2 := by
  decide

/-!
### Digit-value and rounding lemmas
-/

/-- Helper: Horner evaluation of a big-endian digit list with an
accumulator. -/
theorem digitsVal_foldl (b : ℕ) (ds : List ℕ) (acc : ℕ) :
    ds.foldl (fun a d => a * b + d) acc
      = acc * b ^ ds.length + Nat.ofDigits b ds.reverse := by
  induction ds generalizing acc with
  | nil => simp [Nat.ofDigits]
  | cons d t ih =>
    simp only [List.foldl_cons, List.reverse_cons, List.length_cons]
    rw [ih (acc * b + d), Nat.ofDigits_append]
    simp only [List.length_reverse, Nat.ofDigits_singleton]
    ring

/-- Helper: `digitsVal` inverts `natDigits`. -/
theorem digitsVal_natDigits (b n : ℕ) : digitsVal b (natDigits b n) = n := by
  unfold digitsVal natDigits
  rw [digitsVal_foldl, List.reverse_reverse, Nat.ofDigits_digits]
  simp

/-- Helper: every entry of `natDigits b n` is below `b` (for `2 ≤ b`). -/
theorem natDigits_lt (b n : ℕ) (hb : 2 ≤ b) :
    ∀ d ∈ natDigits b n, d < b := by
  intro d hd
  unfold natDigits at hd
  exact Nat.digits_lt_base hb (List.mem_reverse.mp hd)

/-- Helper: leading zeros do not change the Horner value. -/
theorem digitsVal_replicate_zero (b k : ℕ) (ds : List ℕ) :
    digitsVal b (List.replicate k 0 ++ ds) = digitsVal b ds := by
  induction k with
  | zero => simp
  | succ n ih =>
    rw [List.replicate_succ, List.cons_append]
    unfold digitsVal at ih ⊢
    simpa using ih

/-- Helper: a trailing zero digit multiplies the Horner value by the
base. -/
theorem digitsVal_append_zero (b : ℕ) (ds : List ℕ) :
    digitsVal b (ds ++ [0]) = digitsVal b ds * b := by
  unfold digitsVal
  rw [List.foldl_append]
  simp

/-- Helper: rounding an integer returns it unchanged. -/
theorem roundHalfEven_intCast (n : ℤ) : roundHalfEven (n : ℚ) = n := by
  unfold roundHalfEven
  rw [Int.floor_intCast, sub_self, if_pos (by norm_num)]

/-- Helper: rounding a non-negative rational yields a non-negative
integer. -/
theorem roundHalfEven_nonneg {q : ℚ} (h : 0 ≤ q) : 0 ≤ roundHalfEven q := by
  have hf : (0 : ℤ) ≤ ⌊q⌋ := Int.floor_nonneg.mpr h
  unfold roundHalfEven
  split_ifs <;> omega

/-- Helper: the rounded value never exceeds an integer strictly above the
input. -/
theorem roundHalfEven_le {q : ℚ} {B : ℤ} (h : q < (B : ℚ)) :
    roundHalfEven q ≤ B := by
  have hf : ⌊q⌋ < B := Int.floor_lt.mpr (by exact_mod_cast h)
  unfold roundHalfEven
  split_ifs <;> omega

/-- Helper: the rounded value is at least the floor, hence at least any
integer below the input. -/
theorem le_roundHalfEven {q : ℚ} {B : ℤ} (h : (B : ℚ) ≤ q) :
    B ≤ roundHalfEven q := by
  have hf : B ≤ ⌊q⌋ := Int.le_floor.mpr (by exact_mod_cast h)
  unfold roundHalfEven
  split_ifs <;> omega

/-- Helper: the rounding step maps the exact value of a canonical positive
finite float back to that float — the parse path is faithful on
representable values. -/
theorem roundNearestPos_value (fmt : FloatFmt) (hprec : 1 ≤ fmt.prec)
    (m : ℕ) (e : ℤ) (hm : 0 < m)
    (hc : Canonical fmt (.finite false m e)) :
    roundNearestPos fmt ((m : ℚ) * (2 : ℚ) ^ e) = .finite false m e := by
  obtain ⟨hmlt, he1, he2, hnorm⟩ := hc
  set q : ℚ := (m : ℚ) * (2 : ℚ) ^ e with hqdef
  have h2q : (0 : ℚ) < 2 := by norm_num
  have hzpos : (0 : ℚ) < (2 : ℚ) ^ e := zpow_pos h2q e
  have hq : 0 < q := mul_pos (by exact_mod_cast hm) hzpos
  have hp1 : ((fmt.prec - 1 : ℕ) : ℤ) = (fmt.prec : ℤ) - 1 := by
    omega
  have hcastp1 : (2 : ℚ) ^ ((fmt.prec : ℤ) - 1) = ((2 ^ (fmt.prec - 1) : ℕ) : ℚ) := by
    rw [← hp1, zpow_natCast]
    push_cast
    ring
  have hmax : max fmt.emin (Int.log 2 q - ((fmt.prec : ℤ) - 1)) = e := by
    by_cases hn : 2 ^ (fmt.prec - 1) ≤ m
    · have hlow : e + ((fmt.prec : ℤ) - 1) ≤ Int.log 2 q := by
        rw [← Int.zpow_le_iff_le_log (by norm_num) hq]
        rw [show ((2 : ℕ) : ℚ) = (2 : ℚ) from by norm_num]
        have hsplit : (2 : ℚ) ^ (e + ((fmt.prec : ℤ) - 1))
            = ((2 ^ (fmt.prec - 1) : ℕ) : ℚ) * (2 : ℚ) ^ e := by
          rw [zpow_add₀ (by norm_num : (2 : ℚ) ≠ 0), hcastp1]
          ring
        rw [hsplit]
        exact mul_le_mul_of_nonneg_right (by exact_mod_cast hn) (le_of_lt hzpos)
      have hup : Int.log 2 q < e + (fmt.prec : ℤ) := by
        rw [← Int.lt_zpow_iff_log_lt (by norm_num) hq]
        rw [show ((2 : ℕ) : ℚ) = (2 : ℚ) from by norm_num]
        have hsplit : (2 : ℚ) ^ (e + (fmt.prec : ℤ))
            = ((2 ^ fmt.prec : ℕ) : ℚ) * (2 : ℚ) ^ e := by
          rw [zpow_add₀ (by norm_num : (2 : ℚ) ≠ 0), zpow_natCast]
          push_cast
          ring
        rw [hsplit]
        exact mul_lt_mul_of_pos_right (by exact_mod_cast hmlt) hzpos
      have h3 : Int.log 2 q - ((fmt.prec : ℤ) - 1) = e := by omega
      rw [h3]
      exact max_eq_right he1
    · have hsub : e = fmt.emin := hnorm.resolve_left hn
      have hup : Int.log 2 q < e + ((fmt.prec : ℤ) - 1) := by
        rw [← Int.lt_zpow_iff_log_lt (by norm_num) hq]
        rw [show ((2 : ℕ) : ℚ) = (2 : ℚ) from by norm_num]
        have hsplit : (2 : ℚ) ^ (e + ((fmt.prec : ℤ) - 1))
            = ((2 ^ (fmt.prec - 1) : ℕ) : ℚ) * (2 : ℚ) ^ e := by
          rw [zpow_add₀ (by norm_num : (2 : ℚ) ≠ 0), hcastp1]
          ring
        rw [hsplit]
        exact mul_lt_mul_of_pos_right (by exact_mod_cast Nat.lt_of_not_le hn) hzpos
      have h3 : Int.log 2 q - ((fmt.prec : ℤ) - 1) < e := by omega
      rw [hsub] at h3 ⊢
      exact max_eq_left (le_of_lt h3)
  have hmaxd : max fmt.emin (Int.log 2 q - ((fmt.prec : ℤ) - 1))
      = max fmt.emin (Int.log 2 q - ((fmt.prec - 1 : ℤ))) := rfl
  unfold roundNearestPos
  rw [← hmaxd, hmax]
  have hscaled : q * (2 : ℚ) ^ (-e) = ((m : ℤ) : ℚ) := by
    rw [hqdef, mul_assoc, ← zpow_add₀ (by norm_num : (2 : ℚ) ≠ 0)]
    rw [add_neg_cancel, zpow_zero, mul_one]
    push_cast
    ring
  rw [hscaled, roundHalfEven_intCast]
  unfold mkRounded
  rw [if_neg (by omega), if_neg (by rw [Int.toNat_natCast]; omega),
    if_neg (by omega)]
  rw [Int.toNat_natCast]

/-!
### Exactness of the digit search
-/

/-- Helper: reduction of the value denoted by `sigDigits`: the rounded
scaled integer times the base to the complementary power. -/
theorem sciVal_sigDigits (radix : ℕ) (q : ℚ) (n : ℕ)
    (hpos : 0 ≤ roundHalfEven (q * (radix : ℚ) ^ ((n : ℤ) - 1 - Int.log radix q))) :
    sciVal radix (sigDigits radix q n).1 (sigDigits radix q n).2
      = ((roundHalfEven (q * (radix : ℚ) ^ ((n : ℤ) - 1 - Int.log radix q)) : ℤ) : ℚ)
          * (radix : ℚ) ^ (Int.log radix q - (n : ℤ) + 1) := by
  simp only [sigDigits, sciVal]
  rw [digitsVal_natDigits]
  have hcast : (((roundHalfEven (q * (radix : ℚ) ^ ((n : ℤ) - 1 - Int.log radix q))).toNat : ℚ))
      = ((roundHalfEven (q * (radix : ℚ) ^ ((n : ℤ) - 1 - Int.log radix q)) : ℤ) : ℚ) := by
    exact_mod_cast congrArg (fun z : ℤ => (z : ℚ)) (Int.toNat_of_nonneg hpos)
  rw [hcast]
  congr 1
  congr 1
  ring

/-- Helper: the scaled integer of `sigDigits` is at least 1 for a positive
input and at least one digit. -/
theorem sigDigits_scaled_pos (radix : ℕ) (hr : 2 ≤ radix) (q : ℚ)
    (hq : 0 < q) (n : ℕ) (hn : 1 ≤ n) :
    1 ≤ roundHalfEven (q * (radix : ℚ) ^ ((n : ℤ) - 1 - Int.log radix q)) := by
  have hrpos : (0 : ℚ) < (radix : ℚ) := by
    exact_mod_cast Nat.lt_of_lt_of_le (by norm_num) hr
  refine le_roundHalfEven ?_
  push_cast
  have hsplit : q * (radix : ℚ) ^ ((n : ℤ) - 1 - Int.log radix q)
      = (q * (radix : ℚ) ^ (-(Int.log radix q))) * (radix : ℚ) ^ ((n : ℤ) - 1) := by
    rw [mul_assoc, ← zpow_add₀ (ne_of_gt hrpos)]
    congr 1
    ring
  rw [hsplit]
  have h1 : (1 : ℚ) ≤ q * (radix : ℚ) ^ (-(Int.log radix q)) := by
    have hlog := Int.zpow_log_le_self (b := radix) (r := q)
      (Nat.lt_of_lt_of_le (by norm_num) hr) hq
    rw [zpow_neg]
    rw [← div_eq_mul_inv, le_div_iff₀ (zpow_pos hrpos _), one_mul]
    exact hlog
  have h2 : (1 : ℚ) ≤ (radix : ℚ) ^ ((n : ℤ) - 1) :=
    one_le_zpow₀ (by exact_mod_cast hr.trans' (by norm_num)) (by omega)
  calc (1 : ℚ) = 1 * 1 := by norm_num
    _ ≤ (q * (radix : ℚ) ^ (-(Int.log radix q))) * (radix : ℚ) ^ ((n : ℤ) - 1) :=
        mul_le_mul h1 h2 (by norm_num) (le_trans (by norm_num) h1)

/-- Helper: the digit list produced by `sigDigits` consists of digits of
the radix. -/
theorem sigDigits_digits_lt (radix : ℕ) (hr : 2 ≤ radix) (q : ℚ) (n : ℕ) :
    ∀ d ∈ (sigDigits radix q n).1, d < radix := by
  intro d hd
  simp only [sigDigits] at hd
  exact natDigits_lt radix _ hr d hd

/-- Helper: `exactLen` digits suffice to represent `m·2^e` exactly in
decimal. -/
theorem sigDigits_exact (m : ℕ) (e : ℤ) (hm : 0 < m) :
    sciVal 10 (sigDigits 10 ((m : ℚ) * (2 : ℚ) ^ e) (exactLen ((m : ℚ) * (2 : ℚ) ^ e) e)).1
        (sigDigits 10 ((m : ℚ) * (2 : ℚ) ^ e) (exactLen ((m : ℚ) * (2 : ℚ) ^ e) e)).2
      = (m : ℚ) * (2 : ℚ) ^ e := by
  set q : ℚ := (m : ℚ) * (2 : ℚ) ^ e with hqdef
  have h2pos : (0 : ℚ) < (2 : ℚ) ^ e := zpow_pos (by norm_num) e
  have hq : 0 < q := mul_pos (by exact_mod_cast hm) h2pos
  set E : ℤ := Int.log 10 q with hEdef
  have hE : min e 0 ≤ E := by
    rcases le_or_lt e 0 with he | he
    · rw [min_eq_left he]
      have step1 : (10 : ℚ) ^ e ≤ (2 : ℚ) ^ e := by
        set k : ℕ := (-e).toNat with hkdef
        have hek : e = -(k : ℤ) := by omega
        rw [hek, zpow_neg, zpow_neg, zpow_natCast, zpow_natCast]
        exact inv_le_inv_of_le (by positivity)
          (pow_le_pow_left (by norm_num) (by norm_num) k)
      have step2 : (2 : ℚ) ^ e ≤ q := by
        rw [hqdef]
        nth_rewrite 1 [← one_mul ((2 : ℚ) ^ e)]
        exact mul_le_mul_of_nonneg_right (by exact_mod_cast hm) (le_of_lt h2pos)
      have : (10 : ℚ) ^ e ≤ q := le_trans step1 step2
      rw [hEdef]
      rw [← Int.zpow_le_iff_le_log (by norm_num) hq]
      exact_mod_cast this
    · rw [min_eq_right (le_of_lt he)]
      rw [hEdef, ← Int.zpow_le_iff_le_log (by norm_num) hq]
      have h1q : (1 : ℚ) ≤ q := by
        rw [hqdef]
        have : (1 : ℚ) ≤ (2 : ℚ) ^ e := one_le_zpow₀ (by norm_num) (by omega)
        calc (1 : ℚ) = 1 * 1 := by norm_num
          _ ≤ (m : ℚ) * (2 : ℚ) ^ e :=
              mul_le_mul (by exact_mod_cast hm) this (by norm_num)
                (by exact_mod_cast Nat.zero_le m)
      simpa using h1q
  have hncast : ((exactLen q e : ℕ) : ℤ) = E + 1 - min e 0 := by
    unfold exactLen
    rw [← hEdef]
    omega
  obtain ⟨z, hz0, hzq⟩ : ∃ z : ℤ, 0 ≤ z ∧ (z : ℚ) = q * (10 : ℚ) ^ (-(min e 0)) := by
    rcases le_or_lt 0 e with he | he
    · refine ⟨(m : ℤ) * 2 ^ e.toNat, by positivity, ?_⟩
      rw [min_eq_right he, neg_zero, zpow_zero, mul_one, hqdef]
      have h2e : (2 : ℚ) ^ e = (2 : ℚ) ^ (e.toNat : ℕ) := by
        rw [← zpow_natCast]
        congr 1
        omega
      rw [h2e]
      push_cast
      ring
    · refine ⟨(m : ℤ) * 5 ^ (-e).toNat, by positivity, ?_⟩
      rw [min_eq_left (le_of_lt he), hqdef]
      have h10 : (10 : ℚ) ^ (-e) = (2 : ℚ) ^ (-e) * (5 : ℚ) ^ (-e) := by
        rw [← mul_zpow]
        norm_num
      rw [h10]
      have hcancel : (2 : ℚ) ^ e * ((2 : ℚ) ^ (-e) * (5 : ℚ) ^ (-e))
          = (5 : ℚ) ^ (-e) := by
        rw [← mul_assoc, ← zpow_add₀ (by norm_num : (2 : ℚ) ≠ 0)]
        simp
      have h5e : (5 : ℚ) ^ (-e) = (5 : ℚ) ^ ((-e).toNat : ℕ) := by
        rw [← zpow_natCast]
        congr 1
        omega
      rw [mul_assoc, hcancel, h5e]
      push_cast
      ring
  have hcast10 : ((10 : ℕ) : ℚ) = (10 : ℚ) := by norm_num
  have harg2 : q * ((10 : ℕ) : ℚ) ^ ((exactLen q e : ℤ) - 1 - Int.log 10 q) = (z : ℚ) := by
    rw [hcast10, ← hEdef, hncast, hzq]
    congr 1
    congr 1
    ring
  rw [sciVal_sigDigits 10 q (exactLen q e)
    (by rw [harg2, roundHalfEven_intCast]; exact hz0)]
  rw [harg2, roundHalfEven_intCast, hzq, hcast10, ← hEdef]
  rw [mul_assoc, ← zpow_add₀ (by norm_num : (10 : ℚ) ≠ 0)]
  have hzero : -(min e 0) + (E - (exactLen q e : ℤ) + 1) = 0 := by omega
  rw [hzero, zpow_zero, mul_one]

/-- Helper: the digit-count search preserves the round-back property when
some count within the fuel satisfies it. -/
theorem searchShortest_spec (fmt : FloatFmt) (q : ℚ) (target : FloatVal)
    (k fuel : ℕ)
    (h : roundNearestPos fmt (sciVal 10 (sigDigits 10 q (k + fuel)).1
      (sigDigits 10 q (k + fuel)).2) = target) :
    roundNearestPos fmt (sciVal 10 (searchShortest fmt q target k fuel).1
      (searchShortest fmt q target k fuel).2) = target := by
  induction fuel generalizing k with
  | zero =>
    unfold searchShortest
    simpa using h
  | succ n ih =>
    unfold searchShortest
    by_cases hc : roundNearestPos fmt (sciVal 10 (sigDigits 10 q k).1
        (sigDigits 10 q k).2) = target
    · simpa [hc] using hc
    · have hk : k + 1 + n = k + (n + 1) := by omega
      simp only [hc, if_neg, if_false]
      exact ih (k + 1) (by rw [hk]; exact h)

/-- Helper: the search always returns the digits of some count at least
one. -/
theorem searchShortest_eq_sigDigits (fmt : FloatFmt) (q : ℚ)
    (target : FloatVal) (k fuel : ℕ) :
    ∃ n, k ≤ n ∧ n ≤ k + fuel ∧
      searchShortest fmt q target k fuel = sigDigits 10 q n := by
  induction fuel generalizing k with
  | zero => exact ⟨k, le_refl k, by omega, rfl⟩
  | succ n ih =>
    unfold searchShortest
    by_cases hc : roundNearestPos fmt (sciVal 10 (sigDigits 10 q k).1
        (sigDigits 10 q k).2) = target
    · refine ⟨k, le_refl k, by omega, ?_⟩
      simp [hc]
    · obtain ⟨n', hn', hub', he⟩ := ih (k + 1)
      refine ⟨n', by omega, by omega, ?_⟩
      simp only [hc, if_false]
      exact he

/-!
### Parser structural lemmas
-/

/-- Helper: a digit's byte converts back to the digit. -/
theorem charToDigit_digitByte {d radix : ℕ} (hd : d < radix)
    (hr : radix ≤ 36) : charToDigit (digitByte d) radix = some d := by
  unfold digitByte charToDigit
  by_cases h10 : d < 10
  · rw [if_pos h10, if_pos (by omega), if_pos (by omega)]
    simp
  · rw [if_neg h10, if_neg (by omega), if_pos (by omega), if_pos (by omega)]
    simp

/-- Helper: a digit's byte is recognized as a digit. -/
theorem isDigitByte_digitByte {d radix : ℕ} (hd : d < radix)
    (hr : radix ≤ 36) : isDigitByte radix (digitByte d) = true := by
  unfold isDigitByte
  rw [charToDigit_digitByte hd hr]
  rfl

/-- Helper: every byte of a rendered digit list is recognized as a
digit. -/
theorem isDigitByte_renderDigits {radix : ℕ} (hr : radix ≤ 36)
    {ds : List ℕ} (hds : ∀ d ∈ ds, d < radix) :
    ∀ b ∈ renderDigits ds, isDigitByte radix b = true := by
  intro b hb
  obtain ⟨d, hd, rfl⟩ := List.mem_map.mp hb
  exact isDigitByte_digitByte (hds d hd) hr

/-- Helper: the byte of a decimal digit lies in the ASCII digit range. -/
theorem digitByte_range {d : ℕ} (hd : d < 10) :
    48 ≤ digitByte d ∧ digitByte d ≤ 57 := by
  unfold digitByte
  rw [if_pos hd]
  omega

/-- Helper: `scanDigits` consumes exactly a leading digit run followed by
a non-digit (or nothing). -/
theorem scanDigits_append (radix : ℕ) (p rest : List ℕ)
    (hp : ∀ b ∈ p, isDigitByte radix b = true)
    (hr : ∀ b, rest.head? = some b → isDigitByte radix b = false) :
    scanDigits radix (p ++ rest) = (p, rest) := by
  induction p with
  | nil =>
    cases rest with
    | nil => rfl
    | cons b t =>
      have hb := hr b rfl
      simp only [List.nil_append]
      unfold scanDigits
      rw [if_neg (by rw [hb]; exact (by decide))]
  | cons b t ih =>
    have hb : isDigitByte radix b = true := hp b (List.mem_cons_self b t)
    simp only [List.cons_append]
    unfold scanDigits
    rw [if_pos hb]
    rw [ih (fun x hx => hp x (List.mem_cons_of_mem b hx))]

/-- Helper: the Horner value of rendered digit bytes equals the Horner
value of the digits, accumulator included. -/
theorem digitBytesVal_foldl (radix : ℕ) (hr : radix ≤ 36) :
    ∀ (ds : List ℕ), (∀ d ∈ ds, d < radix) → ∀ acc : ℕ,
    (renderDigits ds).foldl
        (fun a b => a * radix + (charToDigit b radix).getD 0) acc
      = ds.foldl (fun a d => a * radix + d) acc := by
  intro ds
  induction ds with
  | nil => intro _ acc; rfl
  | cons d t ih =>
    intro hm acc
    simp only [renderDigits, List.map_cons, List.foldl_cons]
    rw [charToDigit_digitByte (hm d (List.mem_cons_self d t)) hr]
    exact ih (fun x hx => hm x (List.mem_cons_of_mem d hx)) _

/-- Helper: the value of rendered digit bytes is the value of the
digits. -/
theorem digitBytesVal_renderDigits (radix : ℕ) (hr : radix ≤ 36)
    (ds : List ℕ) (hds : ∀ d ∈ ds, d < radix) :
    digitBytesVal radix (renderDigits ds) = digitsVal radix ds :=
  digitBytesVal_foldl radix hr ds hds 0

/-- Helper: a list not starting with a sign byte is untouched by
`scanSign`. -/
theorem scanSign_nosign {bs : List ℕ}
    (h : ∀ b, bs.head? = some b → b ≠ byteMinus ∧ b ≠ bytePlus) :
    scanSign bs = (false, 0, bs) := by
  cases bs with
  | nil => rfl
  | cons b t =>
    obtain ⟨h1, h2⟩ := h b rfl
    simp only [scanSign]
    rw [if_neg h1, if_neg h2]

/-- Helper: a nonempty list is not a prefix of a list with a different
head. -/
theorem isPrefixOf_false {c b : ℕ} {s bs : List ℕ}
    (hs : s.head? = some c) (hb : bs.head? = some b) (hne : c ≠ b) :
    s.isPrefixOf bs = false := by
  cases s with
  | nil => exact absurd hs (by simp)
  | cons c' s' =>
    cases bs with
    | nil => exact absurd hb (by simp)
    | cons b' bs' =>
      have hc : c' = c := by simpa using hs
      have hbb : b' = b := by simpa using hb
      subst hc
      subst hbb
      simp [List.isPrefixOf, hne]

/-- Helper: the rendered exponent section is consumed whole by
`scanExpPart` and yields the exponent value. -/
theorem scanExpPart_renderExp (E : ℤ) (hE : E ≠ 0) :
    scanExpPart 10 byteE (byteE :: renderExpDigits 10 E)
      = (1 + (renderExpDigits 10 E).length, E, []) := by
  have hlt : ∀ k : ℕ, ∀ d ∈ natDigits 10 k, d < 10 :=
    fun k => natDigits_lt 10 k (by norm_num)
  have hdig : ∀ k : ℕ, scanDigits 10 (renderDigits (natDigits 10 k))
      = (renderDigits (natDigits 10 k), []) := by
    intro k
    have h := scanDigits_append 10 (renderDigits (natDigits 10 k)) []
      (isDigitByte_renderDigits (by norm_num) (hlt k))
      (by intro b hb; simp at hb)
    simpa using h
  have hne : ∀ k : ℕ, k ≠ 0 → renderDigits (natDigits 10 k) ≠ [] := by
    intro k hk
    unfold renderDigits natDigits
    simp [Nat.digits_ne_nil_iff_ne_zero, hk]
  have hval : ∀ k : ℕ, digitBytesVal 10 (renderDigits (natDigits 10 k)) = k := by
    intro k
    rw [digitBytesVal_renderDigits 10 (by norm_num) _ (hlt k), digitsVal_natDigits]
  rcases lt_or_le E 0 with hneg | hpos
  · have hk0 : (-E).toNat ≠ 0 := by omega
    have hexp : renderExpDigits 10 E
        = byteMinus :: renderDigits (natDigits 10 (-E).toNat) := by
      unfold renderExpDigits
      rw [if_pos hneg]
    have hsgn : scanSign (byteMinus :: renderDigits (natDigits 10 (-E).toNat))
        = (true, 1, renderDigits (natDigits 10 (-E).toNat)) := by
      simp [scanSign]
    rw [hexp]
    simp only [scanExpPart]
    rw [if_pos trivial]
    simp [hsgn, hdig, hval, hne _ hk0]
    omega
  · have hEpos : 0 < E := lt_of_le_of_ne hpos (Ne.symm hE)
    have hk0 : E.toNat ≠ 0 := by omega
    have hexp : renderExpDigits 10 E = renderDigits (natDigits 10 E.toNat) := by
      unfold renderExpDigits
      rw [if_neg (by omega)]
    have hhead : ∀ b, (renderDigits (natDigits 10 E.toNat)).head? = some b →
        b ≠ byteMinus ∧ b ≠ bytePlus := by
      intro b hb
      cases hds : natDigits 10 E.toNat with
      | nil =>
        rw [hds] at hb
        exact absurd hb (by simp [renderDigits])
      | cons d t =>
        rw [hds] at hb
        have hbd : digitByte d = b := by simpa [renderDigits] using hb
        have hd : d < 10 := by
          refine hlt E.toNat d ?_
          rw [hds]
          exact List.mem_cons_self d t
        obtain ⟨hr1, hr2⟩ := digitByte_range hd
        rw [← hbd]
        unfold byteMinus bytePlus
        omega
    have hsgn : scanSign (renderDigits (natDigits 10 E.toNat))
        = (false, 0, renderDigits (natDigits 10 E.toNat)) := scanSign_nosign hhead
    rw [hexp]
    simp only [scanExpPart]
    rw [if_pos trivial]
    simp [hsgn, hdig, hval, hne _ hk0]
    omega

/-- Helper: the parser body consumes a rendered
`digits . digits [exponent]` shape whole and computes the exact scaled
digit value before rounding. -/
theorem atofBody_digits (fmt : FloatFmt) (sgn : Bool) (s : ℕ)
    (ib fb tail : List ℕ) (exval : ℤ)
    (hib : ib ≠ [])
    (hi : ∀ b ∈ ib, isDigitByte 10 b = true)
    (hf : ∀ b ∈ fb, isDigitByte 10 b = true)
    (hfb : fb ≠ [])
    (hhead : ∀ b, ib.head? = some b → 48 ≤ b ∧ b ≤ 57)
    (htail1 : scanExpPart 10 byteE tail = (tail.length, exval, []))
    (htail2 : ∀ b, tail.head? = some b → isDigitByte 10 b = false) :
    atofBody fmt 10 byteE defaultNanString defaultInfString
        defaultInfinityString sgn s (ib ++ byteDot :: (fb ++ tail))
      = (s + ib.length + (fb.length + 1) + tail.length,
         if digitBytesVal 10 (ib ++ fb) = 0 then FloatVal.finite sgn 0 fmt.emin
         else (roundNearestPos fmt ((digitBytesVal 10 (ib ++ fb) : ℚ)
            * (10 : ℚ) ^ (exval - (fb.length : ℤ)))).withSign sgn) := by
  obtain ⟨c, ib', rfl⟩ : ∃ c ib', ib = c :: ib' := by
    cases ib with
    | nil => exact absurd rfl hib
    | cons c t => exact ⟨c, t, rfl⟩
  obtain ⟨hc1, hc2⟩ := hhead c rfl
  have hhd : ((c :: ib') ++ byteDot :: (fb ++ tail)).head? = some c := rfl
  have hpre1 : defaultInfinityString.isPrefixOf
      ((c :: ib') ++ byteDot :: (fb ++ tail)) = false :=
    isPrefixOf_false rfl hhd (by unfold byteDot at *; omega)
  have hpre2 : defaultInfString.isPrefixOf
      ((c :: ib') ++ byteDot :: (fb ++ tail)) = false :=
    isPrefixOf_false rfl hhd (by unfold byteDot at *; omega)
  have hpre3 : defaultNanString.isPrefixOf
      ((c :: ib') ++ byteDot :: (fb ++ tail)) = false :=
    isPrefixOf_false rfl hhd (by unfold byteDot at *; omega)
  have hscan : scanDigits 10 ((c :: ib') ++ byteDot :: (fb ++ tail))
      = (c :: ib', byteDot :: (fb ++ tail)) := by
    refine scanDigits_append 10 (c :: ib') (byteDot :: (fb ++ tail)) hi ?_
    intro b hb
    have hbb : byteDot = b := by simpa using hb
    rw [← hbb]
    decide
  have hfrac : scanFrac 10 (byteDot :: (fb ++ tail)) = (fb.length + 1, fb, tail) := by
    simp only [scanFrac]
    rw [if_pos trivial]
    rw [scanDigits_append 10 fb tail hf htail2]
    rw [if_neg hfb]
  simp only [atofBody, hpre1, hpre2, hpre3, Bool.false_eq_true, if_false,
    hscan, hfrac, htail1]
  rw [if_neg (by simp)]
  norm_num

/-- Helper: rendering preserves nonemptiness. -/
theorem renderDigits_ne_nil {ds : List ℕ} (h : ds ≠ []) :
    renderDigits ds ≠ [] := by
  simp [renderDigits, h]

/-- Helper: rendering preserves length. -/
theorem renderDigits_length (ds : List ℕ) :
    (renderDigits ds).length = ds.length := by
  simp [renderDigits]

/-- Helper: the head byte of rendered decimal digits is an ASCII digit. -/
theorem renderDigits_headRange {ds : List ℕ} (hne : ds ≠ [])
    (hds : ∀ d ∈ ds, d < 10) :
    ∀ b, (renderDigits ds).head? = some b → 48 ≤ b ∧ b ≤ 57 := by
  cases ds with
  | nil => exact absurd rfl hne
  | cons d t =>
    intro b hb
    have hbd : digitByte d = b := by simpa [renderDigits] using hb
    rw [← hbd]
    exact digitByte_range (hds d (List.mem_cons_self d t))

/-- Helper: power-of-ten step for the exponent bookkeeping. -/
theorem ten_zpow_succ (X : ℤ) : (10 : ℚ) ^ (X + 1) = (10 : ℚ) ^ X * 10 :=
  zpow_add_one₀ (by norm_num) X

set_option maxHeartbeats 1000000

/-- Helper: parsing a rendered digit/exponent layout consumes it whole and
rounds the denoted value. -/
theorem atofBody_render (fmt : FloatFmt) (sgn : Bool) (s : ℕ)
    (ds : List ℕ) (E : ℤ) (hne : ds ≠ []) (hds : ∀ d ∈ ds, d < 10)
    (hv : 0 < digitsVal 10 ds) :
    atofBody fmt 10 byteE defaultNanString defaultInfString
        defaultInfinityString sgn s (render 10 ds E)
      = (s + (render 10 ds E).length,
         (roundNearestPos fmt (sciVal 10 ds E)).withSign sgn) := by
  have hcast10 : ((10 : ℕ) : ℚ) = (10 : ℚ) := by norm_num
  have hnlen : 0 < ds.length := List.length_pos.mpr hne
  unfold render
  by_cases h1 : 0 ≤ E ∧ E < (ds.length : ℤ)
  · rw [if_pos h1]
    by_cases h2 : ds.length ≤ E.toNat + 1
    · rw [if_pos h2]
      have htake : ds.take (E.toNat + 1) = ds := List.take_of_length_le h2
      rw [htake]
      have hshape : renderDigits ds ++ [byteDot] ++ [byteZero]
          = renderDigits ds ++ byteDot :: ([byteZero] ++ []) := by
        simp only [List.append_assoc, List.append_nil, List.singleton_append]
      rw [hshape]
      rw [atofBody_digits fmt sgn s (renderDigits ds) [byteZero] [] 0
        (renderDigits_ne_nil hne)
        (isDigitByte_renderDigits (by norm_num) hds)
        (by decide)
        (by decide)
        (renderDigits_headRange hne hds)
        (by rfl)
        (by intro b hb; simp at hb)]
      have hmant : digitBytesVal 10 (renderDigits ds ++ [byteZero])
          = digitsVal 10 ds * 10 := by
        have : renderDigits ds ++ [byteZero] = renderDigits (ds ++ [0]) := by
          simp [renderDigits, digitByte, byteZero]
        rw [this, digitBytesVal_renderDigits 10 (by norm_num) _
          (by intro d hd; rcases List.mem_append.mp hd with h | h
              · exact hds d h
              · simp at h; omega), digitsVal_append_zero]
      have hEn : E = (ds.length : ℤ) - 1 := by omega
      simp only [Prod.mk.injEq]
      constructor
      · simp [renderDigits_length]
        omega
      · rw [hmant, if_neg (by omega)]
        congr 1
        congr 1
        unfold sciVal
        rw [hcast10, hEn]
        have hzero : ((ds.length : ℤ) - 1 - (ds.length : ℤ) + 1) = 0 := by ring
        rw [hzero, zpow_zero, mul_one]
        simp only [List.length_singleton, Nat.cast_one]
        rw [show ((0 : ℤ) - 1) = -1 from by norm_num, zpow_neg, zpow_one]
        push_cast
        field_simp
    · rw [if_neg h2]
      have hEk : E.toNat + 1 ≤ ds.length := by omega
      have htk : ds.take (E.toNat + 1) ≠ [] := by
        intro hcontra
        rcases List.take_eq_nil_iff.mp hcontra with h | h
        · exact absurd h (by omega)
        · exact hne h
      have hdr : ds.drop (E.toNat + 1) ≠ [] := by
        intro hcontra
        have := congrArg List.length hcontra
        rw [List.length_drop] at this
        simp at this
        omega
      have hshape : renderDigits (ds.take (E.toNat + 1)) ++ [byteDot]
            ++ renderDigits (ds.drop (E.toNat + 1))
          = renderDigits (ds.take (E.toNat + 1))
            ++ byteDot :: (renderDigits (ds.drop (E.toNat + 1)) ++ []) := by
        simp only [List.append_assoc, List.append_nil, List.singleton_append]
      rw [hshape]
      rw [atofBody_digits fmt sgn s (renderDigits (ds.take (E.toNat + 1)))
        (renderDigits (ds.drop (E.toNat + 1))) [] 0
        (renderDigits_ne_nil htk)
        (isDigitByte_renderDigits (by norm_num)
          (fun d hd => hds d (List.take_subset _ _ hd)))
        (isDigitByte_renderDigits (by norm_num)
          (fun d hd => hds d (List.drop_subset _ _ hd)))
        (renderDigits_ne_nil hdr)
        (renderDigits_headRange htk
          (fun d hd => hds d (List.take_subset _ _ hd)))
        (by rfl)
        (by intro b hb; simp at hb)]
      have hmant : digitBytesVal 10 (renderDigits (ds.take (E.toNat + 1))
            ++ renderDigits (ds.drop (E.toNat + 1))) = digitsVal 10 ds := by
        have hjoin : renderDigits (ds.take (E.toNat + 1))
              ++ renderDigits (ds.drop (E.toNat + 1)) = renderDigits ds := by
          unfold renderDigits
          rw [← List.map_append, List.take_append_drop]
        rw [hjoin, digitBytesVal_renderDigits 10 (by norm_num) _ hds]
      simp only [Prod.mk.injEq]
      constructor
      · simp [renderDigits_length]
        omega
      · rw [hmant, if_neg (by omega)]
        congr 1
        congr 1
        unfold sciVal
        rw [hcast10]
        congr 1
        congr 1
        rw [renderDigits_length, List.length_drop]
        push_cast [hEk]
        omega
  · rw [if_neg h1]
    by_cases h2 : -4 ≤ E ∧ E < 0
    · rw [if_pos h2]
      have hz : (-(E + 1)).toNat = (-E - 1).toNat := by omega
      have hshape : [byteZero, byteDot] ++ List.replicate (-(E + 1)).toNat byteZero
            ++ renderDigits ds
          = [byteZero] ++ byteDot ::
            ((List.replicate (-(E + 1)).toNat byteZero ++ renderDigits ds) ++ []) := by
        simp only [List.append_assoc, List.append_nil, List.cons_append,
          List.nil_append, List.singleton_append]
      rw [hshape]
      rw [atofBody_digits fmt sgn s [byteZero]
        (List.replicate (-(E + 1)).toNat byteZero ++ renderDigits ds) [] 0
        (by decide)
        (by decide)
        (by intro b hb
            rcases List.mem_append.mp hb with h | h
            · have : b = byteZero := List.eq_of_mem_replicate h
              subst this
              decide
            · exact isDigitByte_renderDigits (by norm_num) hds b h)
        (by intro hcontra
            rcases List.append_eq_nil.mp hcontra with ⟨_, h⟩
            exact renderDigits_ne_nil hne h)
        (by intro b hb
            have hbz : byteZero = b := by simpa using hb
            subst hbz
            decide)
        (by rfl)
        (by intro b hb; simp at hb)]
      have hmant : digitBytesVal 10 ([byteZero]
            ++ (List.replicate (-(E + 1)).toNat byteZero ++ renderDigits ds))
          = digitsVal 10 ds := by
        have hjoin : [byteZero]
              ++ (List.replicate (-(E + 1)).toNat byteZero ++ renderDigits ds)
            = renderDigits (List.replicate ((-(E + 1)).toNat + 1) 0 ++ ds) := by
          unfold renderDigits
          rw [List.map_append, List.map_replicate]
          simp [digitByte, byteZero, List.replicate_succ, List.append_assoc]
        rw [hjoin, digitBytesVal_renderDigits 10 (by norm_num) _
          (by intro d hd
              rcases List.mem_append.mp hd with h | h
              · have : d = 0 := List.eq_of_mem_replicate h
                omega
              · exact hds d h), digitsVal_replicate_zero]
      simp only [Prod.mk.injEq]
      constructor
      · simp [renderDigits_length]
        omega
      · rw [hmant, if_neg (by omega)]
        congr 1
        congr 1
        unfold sciVal
        rw [hcast10]
        congr 1
        congr 1
        simp only [List.length_append, List.length_replicate, renderDigits_length]
        push_cast
        omega
    · rw [if_neg h2]
      cases ds with
      | nil => exact absurd rfl hne
      | cons d rest =>
        dsimp only
        have hE0 : E ≠ 0 := by
          intro hcontra
          subst hcontra
          apply h1
          constructor
          · norm_num
          · simp only [List.length_cons]
            push_cast
            omega
        have hexpchar : exponent_notation_char 10 = byteE := by decide
        have htail1 : scanExpPart 10 byteE (byteE :: renderExpDigits 10 E)
            = ((byteE :: renderExpDigits 10 E).length, E, []) := by
          rw [scanExpPart_renderExp E hE0]
          simp only [List.length_cons]
          rw [Nat.add_comm]
        have htail2 : ∀ b, (byteE :: renderExpDigits 10 E).head? = some b →
            isDigitByte 10 b = false := by
          intro b hb
          have hbe : byteE = b := by simpa using hb
          subst hbe
          decide
        by_cases hrest : rest = []
        · subst hrest
          have hshape : digitByte d :: byteDot ::
                ((if ([] : List ℕ) = [] then [byteZero] else renderDigits []) ++
                  (exponent_notation_char 10 :: renderExpDigits 10 E))
              = [digitByte d] ++ byteDot ::
                ([byteZero] ++ (byteE :: renderExpDigits 10 E)) := by
            rw [if_pos rfl, hexpchar]
            simp only [List.singleton_append, List.cons_append, List.nil_append]
          rw [hshape]
          rw [atofBody_digits fmt sgn s [digitByte d] [byteZero]
            (byteE :: renderExpDigits 10 E) E
            (by simp)
            (by intro b hb
                have hbd : b = digitByte d := by simpa using hb
                subst hbd
                exact isDigitByte_digitByte (hds d (by simp)) (by norm_num))
            (by decide)
            (by decide)
            (by intro b hb
                have hbd : digitByte d = b := by simpa using hb
                subst hbd
                exact digitByte_range (hds d (by simp)))
            htail1
            htail2]
          have hmant : digitBytesVal 10 ([digitByte d] ++ [byteZero])
              = digitsVal 10 [d] * 10 := by
            have hjoin : [digitByte d] ++ [byteZero] = renderDigits ([d] ++ [0]) := by
              simp [renderDigits, digitByte, byteZero]
            rw [hjoin, digitBytesVal_renderDigits 10 (by norm_num) _
              (by intro x hx
                  rcases List.mem_append.mp hx with h | h
                  · have hxd : x = d := List.mem_singleton.mp h
                    subst hxd
                    exact hds x (by simp)
                  · have hx0 : x = 0 := List.mem_singleton.mp h
                    omega), digitsVal_append_zero]
          simp only [Prod.mk.injEq]
          constructor
          · simp [renderDigits_length]
            omega
          · rw [hmant, if_neg (by omega)]
            congr 1
            congr 1
            unfold sciVal
            rw [hcast10]
            simp only [List.length_singleton, List.length_cons, List.length_nil,
              Nat.cast_one]
            push_cast
            rw [show (E - (1 : ℤ) + 1) = E from by ring]
            rw [show (10 : ℚ) ^ E = (10 : ℚ) ^ (E - 1) * 10 from by
              rw [← ten_zpow_succ]
              congr 1
              ring]
            ring
        · have hshape : digitByte d :: byteDot ::
                ((if rest = [] then [byteZero] else renderDigits rest) ++
                  (exponent_notation_char 10 :: renderExpDigits 10 E))
              = [digitByte d] ++ byteDot ::
                (renderDigits rest ++ (byteE :: renderExpDigits 10 E)) := by
            rw [if_neg hrest, hexpchar]
            simp only [List.singleton_append, List.cons_append, List.nil_append]
          rw [hshape]
          rw [atofBody_digits fmt sgn s [digitByte d] (renderDigits rest)
            (byteE :: renderExpDigits 10 E) E
            (by simp)
            (by intro b hb
                have hbd : b = digitByte d := by simpa using hb
                subst hbd
                exact isDigitByte_digitByte (hds d (by simp)) (by norm_num))
            (isDigitByte_renderDigits (by norm_num)
              (fun x hx => hds x (List.mem_cons_of_mem d hx)))
            (renderDigits_ne_nil hrest)
            (by intro b hb
                have hbd : digitByte d = b := by simpa using hb
                subst hbd
                exact digitByte_range (hds d (by simp)))
            htail1
            htail2]
          have hmant : digitBytesVal 10 ([digitByte d] ++ renderDigits rest)
              = digitsVal 10 (d :: rest) := by
            have hjoin : [digitByte d] ++ renderDigits rest
                = renderDigits (d :: rest) := by
              simp [renderDigits]
            rw [hjoin, digitBytesVal_renderDigits 10 (by norm_num) _ hds]
          simp only [Prod.mk.injEq]
          constructor
          · simp [renderDigits_length]
            omega
          · rw [hmant, if_neg (by omega)]
            congr 1
            congr 1
            unfold sciVal
            rw [hcast10]
            congr 1
            congr 1
            rw [renderDigits_length]
            simp only [List.length_cons]
            push_cast
            omega

/-- Helper: the base-10 logarithm of `m·2^e` is at least `min e 0`. -/
theorem log_ten_ge_min (m : ℕ) (e : ℤ) (hm : 0 < m) :
    min e 0 ≤ Int.log 10 ((m : ℚ) * (2 : ℚ) ^ e) := by
  set q : ℚ := (m : ℚ) * (2 : ℚ) ^ e with hqdef
  have h2pos : (0 : ℚ) < (2 : ℚ) ^ e := zpow_pos (by norm_num) e
  have hq : 0 < q := mul_pos (by exact_mod_cast hm) h2pos
  rcases le_or_lt e 0 with he | he
  · rw [min_eq_left he]
    have step1 : (10 : ℚ) ^ e ≤ (2 : ℚ) ^ e := by
      set k : ℕ := (-e).toNat with hkdef
      have hek : e = -(k : ℤ) := by omega
      rw [hek, zpow_neg, zpow_neg, zpow_natCast, zpow_natCast]
      exact inv_anti₀ (by positivity)
        (pow_le_pow_left₀ (by norm_num) (by norm_num) k)
    have step2 : (2 : ℚ) ^ e ≤ q := by
      rw [hqdef]
      nth_rewrite 1 [← one_mul ((2 : ℚ) ^ e)]
      exact mul_le_mul_of_nonneg_right (by exact_mod_cast hm) (le_of_lt h2pos)
    have hle : (10 : ℚ) ^ e ≤ q := le_trans step1 step2
    rw [← Int.zpow_le_iff_le_log (by norm_num) hq]
    exact_mod_cast hle
  · rw [min_eq_right (le_of_lt he)]
    rw [← Int.zpow_le_iff_le_log (by norm_num) hq]
    have h1q : (1 : ℚ) ≤ q := by
      rw [hqdef]
      have h2e : (1 : ℚ) ≤ (2 : ℚ) ^ e := one_le_zpow₀ (by norm_num) (by omega)
      calc (1 : ℚ) = 1 * 1 := by norm_num
        _ ≤ (m : ℚ) * (2 : ℚ) ^ e :=
            mul_le_mul (by exact_mod_cast hm) h2e (by norm_num)
              (by exact_mod_cast Nat.zero_le m)
    simpa using h1q

/-- Helper: at least one significant digit is always needed. -/
theorem exactLen_pos (m : ℕ) (e : ℤ) (hm : 0 < m) :
    1 ≤ exactLen ((m : ℚ) * (2 : ℚ) ^ e) e := by
  have h := log_ten_ge_min m e hm
  unfold exactLen
  omega

/-- Helper: the first byte of a rendered layout is an ASCII digit. -/
theorem render_headRange (ds : List ℕ) (E : ℤ) (hne : ds ≠ [])
    (hds : ∀ d ∈ ds, d < 10) :
    ∀ b, (render 10 ds E).head? = some b → 48 ≤ b ∧ b ≤ 57 := by
  cases ds with
  | nil => exact absurd rfl hne
  | cons d t =>
    have hd : d < 10 := hds d (by simp)
    intro b hb
    unfold render at hb
    by_cases h1 : 0 ≤ E ∧ E < ((d :: t).length : ℤ)
    · rw [if_pos h1] at hb
      rw [List.take_succ_cons] at hb
      have hbd : digitByte d = b := by
        simpa [renderDigits] using hb
      rw [← hbd]
      exact digitByte_range hd
    · rw [if_neg h1] at hb
      by_cases h2 : -4 ≤ E ∧ E < 0
      · rw [if_pos h2] at hb
        have hbz : byteZero = b := by simpa using hb
        rw [← hbz]
        exact ⟨le_refl 48, by norm_num [byteZero]⟩
      · rw [if_neg h2] at hb
        have hbd : digitByte d = b := by simpa using hb
        rw [← hbd]
        exact digitByte_range hd

/-- Helper: a rendered layout is never empty. -/
theorem render_ne_nil (ds : List ℕ) (E : ℤ) (hne : ds ≠ []) :
    render 10 ds E ≠ [] := by
  unfold render
  cases ds with
  | nil => exact absurd rfl hne
  | cons d t =>
    by_cases h1 : 0 ≤ E ∧ E < ((d :: t).length : ℤ)
    · rw [if_pos h1, List.take_succ_cons]
      simp [renderDigits]
    · rw [if_neg h1]
      by_cases h2 : -4 ≤ E ∧ E < 0
      · rw [if_pos h2]
        simp
      · rw [if_neg h2]
        simp

/-- Helper: sign and punctuation bytes are never digits of any radix. -/
theorem isDigitByte_punct (radix : ℕ) :
    isDigitByte radix byteMinus = false ∧ isDigitByte radix bytePlus = false ∧
    isDigitByte radix byteDot = false := by
  unfold isDigitByte charToDigit byteMinus bytePlus byteDot
  norm_num

/-- Helper: the exponent notation character is never a digit of its
radix. -/
theorem isDigitByte_expChar (radix : ℕ) :
    isDigitByte radix (exponent_notation_char radix) = false := by
  unfold exponent_notation_char
  by_cases h : 15 ≤ radix
  · rw [if_pos h]
    unfold isDigitByte charToDigit byteCaret
    norm_num
  · rw [if_neg h]
    unfold isDigitByte charToDigit byteE
    rw [if_neg (by norm_num), if_pos (by norm_num), if_neg (by omega)]
    rfl

/-- Helper: the exponent notation character is never the dot byte. -/
theorem expChar_ne_dot (radix : ℕ) : exponent_notation_char radix ≠ byteDot := by
  unfold exponent_notation_char byteCaret byteE byteDot
  split_ifs <;> omega

/-- Helper: a digit byte is not a sign byte. -/
theorem digit_not_sign {radix b : ℕ} (h : isDigitByte radix b = true) :
    b ≠ byteMinus ∧ b ≠ bytePlus := by
  constructor
  · rintro rfl
    rw [(isDigitByte_punct radix).1] at h
    simp at h
  · rintro rfl
    rw [(isDigitByte_punct radix).2.1] at h
    simp at h

/-- Helper: the digit scan splits its input into a digit run and a rest
not starting with a digit. -/
theorem scanDigits_decomp (radix : ℕ) : ∀ bs : List ℕ,
    bs = (scanDigits radix bs).1 ++ (scanDigits radix bs).2 ∧
    (∀ b ∈ (scanDigits radix bs).1, isDigitByte radix b = true) ∧
    (∀ b, (scanDigits radix bs).2.head? = some b →
      isDigitByte radix b = false) := by
  intro bs
  induction bs with
  | nil => exact ⟨rfl, by simp [scanDigits], by simp [scanDigits]⟩
  | cons b t ih =>
    by_cases h : isDigitByte radix b = true
    · obtain ⟨h1, h2, h3⟩ := ih
      simp only [scanDigits]
      rw [if_pos h]
      refine ⟨?_, ?_, h3⟩
      · rw [List.cons_append]
        exact congrArg (List.cons b) h1
      · intro x hx
        rcases List.mem_cons.mp hx with rfl | hx'
        · exact h
        · exact h2 x hx'
    · have hb : isDigitByte radix b = false := by
        rw [Bool.not_eq_true] at h
        exact h
      simp only [scanDigits]
      rw [if_neg h]
      refine ⟨rfl, by simp, ?_⟩
      intro x hx
      have hxb : b = x := by simpa using hx
      rw [← hxb]
      exact hb

/-- Helper: the sign scan either consumes nothing (no sign byte ahead) or
exactly one explicit sign byte. -/
theorem scanSign_decomp (bs : List ℕ) :
    (scanSign bs = (false, 0, bs) ∧
      (∀ b, bs.head? = some b → b ≠ byteMinus ∧ b ≠ bytePlus)) ∨
    (∃ r, bs = byteMinus :: r ∧ scanSign bs = (true, 1, r)) ∨
    (∃ r, bs = bytePlus :: r ∧ scanSign bs = (false, 1, r)) := by
  cases bs with
  | nil => exact Or.inl ⟨rfl, by simp⟩
  | cons b rest =>
    by_cases hm : b = byteMinus
    · subst hm
      refine Or.inr (Or.inl ⟨rest, rfl, ?_⟩)
      simp only [scanSign]
      rw [if_pos trivial]
    · by_cases hp : b = bytePlus
      · subst hp
        refine Or.inr (Or.inr ⟨rest, rfl, ?_⟩)
        simp only [scanSign]
        rw [if_neg (by decide), if_pos trivial]
      · refine Or.inl ⟨?_, ?_⟩
        · simp only [scanSign]
          rw [if_neg hm, if_neg hp]
        · intro x hx
          have hxb : b = x := by simpa using hx
          rw [← hxb]
          exact ⟨hm, hp⟩

/-- Helper: a fraction scan on input not starting with a dot consumes
nothing. -/
theorem scanFrac_nodot (radix : ℕ) {bs : List ℕ}
    (h : ∀ b, bs.head? = some b → b ≠ byteDot) :
    scanFrac radix bs = (0, [], bs) := by
  cases bs with
  | nil => rfl
  | cons b rest =>
    simp only [scanFrac]
    rw [if_neg (h b rfl)]

/-- Helper: the fraction scan either consumes nothing or a dot followed by
a non-empty digit run. -/
theorem scanFrac_decomp (radix : ℕ) (bs : List ℕ) :
    (scanFrac radix bs = (0, [], bs)) ∨
    (∃ fds r, bs = byteDot :: (fds ++ r) ∧ fds ≠ [] ∧
      (∀ b ∈ fds, isDigitByte radix b = true) ∧
      (∀ b, r.head? = some b → isDigitByte radix b = false) ∧
      scanFrac radix bs = (fds.length + 1, fds, r)) := by
  cases bs with
  | nil => exact Or.inl rfl
  | cons b rest =>
    by_cases hd : b = byteDot
    · subst hd
      obtain ⟨h1, h2, h3⟩ := scanDigits_decomp radix rest
      by_cases hnil : (scanDigits radix rest).1 = []
      · refine Or.inl ?_
        simp only [scanFrac]
        rw [if_pos trivial, if_pos hnil]
      · refine Or.inr ⟨(scanDigits radix rest).1, (scanDigits radix rest).2,
          ?_, hnil, h2, h3, ?_⟩
        · exact congrArg (List.cons byteDot) h1
        · simp only [scanFrac]
          rw [if_pos trivial, if_neg hnil]
    · refine Or.inl (scanFrac_nodot radix ?_)
      intro x hx
      have hxb : b = x := by simpa using hx
      rw [← hxb]
      exact hd

/-- Helper: an all-digit run is consumed whole by the digit scan. -/
theorem scanDigits_all (radix : ℕ) (p : List ℕ)
    (hp : ∀ b ∈ p, isDigitByte radix b = true) :
    scanDigits radix p = (p, []) := by
  simpa using scanDigits_append radix p [] hp (by simp)

/-- Helper: the exponent scan either consumes nothing or the exponent
character, an optional sign and a non-empty digit run; in the latter case
re-running it on exactly the consumed bytes gives the same count and
value. -/
theorem scanExpPart_decomp (radix ec : ℕ)
    (hec : isDigitByte radix ec = false) (bs : List ℕ) :
    (scanExpPart radix ec bs = (0, 0, bs)) ∨
    (∃ (sb eds r : List ℕ) (sg : Bool), bs = ec :: (sb ++ (eds ++ r)) ∧
      eds ≠ [] ∧
      (∀ b ∈ eds, isDigitByte radix b = true) ∧
      scanExpPart radix ec bs
        = (1 + sb.length + eds.length,
           if sg then -(digitBytesVal radix eds : ℤ)
           else (digitBytesVal radix eds : ℤ), r) ∧
      scanExpPart radix ec (ec :: (sb ++ eds))
        = (1 + sb.length + eds.length,
           if sg then -(digitBytesVal radix eds : ℤ)
           else (digitBytesVal radix eds : ℤ), [])) := by
  cases bs with
  | nil => exact Or.inl rfl
  | cons b rest =>
    by_cases hb : b = ec
    · subst hb
      rcases scanSign_decomp rest with ⟨hss, hnos⟩ | ⟨r0, hbs, hss⟩ | ⟨r0, hbs, hss⟩
      · obtain ⟨hd1, hd2, hd3⟩ := scanDigits_decomp radix rest
        by_cases hnil : (scanDigits radix rest).1 = []
        · refine Or.inl ?_
          simp only [scanExpPart]
          rw [if_pos trivial, hss]
          dsimp only
          rw [if_pos hnil]
        · refine Or.inr ⟨[], (scanDigits radix rest).1, (scanDigits radix rest).2,
            false, ?_, hnil, hd2, ?_, ?_⟩
          · simpa using congrArg (List.cons b) hd1
          · simp only [scanExpPart]
            rw [if_pos trivial, hss]
            dsimp only
            rw [if_neg hnil]
            simp
          · simp only [List.nil_append, scanExpPart]
            rw [if_pos trivial]
            rw [scanSign_nosign (fun x hx => digit_not_sign
              (hd2 x (List.mem_of_mem_head? hx)))]
            dsimp only
            rw [scanDigits_all radix (scanDigits radix rest).1 hd2]
            rw [if_neg hnil]
            simp
      · subst hbs
        obtain ⟨hd1, hd2, hd3⟩ := scanDigits_decomp radix r0
        by_cases hnil : (scanDigits radix r0).1 = []
        · refine Or.inl ?_
          simp only [scanExpPart]
          rw [if_pos trivial, hss]
          dsimp only
          rw [if_pos hnil]
        · refine Or.inr ⟨[byteMinus], (scanDigits radix r0).1,
            (scanDigits radix r0).2, true, ?_, hnil, hd2, ?_, ?_⟩
          · simpa using congrArg (fun l => b :: byteMinus :: l) hd1
          · simp only [scanExpPart]
            rw [if_pos trivial, hss]
            dsimp only
            rw [if_neg hnil]
            simp [Nat.add_comm]
          · simp only [List.cons_append, List.nil_append, scanExpPart]
            rw [if_pos trivial]
            rw [show scanSign (byteMinus :: (scanDigits radix r0).1)
              = (true, 1, (scanDigits radix r0).1) from by
                simp only [scanSign]
                rw [if_pos trivial]]
            dsimp only
            rw [scanDigits_all radix (scanDigits radix r0).1 hd2]
            rw [if_neg hnil]
            simp [Nat.add_comm]
      · subst hbs
        obtain ⟨hd1, hd2, hd3⟩ := scanDigits_decomp radix r0
        by_cases hnil : (scanDigits radix r0).1 = []
        · refine Or.inl ?_
          simp only [scanExpPart]
          rw [if_pos trivial, hss]
          dsimp only
          rw [if_pos hnil]
        · refine Or.inr ⟨[bytePlus], (scanDigits radix r0).1,
            (scanDigits radix r0).2, false, ?_, hnil, hd2, ?_, ?_⟩
          · simpa using congrArg (fun l => b :: bytePlus :: l) hd1
          · simp only [scanExpPart]
            rw [if_pos trivial, hss]
            dsimp only
            rw [if_neg hnil]
            simp [Nat.add_comm]
          · simp only [List.cons_append, List.nil_append, scanExpPart]
            rw [if_pos trivial]
            rw [show scanSign (bytePlus :: (scanDigits radix r0).1)
              = (false, 1, (scanDigits radix r0).1) from by
                simp only [scanSign]
                rw [if_neg (by decide), if_pos trivial]]
            dsimp only
            rw [scanDigits_all radix (scanDigits radix r0).1 hd2]
            rw [if_neg hnil]
            simp [Nat.add_comm]
    · refine Or.inl ?_
      simp only [scanExpPart]
      rw [if_neg hb]

/-- Helper: the boolean prefix test agrees with the prefix relation. -/
theorem isPrefixOf_true_iff {p y : List ℕ} :
    p.isPrefixOf y = true ↔ p <+: y :=
  List.isPrefixOf_iff_prefix

/-- Helper: a failed prefix test on a string stays failed on any prefix of
that string. -/
theorem isPrefixOf_false_mono {p y bs : List ℕ} (hy : y <+: bs)
    (h : p.isPrefixOf bs = false) : p.isPrefixOf y = false := by
  by_contra hc
  rw [Bool.not_eq_false] at hc
  rw [isPrefixOf_true_iff] at hc
  have : p <+: bs := hc.trans hy
  rw [← isPrefixOf_true_iff] at this
  rw [h] at this
  exact Bool.noConfusion this

/-- Helper: evaluation of the parser body in the digits branch, given the
results of the three scans. -/
theorem atofBody_eval (fmt : FloatFmt) (radix ec : ℕ)
    (nan inf infty : List ℕ) (sgn : Bool) (s : ℕ) (bs1 : List ℕ)
    (h1 : infty.isPrefixOf bs1 = false) (h2 : inf.isPrefixOf bs1 = false)
    (h3 : nan.isPrefixOf bs1 = false)
    (p1 p2 : List ℕ) (hscan : scanDigits radix bs1 = (p1, p2))
    (hnil : p1 ≠ [])
    (fc : ℕ) (fds rest2 : List ℕ)
    (hfr : scanFrac radix p2 = (fc, fds, rest2))
    (xc : ℕ) (xv : ℤ) (rest3 : List ℕ)
    (hex : scanExpPart radix ec rest2 = (xc, xv, rest3)) :
    atofBody fmt radix ec nan inf infty sgn s bs1
      = (s + p1.length + fc + xc,
         if digitBytesVal radix (p1 ++ fds) = 0
         then FloatVal.finite sgn 0 fmt.emin
         else (roundNearestPos fmt ((digitBytesVal radix (p1 ++ fds) : ℚ)
            * (radix : ℚ) ^ (xv - (fds.length : ℤ)))).withSign sgn) := by
  unfold atofBody
  rw [if_neg (by simp [h1]), if_neg (by simp [h2]), if_neg (by simp [h3])]
  rw [hscan]
  dsimp only
  rw [if_neg hnil, hfr]
  dsimp only
  rw [hex]

/-- Helper: evaluation of the parser body when the long-infinity spelling
matches. -/
theorem atofBody_infty_eval (fmt : FloatFmt) (radix ec : ℕ)
    (nan inf infty : List ℕ) (sgn : Bool) (s : ℕ) (bs1 : List ℕ)
    (h1 : infty.isPrefixOf bs1 = true) :
    atofBody fmt radix ec nan inf infty sgn s bs1
      = (s + infty.length, FloatVal.inf sgn) := by
  unfold atofBody
  rw [if_pos h1]

/-- Helper: evaluation of the parser body when the short-infinity spelling
matches. -/
theorem atofBody_inf_eval (fmt : FloatFmt) (radix ec : ℕ)
    (nan inf infty : List ℕ) (sgn : Bool) (s : ℕ) (bs1 : List ℕ)
    (h1 : infty.isPrefixOf bs1 = false) (h2 : inf.isPrefixOf bs1 = true) :
    atofBody fmt radix ec nan inf infty sgn s bs1
      = (s + inf.length, FloatVal.inf sgn) := by
  unfold atofBody
  rw [if_neg (by simp [h1]), if_pos h2]

/-- Helper: evaluation of the parser body when the NaN spelling
matches. -/
theorem atofBody_nan_eval (fmt : FloatFmt) (radix ec : ℕ)
    (nan inf infty : List ℕ) (sgn : Bool) (s : ℕ) (bs1 : List ℕ)
    (h1 : infty.isPrefixOf bs1 = false) (h2 : inf.isPrefixOf bs1 = false)
    (h3 : nan.isPrefixOf bs1 = true) :
    atofBody fmt radix ec nan inf infty sgn s bs1
      = (s + nan.length, FloatVal.nan sgn) := by
  unfold atofBody
  rw [if_neg (by simp [h1]), if_neg (by simp [h2]), if_pos h3]

/-- Helper: a head condition survives appending on the right. -/
theorem head_sign_append {p t : List ℕ}
    (hp : ∀ b, p.head? = some b → b ≠ byteMinus ∧ b ≠ bytePlus)
    (hnil : p ≠ []) :
    ∀ b, (p ++ t).head? = some b → b ≠ byteMinus ∧ b ≠ bytePlus := by
  cases p with
  | nil => exact absurd rfl hnil
  | cons a q => exact fun b hb => hp b hb

/-- Helper: whenever the parser body consumes a positive count, the
consumed bytes form a prefix of the input; re-running the body on exactly
that prefix reproduces the count and the value. -/
theorem atofBody_consumed (fmt : FloatFmt) (radix : ℕ) (sgn : Bool) (s : ℕ)
    (bs1 : List ℕ)
    (h : 0 < (atofBody fmt radix (exponent_notation_char radix)
      defaultNanString defaultInfString defaultInfinityString sgn s bs1).1) :
    ∃ y r, bs1 = y ++ r ∧ y ≠ [] ∧
      (∀ b, y.head? = some b → b ≠ byteMinus ∧ b ≠ bytePlus) ∧
      (atofBody fmt radix (exponent_notation_char radix) defaultNanString
        defaultInfString defaultInfinityString sgn s bs1).1 = s + y.length ∧
      (∀ s' : ℕ, atofBody fmt radix (exponent_notation_char radix)
          defaultNanString defaultInfString defaultInfinityString sgn s' y
        = (s' + y.length,
           (atofBody fmt radix (exponent_notation_char radix)
             defaultNanString defaultInfString defaultInfinityString
             sgn s bs1).2)) := by
  by_cases hInfty : defaultInfinityString.isPrefixOf bs1 = true
  · obtain ⟨r, hr⟩ := isPrefixOf_true_iff.mp hInfty
    refine ⟨defaultInfinityString, r, hr.symm, by decide, ?_, ?_, ?_⟩
    · intro x hx
      have hxv : (105 : ℕ) = x := by
        simpa [defaultInfinityString] using hx
      rw [← hxv]
      exact ⟨by decide, by decide⟩
    · rw [atofBody_infty_eval fmt radix _ _ _ _ sgn s bs1 hInfty]
    · intro s'
      rw [atofBody_infty_eval fmt radix _ _ _ _ sgn s' defaultInfinityString
        (by decide)]
      rw [atofBody_infty_eval fmt radix _ _ _ _ sgn s bs1 hInfty]
  · rw [Bool.not_eq_true] at hInfty
    by_cases hInf : defaultInfString.isPrefixOf bs1 = true
    · obtain ⟨r, hr⟩ := isPrefixOf_true_iff.mp hInf
      refine ⟨defaultInfString, r, hr.symm, by decide, ?_, ?_, ?_⟩
      · intro x hx
        have hxv : (105 : ℕ) = x := by
          simpa [defaultInfString] using hx
        rw [← hxv]
        exact ⟨by decide, by decide⟩
      · rw [atofBody_inf_eval fmt radix _ _ _ _ sgn s bs1 hInfty hInf]
      · intro s'
        rw [atofBody_inf_eval fmt radix _ _ _ _ sgn s' defaultInfString
          (by decide) (by decide)]
        rw [atofBody_inf_eval fmt radix _ _ _ _ sgn s bs1 hInfty hInf]
    · rw [Bool.not_eq_true] at hInf
      by_cases hNan : defaultNanString.isPrefixOf bs1 = true
      · obtain ⟨r, hr⟩ := isPrefixOf_true_iff.mp hNan
        refine ⟨defaultNanString, r, hr.symm, by decide, ?_, ?_, ?_⟩
        · intro x hx
          have hxv : (78 : ℕ) = x := by
            simpa [defaultNanString] using hx
          rw [← hxv]
          exact ⟨by decide, by decide⟩
        · rw [atofBody_nan_eval fmt radix _ _ _ _ sgn s bs1 hInfty hInf hNan]
        · intro s'
          rw [atofBody_nan_eval fmt radix _ _ _ _ sgn s' defaultNanString
            (by decide) (by decide) (by decide)]
          rw [atofBody_nan_eval fmt radix _ _ _ _ sgn s bs1 hInfty hInf hNan]
      · rw [Bool.not_eq_true] at hNan
        obtain ⟨hd1, hd2, hd3⟩ := scanDigits_decomp radix bs1
        by_cases hnil : (scanDigits radix bs1).1 = []
        · exfalso
          have horig := atofBody_eval fmt radix (exponent_notation_char radix)
            defaultNanString defaultInfString defaultInfinityString sgn s bs1
            hInfty hInf hNan [] (scanDigits radix bs1).2
            (by rw [← hnil])
          rw [show atofBody fmt radix (exponent_notation_char radix)
              defaultNanString defaultInfString defaultInfinityString sgn s bs1
            = (0, FloatVal.finite false 0 fmt.emin) from by
              unfold atofBody
              rw [if_neg (by simp [hInfty]), if_neg (by simp [hInf]),
                if_neg (by simp [hNan])]
              rw [if_pos hnil]] at h
          exact absurd h (by simp)
        · have hp1dig := hd2
          have hhead : ∀ b, (scanDigits radix bs1).1.head? = some b →
              b ≠ byteMinus ∧ b ≠ bytePlus :=
            fun b hb => digit_not_sign (hd2 b (List.mem_of_mem_head? hb))
          rcases scanFrac_decomp radix (scanDigits radix bs1).2 with hfr |
            ⟨fds, rest2, hfshape, hfne, hfdig, hfstop, hfr⟩
          · -- no fraction
            rcases scanExpPart_decomp radix (exponent_notation_char radix)
                (isDigitByte_expChar radix) (scanDigits radix bs1).2 with hex |
              ⟨sb, eds, r3, sg, heshape, hene, hedig, hex, hexre⟩
            · -- no fraction, no exponent: y is the digit run alone
              refine ⟨(scanDigits radix bs1).1, (scanDigits radix bs1).2,
                hd1, hnil, hhead, ?_, ?_⟩
              · rw [atofBody_eval fmt radix _ _ _ _ sgn s bs1 hInfty hInf hNan
                  _ _ rfl hnil _ _ _ hfr _ _ _ hex]
                simp
              · intro s'
                rw [atofBody_eval fmt radix _ _ _ _ sgn s bs1 hInfty hInf hNan
                  _ _ rfl hnil _ _ _ hfr _ _ _ hex]
                have hy : (scanDigits radix bs1).1 <+: bs1 :=
                  ⟨(scanDigits radix bs1).2, hd1.symm⟩
                rw [atofBody_eval fmt radix _ _ _ _ sgn s'
                  (scanDigits radix bs1).1
                  (isPrefixOf_false_mono hy hInfty)
                  (isPrefixOf_false_mono hy hInf)
                  (isPrefixOf_false_mono hy hNan)
                  (scanDigits radix bs1).1 []
                  (scanDigits_all radix _ hd2) hnil
                  0 [] [] rfl 0 0 [] rfl]
                rw [Prod.mk.injEq]
                exact ⟨by omega, rfl⟩
            · -- no fraction, exponent present
              have hshape : bs1 = ((scanDigits radix bs1).1 ++
                  (exponent_notation_char radix :: (sb ++ eds))) ++ r3 := by
                conv_lhs => rw [hd1]
                rw [heshape]
                simp [List.append_assoc]
              have hyne : (scanDigits radix bs1).1 ++
                  (exponent_notation_char radix :: (sb ++ eds)) ≠ [] := by
                intro hy
                exact hnil (List.append_eq_nil.mp hy).1
              have hypre : (scanDigits radix bs1).1 ++
                  (exponent_notation_char radix :: (sb ++ eds)) <+: bs1 :=
                ⟨r3, hshape.symm⟩
              have hscan_y : scanDigits radix ((scanDigits radix bs1).1 ++
                  (exponent_notation_char radix :: (sb ++ eds)))
                  = ((scanDigits radix bs1).1,
                     exponent_notation_char radix :: (sb ++ eds)) := by
                refine scanDigits_append radix _ _ hd2 ?_
                intro b hb
                have hbe : exponent_notation_char radix = b := by simpa using hb
                rw [← hbe]
                exact isDigitByte_expChar radix
              have hfr_y : scanFrac radix
                  (exponent_notation_char radix :: (sb ++ eds))
                  = (0, [], exponent_notation_char radix :: (sb ++ eds)) := by
                refine scanFrac_nodot radix ?_
                intro b hb
                have hbe : exponent_notation_char radix = b := by simpa using hb
                rw [← hbe]
                exact expChar_ne_dot radix
              refine ⟨(scanDigits radix bs1).1 ++
                  (exponent_notation_char radix :: (sb ++ eds)), r3, hshape,
                  hyne, head_sign_append hhead hnil, ?_, ?_⟩
              · rw [atofBody_eval fmt radix _ _ _ _ sgn s bs1 hInfty hInf hNan
                  _ _ rfl hnil _ _ _ hfr _ _ _ hex]
                dsimp only
                simp only [List.length_append, List.length_cons]
                omega
              · intro s'
                rw [atofBody_eval fmt radix _ _ _ _ sgn s bs1 hInfty hInf hNan
                  _ _ rfl hnil _ _ _ hfr _ _ _ hex]
                rw [atofBody_eval fmt radix _ _ _ _ sgn s' _
                  (isPrefixOf_false_mono hypre hInfty)
                  (isPrefixOf_false_mono hypre hInf)
                  (isPrefixOf_false_mono hypre hNan)
                  _ _ hscan_y hnil _ _ _ hfr_y _ _ _ hexre]
                rw [Prod.mk.injEq]
                refine ⟨?_, rfl⟩
                simp only [List.length_append, List.length_cons]
                omega
          · -- fraction present
            rcases scanExpPart_decomp radix (exponent_notation_char radix)
                (isDigitByte_expChar radix) rest2 with hex |
              ⟨sb, eds, r3, sg, heshape, hene, hedig, hex, hexre⟩
            · -- fraction, no exponent
              have hshape : bs1 = ((scanDigits radix bs1).1 ++
                  (byteDot :: fds)) ++ rest2 := by
                conv_lhs => rw [hd1]
                rw [hfshape]
                simp [List.append_assoc]
              have hyne : (scanDigits radix bs1).1 ++ (byteDot :: fds) ≠ [] := by
                intro hy
                exact hnil (List.append_eq_nil.mp hy).1
              have hypre : (scanDigits radix bs1).1 ++ (byteDot :: fds) <+: bs1 :=
                ⟨rest2, hshape.symm⟩
              have hscan_y : scanDigits radix ((scanDigits radix bs1).1 ++
                  (byteDot :: fds)) = ((scanDigits radix bs1).1, byteDot :: fds) := by
                refine scanDigits_append radix _ _ hd2 ?_
                intro b hb
                have hbe : byteDot = b := by simpa using hb
                rw [← hbe]
                exact (isDigitByte_punct radix).2.2
              have hfr_y : scanFrac radix (byteDot :: fds)
                  = (fds.length + 1, fds, []) := by
                simp only [scanFrac]
                rw [if_pos trivial]
                rw [scanDigits_all radix fds hfdig]
                rw [if_neg hfne]
              refine ⟨(scanDigits radix bs1).1 ++ (byteDot :: fds), rest2,
                hshape, hyne, head_sign_append hhead hnil, ?_, ?_⟩
              · rw [atofBody_eval fmt radix _ _ _ _ sgn s bs1 hInfty hInf hNan
                  _ _ rfl hnil _ _ _ hfr _ _ _ hex]
                dsimp only
                simp only [List.length_append, List.length_cons]
                omega
              · intro s'
                rw [atofBody_eval fmt radix _ _ _ _ sgn s bs1 hInfty hInf hNan
                  _ _ rfl hnil _ _ _ hfr _ _ _ hex]
                rw [atofBody_eval fmt radix _ _ _ _ sgn s' _
                  (isPrefixOf_false_mono hypre hInfty)
                  (isPrefixOf_false_mono hypre hInf)
                  (isPrefixOf_false_mono hypre hNan)
                  _ _ hscan_y hnil _ _ _ hfr_y 0 0 [] rfl]
                rw [Prod.mk.injEq]
                refine ⟨?_, rfl⟩
                simp only [List.length_append, List.length_cons]
                omega
            · -- fraction and exponent
              have hshape : bs1 = ((scanDigits radix bs1).1 ++
                  (byteDot :: (fds ++ (exponent_notation_char radix ::
                    (sb ++ eds))))) ++ r3 := by
                conv_lhs => rw [hd1]
                rw [hfshape, heshape]
                simp [List.append_assoc]
              have hyne : (scanDigits radix bs1).1 ++
                  (byteDot :: (fds ++ (exponent_notation_char radix ::
                    (sb ++ eds)))) ≠ [] := by
                intro hy
                exact hnil (List.append_eq_nil.mp hy).1
              have hypre : (scanDigits radix bs1).1 ++
                  (byteDot :: (fds ++ (exponent_notation_char radix ::
                    (sb ++ eds)))) <+: bs1 :=
                ⟨r3, hshape.symm⟩
              have hscan_y : scanDigits radix ((scanDigits radix bs1).1 ++
                  (byteDot :: (fds ++ (exponent_notation_char radix ::
                    (sb ++ eds)))))
                  = ((scanDigits radix bs1).1,
                     byteDot :: (fds ++ (exponent_notation_char radix ::
                       (sb ++ eds)))) := by
                refine scanDigits_append radix _ _ hd2 ?_
                intro b hb
                have hbe : byteDot = b := by simpa using hb
                rw [← hbe]
                exact (isDigitByte_punct radix).2.2
              have hfr_y : scanFrac radix (byteDot :: (fds ++
                  (exponent_notation_char radix :: (sb ++ eds))))
                  = (fds.length + 1, fds,
                     exponent_notation_char radix :: (sb ++ eds)) := by
                simp only [scanFrac]
                rw [if_pos trivial]
                rw [scanDigits_append radix fds _ hfdig ?_]
                · rw [if_neg hfne]
                · intro b hb
                  have hbe : exponent_notation_char radix = b := by simpa using hb
                  rw [← hbe]
                  exact isDigitByte_expChar radix
              refine ⟨(scanDigits radix bs1).1 ++
                  (byteDot :: (fds ++ (exponent_notation_char radix ::
                    (sb ++ eds)))), r3,
                hshape, hyne, head_sign_append hhead hnil, ?_, ?_⟩
              · rw [atofBody_eval fmt radix _ _ _ _ sgn s bs1 hInfty hInf hNan
                  _ _ rfl hnil _ _ _ hfr _ _ _ hex]
                dsimp only
                simp only [List.length_append, List.length_cons]
                omega
              · intro s'
                rw [atofBody_eval fmt radix _ _ _ _ sgn s bs1 hInfty hInf hNan
                  _ _ rfl hnil _ _ _ hfr _ _ _ hex]
                rw [atofBody_eval fmt radix _ _ _ _ sgn s' _
                  (isPrefixOf_false_mono hypre hInfty)
                  (isPrefixOf_false_mono hypre hInf)
                  (isPrefixOf_false_mono hypre hNan)
                  _ _ hscan_y hnil _ _ _ hfr_y _ _ _ hexre]
                rw [Prod.mk.injEq]
                refine ⟨?_, rfl⟩
                simp only [List.length_append, List.length_cons]
                omega

/-- Helper: a leading minus is consumed as the sign by the parser core. -/
theorem atofCore_minus (fmt : FloatFmt) (radix ec : ℕ)
    (nan inf infinity : List ℕ) (bs : List ℕ) :
    atofCore fmt radix ec nan inf infinity (byteMinus :: bs)
      = atofBody fmt radix ec nan inf infinity true 1 bs := by
  unfold atofCore
  rw [show scanSign (byteMinus :: bs) = (true, 1, bs) from by simp [scanSign]]

/-- Helper: with no leading sign byte, the parser core is its body. -/
theorem atofCore_nosign (fmt : FloatFmt) (radix ec : ℕ)
    (nan inf infinity : List ℕ) (bs : List ℕ)
    (hb : ∀ b, bs.head? = some b → b ≠ byteMinus ∧ b ≠ bytePlus) :
    atofCore fmt radix ec nan inf infinity bs
      = atofBody fmt radix ec nan inf infinity false 0 bs := by
  unfold atofCore
  rw [scanSign_nosign hb]

/-- Helper: a leading plus is consumed as a positive sign by the parser
core. -/
theorem atofCore_plus (fmt : FloatFmt) (radix ec : ℕ)
    (nan inf infinity : List ℕ) (bs : List ℕ) :
    atofCore fmt radix ec nan inf infinity (bytePlus :: bs)
      = atofBody fmt radix ec nan inf infinity false 1 bs := by
  unfold atofCore
  rw [show scanSign (bytePlus :: bs) = (false, 1, bs) from by
    simp only [scanSign]
    rw [if_neg (by decide), if_pos trivial]]

/-- Helper: whenever the parser core consumes a positive count, re-running
it on the consumed prefix alone reproduces count and value, and the count
never exceeds the input length. -/
theorem atofCore_consumed (fmt : FloatFmt) (radix : ℕ) (bs : List ℕ)
    (h : 0 < (atofCore fmt radix (exponent_notation_char radix)
      defaultNanString defaultInfString defaultInfinityString bs).1) :
    atofCore fmt radix (exponent_notation_char radix) defaultNanString
        defaultInfString defaultInfinityString
        (bs.take (atofCore fmt radix (exponent_notation_char radix)
          defaultNanString defaultInfString defaultInfinityString bs).1)
      = atofCore fmt radix (exponent_notation_char radix) defaultNanString
          defaultInfString defaultInfinityString bs ∧
    (atofCore fmt radix (exponent_notation_char radix) defaultNanString
      defaultInfString defaultInfinityString bs).1 ≤ bs.length := by
  rcases scanSign_decomp bs with ⟨hss, hnos⟩ | ⟨r0, hbs, hss⟩ | ⟨r0, hbs, hss⟩
  · rw [atofCore_nosign fmt radix _ _ _ _ bs hnos] at h ⊢
    obtain ⟨y, r, hyr, hyne, hyhead, h1, hre⟩ :=
      atofBody_consumed fmt radix false 0 bs h
    rw [h1]
    have htake : bs.take (0 + y.length) = y := by
      rw [Nat.zero_add]
      conv_lhs => rw [hyr]
      rw [List.take_left]
    rw [htake]
    refine ⟨?_, ?_⟩
    · rw [atofCore_nosign fmt radix _ _ _ _ y hyhead]
      rw [hre 0]
      conv_rhs => rw [← Prod.mk.eta (p := atofBody fmt radix
        (exponent_notation_char radix) defaultNanString defaultInfString
        defaultInfinityString false 0 bs)]
      rw [h1]
    · rw [hyr]
      simp [List.length_append]
  · subst hbs
    rw [atofCore_minus fmt radix _ _ _ _ r0] at h ⊢
    obtain ⟨y, r, hyr, hyne, hyhead, h1, hre⟩ :=
      atofBody_consumed fmt radix true 1 r0 h
    rw [h1]
    have htake0 : r0.take y.length = y := by
      conv_lhs => rw [hyr]
      rw [List.take_left]
    have htake : (byteMinus :: r0).take (1 + y.length) = byteMinus :: y := by
      rw [Nat.add_comm, List.take_succ_cons, htake0]
    rw [htake]
    refine ⟨?_, ?_⟩
    · rw [atofCore_minus fmt radix _ _ _ _ y]
      rw [hre 1]
      conv_rhs => rw [← Prod.mk.eta (p := atofBody fmt radix
        (exponent_notation_char radix) defaultNanString defaultInfString
        defaultInfinityString true 1 r0)]
      rw [h1]
    · rw [hyr]
      simp [List.length_append]
      omega
  · subst hbs
    rw [atofCore_plus fmt radix _ _ _ _ r0] at h ⊢
    obtain ⟨y, r, hyr, hyne, hyhead, h1, hre⟩ :=
      atofBody_consumed fmt radix false 1 r0 h
    rw [h1]
    have htake0 : r0.take y.length = y := by
      conv_lhs => rw [hyr]
      rw [List.take_left]
    have htake : (bytePlus :: r0).take (1 + y.length) = bytePlus :: y := by
      rw [Nat.add_comm, List.take_succ_cons, htake0]
    rw [htake]
    refine ⟨?_, ?_⟩
    · rw [atofCore_plus fmt radix _ _ _ _ y]
      rw [hre 1]
      conv_rhs => rw [← Prod.mk.eta (p := atofBody fmt radix
        (exponent_notation_char radix) defaultNanString defaultInfString
        defaultInfinityString false 1 r0)]
      rw [h1]
    · rw [hyr]
      simp [List.length_append]
      omega

/-- Helper: evaluation of the integer parser core given the scan
results. -/
theorem atoiCore_eval (radix : ℕ) (bs : List ℕ) (sg : Bool) (sc : ℕ)
    (bs2 : List ℕ) (hss : scanSign bs = (sg, sc, bs2))
    (p1 p2 : List ℕ) (hsd : scanDigits radix bs2 = (p1, p2))
    (hnil : p1 ≠ []) :
    atoiCore radix bs = (sc + p1.length,
      if sg then -(digitBytesVal radix p1 : ℤ)
      else (digitBytesVal radix p1 : ℤ)) := by
  unfold atoiCore
  rw [hss]
  dsimp only
  rw [hsd]
  dsimp only
  rw [if_neg hnil]

/-- Helper: the integer parser core consumes nothing without a leading
digit run. -/
theorem atoiCore_none (radix : ℕ) (bs : List ℕ) (sg : Bool) (sc : ℕ)
    (bs2 : List ℕ) (hss : scanSign bs = (sg, sc, bs2))
    (hnil : (scanDigits radix bs2).1 = []) :
    atoiCore radix bs = (0, 0) := by
  unfold atoiCore
  rw [hss]
  dsimp only
  rw [if_pos hnil]

/-- Helper: whenever the integer parser core consumes a positive count,
re-running it on the consumed prefix reproduces count and value, and the
count never exceeds the input length. -/
theorem atoiCore_consumed (radix : ℕ) (bs : List ℕ)
    (h : 0 < (atoiCore radix bs).1) :
    atoiCore radix (bs.take (atoiCore radix bs).1) = atoiCore radix bs ∧
      (atoiCore radix bs).1 ≤ bs.length := by
  rcases scanSign_decomp bs with ⟨hss, hnos⟩ | ⟨r0, hbs, hss⟩ | ⟨r0, hbs, hss⟩
  · obtain ⟨hd1, hd2, hd3⟩ := scanDigits_decomp radix bs
    obtain ⟨p1, p2, hp⟩ : ∃ p1 p2, scanDigits radix bs = (p1, p2) :=
      ⟨_, _, rfl⟩
    rw [hp] at hd1 hd2 hd3
    dsimp only at hd1 hd2 hd3
    by_cases hnil : p1 = []
    · rw [atoiCore_none radix bs _ _ _ hss (by rw [hp, hnil])] at h
      exact absurd h (by simp)
    · have he := atoiCore_eval radix bs false 0 bs hss _ _ hp hnil
      rw [he]
      dsimp only
      have htake : bs.take (0 + p1.length) = p1 := by
        rw [Nat.zero_add]
        conv_lhs => rw [hd1]
        rw [List.take_left]
      rw [htake]
      refine ⟨?_, ?_⟩
      · have hss2 : scanSign p1 = (false, 0, p1) :=
          scanSign_nosign (fun b hb => digit_not_sign
            (hd2 b (List.mem_of_mem_head? hb)))
        rw [atoiCore_eval radix _ false 0 _ hss2 _ _
          (scanDigits_all radix _ hd2) hnil]
      · conv_rhs => rw [hd1]
        simp [List.length_append]
  · subst hbs
    obtain ⟨hd1, hd2, hd3⟩ := scanDigits_decomp radix r0
    obtain ⟨p1, p2, hp⟩ : ∃ p1 p2, scanDigits radix r0 = (p1, p2) :=
      ⟨_, _, rfl⟩
    rw [hp] at hd1 hd2 hd3
    dsimp only at hd1 hd2 hd3
    by_cases hnil : p1 = []
    · rw [atoiCore_none radix _ _ _ _ hss (by rw [hp, hnil])] at h
      exact absurd h (by simp)
    · have he := atoiCore_eval radix _ true 1 r0 hss _ _ hp hnil
      rw [he]
      dsimp only
      have htake0 : r0.take p1.length = p1 := by
        conv_lhs => rw [hd1]
        rw [List.take_left]
      have htake : (byteMinus :: r0).take (1 + p1.length)
          = byteMinus :: p1 := by
        rw [Nat.add_comm, List.take_succ_cons, htake0]
      rw [htake]
      refine ⟨?_, ?_⟩
      · have hss2 : scanSign (byteMinus :: p1) = (true, 1, p1) := by
          simp only [scanSign]
          rw [if_pos trivial]
        rw [atoiCore_eval radix _ true 1 _ hss2 _ _
          (scanDigits_all radix _ hd2) hnil]
      · conv_rhs => rw [hd1]
        simp [List.length_append]
        omega
  · subst hbs
    obtain ⟨hd1, hd2, hd3⟩ := scanDigits_decomp radix r0
    obtain ⟨p1, p2, hp⟩ : ∃ p1 p2, scanDigits radix r0 = (p1, p2) :=
      ⟨_, _, rfl⟩
    rw [hp] at hd1 hd2 hd3
    dsimp only at hd1 hd2 hd3
    by_cases hnil : p1 = []
    · rw [atoiCore_none radix _ _ _ _ hss (by rw [hp, hnil])] at h
      exact absurd h (by simp)
    · have he := atoiCore_eval radix _ false 1 r0 hss _ _ hp hnil
      rw [he]
      dsimp only
      have htake0 : r0.take p1.length = p1 := by
        conv_lhs => rw [hd1]
        rw [List.take_left]
      have htake : (bytePlus :: r0).take (1 + p1.length)
          = bytePlus :: p1 := by
        rw [Nat.add_comm, List.take_succ_cons, htake0]
      rw [htake]
      refine ⟨?_, ?_⟩
      · have hss2 : scanSign (bytePlus :: p1) = (false, 1, p1) := by
          simp only [scanSign]
          rw [if_neg (by decide), if_pos trivial]
        rw [atoiCore_eval radix _ false 1 _ hss2 _ _
          (scanDigits_all radix _ hd2) hnil]
      · conv_rhs => rw [hd1]
        simp [List.length_append]
        omega

/-- Helper: the float parser core consumes nothing when the first byte is
neither a digit, a sign, nor the start of a special spelling. -/
theorem atofCore_invalid (fmt : FloatFmt) (radix b : ℕ) (rest : List ℕ)
    (hb : isDigitByte radix b = false) (hbp : b ≠ bytePlus)
    (hbm : b ≠ byteMinus) (hbi : b ≠ 105) (hbn : b ≠ 78) :
    atofCore fmt radix (exponent_notation_char radix) defaultNanString
        defaultInfString defaultInfinityString (b :: rest)
      = (0, .finite false 0 fmt.emin) := by
  rw [atofCore_nosign fmt radix _ _ _ _ _ (fun x hx => by
    have hxb : b = x := by simpa using hx
    rw [← hxb]
    exact ⟨hbm, hbp⟩)]
  unfold atofBody
  rw [if_neg (by
    rw [isPrefixOf_false
      (show defaultInfinityString.head? = some 105 from rfl)
      (show (b :: rest).head? = some b from rfl) (fun hh => hbi hh.symm)]
    simp)]
  rw [if_neg (by
    rw [isPrefixOf_false
      (show defaultInfString.head? = some 105 from rfl)
      (show (b :: rest).head? = some b from rfl) (fun hh => hbi hh.symm)]
    simp)]
  rw [if_neg (by
    rw [isPrefixOf_false
      (show defaultNanString.head? = some 78 from rfl)
      (show (b :: rest).head? = some b from rfl) (fun hh => hbn hh.symm)]
    simp)]
  rw [show scanDigits radix (b :: rest) = ([], b :: rest) from by
    unfold scanDigits
    rw [if_neg (by simp [hb])]]
  dsimp only
  rw [if_pos rfl]

/-- Helper: the integer parser core consumes nothing when the first byte
is neither a digit nor a sign. -/
theorem atoiCore_invalid (radix b : ℕ) (rest : List ℕ)
    (hb : isDigitByte radix b = false) (hbp : b ≠ bytePlus)
    (hbm : b ≠ byteMinus) :
    atoiCore radix (b :: rest) = (0, 0) := by
  refine atoiCore_none radix _ false 0 (b :: rest)
    (scanSign_nosign (fun x hx => by
      have hxb : b = x := by simpa using hx
      rw [← hxb]
      exact ⟨hbm, hbp⟩)) ?_
  rw [show scanDigits radix (b :: rest) = ([], b :: rest) from by
    unfold scanDigits
    rw [if_neg (by simp [hb])]]

/-- Helper: forcing the sign of a positive finite value. -/
theorem withSign_finite (s : Bool) (m : ℕ) (e : ℤ) :
    (FloatVal.finite false m e).withSign s = FloatVal.finite s m e := rfl

/-- Helper: the full default-configuration round trip — the parser core
consumes the formatter's output whole and returns the original float, for
every canonical finite value of the format. -/
theorem roundtrip_gen (fmt : FloatFmt) (hprec : 1 ≤ fmt.prec) (f : FloatVal)
    (hc : Canonical fmt f) (hf : f.isFinite = true) :
    0 < (ftoaImpl (forward fmt) false defaultNanString defaultInfString 10 f).length ∧
    atofCore fmt 10 byteE defaultNanString defaultInfString defaultInfinityString
        (ftoaImpl (forward fmt) false defaultNanString defaultInfString 10 f)
      = ((ftoaImpl (forward fmt) false defaultNanString defaultInfString 10 f).length, f) := by
  cases f with
  | inf s => exact absurd hf (by simp [FloatVal.isFinite])
  | nan s => exact absurd hf (by simp [FloatVal.isFinite])
  | finite s m e =>
    by_cases hm : m = 0
    · subst hm
      have hemin : e = fmt.emin := by
        rcases hc.2.2.2 with h | h
        · exfalso
          have : (0 : ℕ) < 2 ^ (fmt.prec - 1) := Nat.pos_pow_of_pos _ (by norm_num)
          omega
        · exact h
      subst hemin
      have hbody : ∀ (sgn : Bool) (off : ℕ),
          atofBody fmt 10 byteE defaultNanString defaultInfString
            defaultInfinityString sgn off [byteZero, byteDot, byteZero]
          = (off + 3, FloatVal.finite sgn 0 fmt.emin) := by
        intro sgn off
        have h := atofBody_digits fmt sgn off [byteZero] [byteZero] [] 0
          (by decide) (by decide) (by decide) (by decide)
          (by intro b hb
              have hbz : byteZero = b := by simpa using hb
              rw [← hbz]
              decide)
          (by rfl) (by intro b hb; simp at hb)
        rw [show ([byteZero] ++ byteDot :: ([byteZero] ++ [])) =
          [byteZero, byteDot, byteZero] from rfl] at h
        rw [h, if_pos (by decide)]
        simp
      cases s with
      | false =>
        have hzspec : ftoaImpl (forward fmt) false defaultNanString
            defaultInfString 10 (FloatVal.finite false 0 fmt.emin)
            = [byteZero, byteDot, byteZero] := by
          simp [ftoaImpl, filter_sign, filter_special, FloatVal.isZero,
            FloatVal.isSignNegative, FloatVal.isNan, FloatVal.isSpecial, trimOut]
        rw [hzspec]
        refine ⟨by simp, ?_⟩
        rw [atofCore_nosign _ _ _ _ _ _ _
          (by intro b hb
              have hbz : byteZero = b := by simpa using hb
              rw [← hbz]
              decide)]
        rw [hbody false 0]
        rfl
      | true =>
        have hzspec : ftoaImpl (forward fmt) false defaultNanString
            defaultInfString 10 (FloatVal.finite true 0 fmt.emin)
            = byteMinus :: [byteZero, byteDot, byteZero] := by
          simp [ftoaImpl, filter_sign, filter_special, FloatVal.isZero,
            FloatVal.isSignNegative, FloatVal.isNan, FloatVal.isSpecial,
            FloatVal.neg, trimOut]
        rw [hzspec]
        refine ⟨by simp, ?_⟩
        rw [atofCore_minus, hbody true 1]
        rfl
    · have hmpos : 0 < m := Nat.pos_of_ne_zero hm
      set q : ℚ := (m : ℚ) * (2 : ℚ) ^ e with hqdef
      have hq : 0 < q := mul_pos (by exact_mod_cast hmpos) (zpow_pos (by norm_num) e)
      set ds : List ℕ := (searchShortest fmt q (.finite false m e) 1
        (exactLen q e - 1)).1 with hdsdef
      set Eo : ℤ := (searchShortest fmt q (.finite false m e) 1
        (exactLen q e - 1)).2 with hEodef
      have hgen : forward fmt 10 (FloatVal.finite false m e) = render 10 ds Eo := by
        unfold forward
        rw [if_pos rfl]
        rfl
      obtain ⟨n', hn', hub', hsearch⟩ := searchShortest_eq_sigDigits fmt q
        (.finite false m e) 1 (exactLen q e - 1)
      have hds : ∀ d ∈ ds, d < 10 := by
        rw [hdsdef, hsearch]
        exact sigDigits_digits_lt 10 (by norm_num) q n'
      have hvpos : 0 < digitsVal 10 ds := by
        rw [hdsdef, hsearch]
        simp only [sigDigits]
        rw [digitsVal_natDigits]
        have := sigDigits_scaled_pos 10 (by norm_num) q hq n' hn'
        omega
      have hne : ds ≠ [] := by
        intro hcontra
        rw [hcontra] at hvpos
        simp [digitsVal] at hvpos
      have hround : roundNearestPos fmt (sciVal 10 ds Eo)
          = FloatVal.finite false m e := by
        rw [hdsdef, hEodef]
        refine searchShortest_spec fmt q (.finite false m e) 1 (exactLen q e - 1) ?_
        have hlen1 : 1 + (exactLen q e - 1) = exactLen q e := by
          have := exactLen_pos m e hmpos
          rw [← hqdef] at this
          omega
        rw [hlen1, hqdef]
        rw [sigDigits_exact m e hmpos]
        exact roundNearestPos_value fmt hprec m e hmpos hc
      cases s with
      | false =>
        have hfmt : ftoaImpl (forward fmt) false defaultNanString
            defaultInfString 10 (FloatVal.finite false m e) = render 10 ds Eo := by
          simp only [ftoaImpl, filter_sign, filter_special, FloatVal.isZero,
            FloatVal.isSignNegative, FloatVal.isNan, FloatVal.isSpecial, trimOut]
          simp [hm, hgen]
        rw [hfmt]
        refine ⟨List.length_pos.mpr (render_ne_nil ds Eo hne), ?_⟩
        rw [atofCore_nosign _ _ _ _ _ _ _
          (by intro b hb
              obtain ⟨hb1, hb2⟩ := render_headRange ds Eo hne hds b hb
              unfold byteMinus bytePlus
              omega)]
        have hb := atofBody_render fmt false 0 ds Eo hne hds hvpos
        rw [hround, withSign_finite] at hb
        rw [hb]
        simp
      | true =>
        have hfmt : ftoaImpl (forward fmt) false defaultNanString
            defaultInfString 10 (FloatVal.finite true m e)
            = byteMinus :: render 10 ds Eo := by
          simp only [ftoaImpl, filter_sign, filter_special, FloatVal.isZero,
            FloatVal.isSignNegative, FloatVal.isNan, FloatVal.isSpecial,
            FloatVal.neg, trimOut]
          simp [hm, hgen]
        rw [hfmt]
        refine ⟨by simp, ?_⟩
        rw [atofCore_minus]
        have hb := atofBody_render fmt true 1 ds Eo hne hds hvpos
        rw [hround, withSign_finite] at hb
        rw [hb]
        simp [Nat.add_comm]

/-- C1: round trip.  For every canonical finite binary float of the f32 or
f64 format, parsing (under the default configuration, exact digit
accumulation and round-nearest-tie-even) the text produced by formatting
the value in base 10 returns exactly the same float, bit for bit; the
checked parser also accepts the whole text. -/
theorem C1_roundtrip :
    (∀ f : FloatVal, Canonical fmt32 f → f.isFinite = true →
      parse_radix_f32 (f32toa_impl 10 f) 10 = f ∧
      try_parse_radix_f32 (f32toa_impl 10 f) 10 = Except.ok f) ∧
    (∀ f : FloatVal, Canonical fmt64 f → f.isFinite = true →
      parse_radix_f64 (f64toa_impl 10 f) 10 = f ∧
      try_parse_radix_f64 (f64toa_impl 10 f) 10 = Except.ok f) := by
  have hgen : ∀ fmt : FloatFmt, 1 ≤ fmt.prec → ∀ f, Canonical fmt f →
      f.isFinite = true →
      atofUnchecked fmt 10 (exponent_notation_char 10) defaultNanString
        defaultInfString defaultInfinityString
        (ftoaImpl (forward fmt) false defaultNanString defaultInfString 10 f) = f ∧
      atofChecked fmt 10 (exponent_notation_char 10) defaultNanString
        defaultInfString defaultInfinityString
        (ftoaImpl (forward fmt) false defaultNanString defaultInfString 10 f)
        = Except.ok f := by
    intro fmt hp f hc hf
    have hec : exponent_notation_char 10 = byteE := by decide
    obtain ⟨hpos, hcore⟩ := roundtrip_gen fmt hp f hc hf
    rw [hec]
    constructor
    · unfold atofUnchecked
      rw [hcore]
    · unfold atofChecked
      rw [hcore]
      rw [if_pos ⟨hpos, rfl⟩]
  refine ⟨fun f hc hf => ?_, fun f hc hf => ?_⟩
  · have h := hgen fmt32 (by norm_num [fmt32]) f hc hf
    exact h
  · have h := hgen fmt64 (by norm_num [fmt64]) f hc hf
    exact h

/-- Witness for C1 at the concrete values 1.5f32 and -1.5f64. -/
theorem C1_roundtrip_witness :
    (Canonical fmt32 (.finite false 12582912 (-23)) ∧
      parse_radix_f32 (f32toa_impl 10 (.finite false 12582912 (-23))) 10
        = .finite false 12582912 (-23)) ∧
    (Canonical fmt64 (.finite true 6755399441055744 (-51)) ∧
      parse_radix_f64 (f64toa_impl 10 (.finite true 6755399441055744 (-51))) 10
        = .finite true 6755399441055744 (-51)) :=
  ⟨⟨by decide, (C1_roundtrip.1 _ (by decide) (by decide)).1⟩,
   ⟨by decide, (C1_roundtrip.2 _ (by decide) (by decide)).1⟩⟩

/-- Helper: evaluation of the digit search at the value one — a single
digit suffices. -/
theorem searchShortest_at_one (fmt : FloatFmt) (hprec : 1 ≤ fmt.prec)
    (m : ℕ) (e : ℤ) (hm : 0 < m) (hc : Canonical fmt (.finite false m e))
    (hq : ((m : ℚ) * (2 : ℚ) ^ e) = 1) (fuel : ℕ) :
    searchShortest fmt ((m : ℚ) * (2 : ℚ) ^ e) (.finite false m e) 1 (fuel + 1)
      = ([1], 0) := by
  have hdig : natDigits 10 (1 : ℤ).toNat = [1] := by
    unfold natDigits
    rw [show (1 : ℤ).toNat = 1 from rfl]
    rw [Nat.digits_def' (by norm_num : 1 < 10) (by norm_num : 0 < 1)]
    norm_num
  have hsig : sigDigits 10 ((m : ℚ) * (2 : ℚ) ^ e) 1 = ([1], 0) := by
    simp only [sigDigits, hq]
    rw [Int.log_one_right]
    have harg : (1 : ℚ) * ((10 : ℕ) : ℚ) ^ ((((1 : ℕ) : ℤ)) - 1 - 0)
        = ((1 : ℤ) : ℚ) := by
      norm_num
    rw [harg, roundHalfEven_intCast, hdig]
    norm_num
  have hsci : sciVal 10 [1] 0 = 1 := by
    unfold sciVal digitsVal
    norm_num
  have hrnd : roundNearestPos fmt (sciVal 10 [1] 0)
      = FloatVal.finite false m e := by
    rw [hsci, ← hq]
    exact roundNearestPos_value fmt hprec m e hm hc
  unfold searchShortest
  rw [hsig]
  show (if roundNearestPos fmt (sciVal 10 [1] 0) = FloatVal.finite false m e
      then (([1] : List ℕ), (0 : ℤ))
      else searchShortest fmt ((m : ℚ) * (2 : ℚ) ^ e)
        (.finite false m e) (1 + 1) fuel)
    = ([1], 0)
  rw [hrnd, if_pos rfl]

/-- Helper: formatting the f32 value 1.0 yields "1.0". -/
theorem f32toa_one : f32toa_impl 10 (.finite false 8388608 (-23)) = [49, 46, 48] := by
  have hq : ((8388608 : ℕ) : ℚ) * (2 : ℚ) ^ (-23 : ℤ) = 1 := by
    rw [show ((8388608 : ℕ) : ℚ) = (2 : ℚ) ^ (23 : ℕ) from by norm_num]
    rw [← zpow_natCast, ← zpow_add₀ (by norm_num : (2 : ℚ) ≠ 0)]
    norm_num
  have hlen : exactLen ((8388608 : ℚ) * (2 : ℚ) ^ (-23 : ℤ)) (-23) = 24 := by
    unfold exactLen
    rw [show ((8388608 : ℚ) * (2 : ℚ) ^ (-23 : ℤ)) = 1 from by exact_mod_cast hq]
    rw [Int.log_one_right]
    decide
  have hfs : filter_special (forward fmt32) false defaultNanString
      defaultInfString 10 (.finite false 8388608 (-23))
      = forward fmt32 10 (.finite false 8388608 (-23)) := by
    simp [filter_special, FloatVal.isZero, FloatVal.isNan, FloatVal.isSpecial]
  have hcan : Canonical fmt32 (.finite false 8388608 (-23)) := by decide
  have hsearch := searchShortest_at_one fmt32 (by norm_num [fmt32])
    8388608 (-23) (by norm_num) hcan hq 22
  unfold f32toa_impl f32toa_withConfig ftoaImpl
  rw [show DEFAULT_TRIM_FLOATS = false from rfl]
  unfold filter_sign
  rw [if_neg (by simp [FloatVal.isZero]), if_neg (by simp [FloatVal.isSignNegative])]
  rw [hfs]
  unfold forward
  rw [if_pos rfl]
  simp only [genDecimal]
  rw [show ((8388608 : ℕ) : ℚ) * (2 : ℚ) ^ (-23 : ℤ)
    = (8388608 : ℚ) * (2 : ℚ) ^ (-23 : ℤ) from by norm_num] at hsearch ⊢
  rw [hlen]
  rw [show (24 - 1 : ℕ) = 22 + 1 from rfl]
  rw [hsearch]
  show render 10 [1] 0 = [49, 46, 48]
  decide

/-- Helper: formatting the f32 value -1.0 yields "-1.0". -/
theorem f32toa_neg_one :
    f32toa_impl 10 (.finite true 8388608 (-23)) = [45, 49, 46, 48] := by
  have hneg : f32toa_impl 10 (.finite true 8388608 (-23))
      = byteMinus :: f32toa_impl 10 (.finite false 8388608 (-23)) := by
    unfold f32toa_impl f32toa_withConfig ftoaImpl
    rw [show DEFAULT_TRIM_FLOATS = false from rfl]
    unfold filter_sign
    rw [if_neg (by simp [FloatVal.isZero]), if_pos (by simp [FloatVal.isSignNegative])]
    rw [if_neg (by simp [FloatVal.isZero]), if_neg (by simp [FloatVal.isSignNegative])]
    rw [show FloatVal.neg (.finite true 8388608 (-23))
      = FloatVal.finite false 8388608 (-23) from rfl]
    exact trimOut_cons_minus false _
  rw [hneg, f32toa_one]
  rfl

/-- Counterexample to C5 as stated: at the non-zero float -1.0 (f32),
formatting its negation yields "1.0", while '-' prepended to its own
formatting yields "--1.0". -/
theorem C5_sign_symmetry_counterexample :
    f32toa_impl 10 (FloatVal.neg (.finite true 8388608 (-23)))
      ≠ byteMinus :: f32toa_impl 10 (.finite true 8388608 (-23)) := by
  rw [show FloatVal.neg (.finite true 8388608 (-23))
    = FloatVal.finite false 8388608 (-23) from rfl]
  rw [f32toa_one, f32toa_neg_one]
  decide

/-- Counterexample to C6 as stated: with the trim-floats feature enabled
and the configured NaN spelling "n.0" (accepted by `to_nan_string`, which
only requires a leading `N`/`n`), formatting NaN yields "n", not the
spelling. -/
theorem C6_special_fidelity_counterexample :
    f32toa_withConfig true [110, 46, 48] defaultInfString 10 (.nan false)
      ≠ [110, 46, 48] := by
  decide

/-!
### Trimming invariants (C8)
-/

/-- Helper: rendered digit bytes are never the dot byte. -/
theorem count_dot_renderDigits (ds : List ℕ) :
    (renderDigits ds).count byteDot = 0 := by
  rw [List.count_eq_zero]
  intro hmem
  obtain ⟨d, _, hd⟩ := List.mem_map.mp hmem
  unfold digitByte at hd
  unfold byteDot at hd
  split_ifs at hd <;> omega

/-- Helper: a digit byte never equals the dot byte. -/
theorem digitByte_ne_dot (d : ℕ) : digitByte d ≠ byteDot := by
  unfold digitByte byteDot
  split_ifs <;> omega

/-- Helper: a rendered exponent section contains no dot byte. -/
theorem count_dot_renderExp (radix : ℕ) (E : ℤ) :
    (renderExpDigits radix E).count byteDot = 0 := by
  unfold renderExpDigits
  split_ifs
  · rw [List.count_cons, count_dot_renderDigits]
    simp [byteMinus, byteDot]
  · exact count_dot_renderDigits _

/-- Helper: every rendered layout contains at most one dot byte. -/
theorem count_dot_render (radix : ℕ) (ds : List ℕ) (E : ℤ) :
    (render radix ds E).count byteDot ≤ 1 := by
  have hz : (([byteZero] : List ℕ)).count byteDot = 0 := by decide
  have hd1 : (([byteDot] : List ℕ)).count byteDot = 1 := by decide
  have hbzbd : (([byteZero, byteDot] : List ℕ)).count byteDot = 1 := by decide
  have hrep : ∀ k, (List.replicate k byteZero).count byteDot = 0 := by
    intro k
    rw [List.count_replicate]
    norm_num [byteDot, byteZero]
  unfold render
  by_cases h1 : 0 ≤ E ∧ E < (ds.length : ℤ)
  · rw [if_pos h1]
    rw [List.count_append, List.count_append, count_dot_renderDigits, hd1]
    by_cases h2 : ds.length ≤ E.toNat + 1
    · rw [if_pos h2, hz]
    · rw [if_neg h2, count_dot_renderDigits]
  · rw [if_neg h1]
    by_cases h2 : -4 ≤ E ∧ E < 0
    · rw [if_pos h2]
      rw [List.append_assoc, List.count_append, List.count_append, hbzbd,
        hrep, count_dot_renderDigits]
    · rw [if_neg h2]
      cases ds with
      | nil => rw [hz]; omega
      | cons d rest =>
        have hdb : (digitByte d == byteDot) = false := by
          simp [digitByte_ne_dot d]
        have hec : ((exponent_notation_char radix : ℕ) == byteDot) = false := by
          unfold exponent_notation_char byteCaret byteE byteDot
          split_ifs <;> simp
        simp only [List.count_cons, List.count_append, count_dot_renderExp,
          count_dot_renderDigits, hdb, hec, hz, beq_self_eq_true, if_true,
          Bool.false_eq_true, if_false, ite_self]
        by_cases h3 : rest = []
        · rw [if_pos h3, hz]
        · rw [if_neg h3, count_dot_renderDigits]

/-- Helper: a list without a dot byte cannot end in ".0". -/
theorem endsInDotZero_of_not_mem {l : List ℕ} (h : byteDot ∉ l) :
    endsInDotZero l = false := by
  unfold endsInDotZero
  rcases hr : l.reverse with _ | ⟨a, _ | ⟨b, t⟩⟩
  · rfl
  · rfl
  · have hbmem : b ∈ l := by
      rw [← List.mem_reverse, hr]
      simp
    have hne : b ≠ 46 := by
      intro hb
      subst hb
      exact h (by simpa [byteDot] using hbmem)
    simp [hne]

/-- Helper: a list ending in ".0" decomposes as a prefix plus those two
bytes. -/
theorem endsInDotZero_decomp {l : List ℕ} (h : endsInDotZero l = true) :
    ∃ p, l = p ++ [byteDot, byteZero] := by
  unfold endsInDotZero at h
  rcases hr : l.reverse with _ | ⟨a, _ | ⟨b, t⟩⟩ <;> rw [hr] at h
  · exact absurd h (by decide)
  · exact absurd h (by simp)
  · simp only [Bool.and_eq_true, beq_iff_eq] at h
    obtain ⟨ha, hb⟩ := h
    refine ⟨t.reverse, ?_⟩
    have hl : l = (a :: b :: t).reverse := by rw [← hr, List.reverse_reverse]
    rw [hl, List.reverse_cons, List.reverse_cons, ha, hb]
    simp [byteDot, byteZero]

/-- Helper: trimming output with at most one dot never leaves a ".0"
suffix. -/
theorem trim_no_dotzero {bs : List ℕ} (h : bs.count byteDot ≤ 1) :
    endsInDotZero (trimOut true bs) = false := by
  unfold trimOut
  by_cases he : endsInDotZero bs = true
  · rw [he]
    rw [if_pos (by simp)]
    obtain ⟨p, hp⟩ := endsInDotZero_decomp he
    subst hp
    have hlen : (p ++ [byteDot, byteZero]).length - 2 = p.length := by
      simp
    rw [hlen, List.take_left]
    refine endsInDotZero_of_not_mem ?_
    intro hmem
    rw [List.count_append] at h
    have h1 : 1 ≤ p.count byteDot := List.one_le_count_iff.mpr hmem
    have h2 : (([byteDot, byteZero] : List ℕ)).count byteDot = 1 := by decide
    omega
  · rw [Bool.not_eq_true] at he
    rw [he]
    simpa using he

/-- Helper: the significant-digit extraction of a positive value is never
empty. -/
theorem sigDigits_ne_nil (radix : ℕ) (hr : 2 ≤ radix) (q : ℚ) (hq : 0 < q)
    (n : ℕ) (hn : 1 ≤ n) : (sigDigits radix q n).1 ≠ [] := by
  have h := sigDigits_scaled_pos radix hr q hq n hn
  show natDigits radix
    (roundHalfEven (q * (radix : ℚ) ^ ((n : ℤ) - 1 - Int.log radix q))).toNat ≠ []
  unfold natDigits
  intro hnil
  rw [List.reverse_eq_nil_iff] at hnil
  rw [Nat.digits_eq_nil_iff_eq_zero] at hnil
  omega

/-- Helper: every rendered layout of a non-empty digit list contains the
dot byte. -/
theorem dot_mem_render (radix : ℕ) (ds : List ℕ) (E : ℤ) (hne : ds ≠ []) :
    byteDot ∈ render radix ds E := by
  unfold render
  by_cases h1 : 0 ≤ E ∧ E < (ds.length : ℤ)
  · rw [if_pos h1]
    simp
  · rw [if_neg h1]
    by_cases h2 : -4 ≤ E ∧ E < 0
    · rw [if_pos h2]
      simp
    · rw [if_neg h2]
      cases ds with
      | nil => exact absurd rfl hne
      | cons d t => simp

/-- Helper: the digit generator output for any float carries at most one
dot byte. -/
theorem count_dot_forward (fmt : FloatFmt) (radix : ℕ) (f : FloatVal) :
    (forward fmt radix f).count byteDot ≤ 1 := by
  unfold forward
  by_cases h : radix = 10
  · rw [if_pos h]
    cases f with
    | finite s m e => exact count_dot_render 10 _ _
    | inf s => simp [genDecimal]
    | nan s => simp [genDecimal]
  · rw [if_neg h]
    cases f with
    | finite s m e => exact count_dot_render radix _ _
    | inf s => simp [genRadix]
    | nan s => simp [genRadix]

/-- Helper: under the default spellings the special filter's output
carries at most one dot byte (trim enabled). -/
theorem count_dot_filter_special (fmt : FloatFmt) (radix : ℕ)
    (f : FloatVal) :
    (filter_special (forward fmt) true defaultNanString defaultInfString
      radix f).count byteDot ≤ 1 := by
  unfold filter_special
  rw [show (!true && f.isZero) = false from by simp]
  rw [if_neg (by simp)]
  by_cases h1 : f.isNan = true
  · rw [if_pos h1]
    decide
  · rw [if_neg h1]
    by_cases h2 : f.isSpecial = true
    · rw [if_pos h2]
      decide
    · rw [if_neg h2]
      exact count_dot_forward fmt radix f

/-- Helper: under the default spellings the sign filter's output carries
at most one dot byte (trim enabled). -/
theorem count_dot_filter_sign (fmt : FloatFmt) (radix : ℕ) (f : FloatVal) :
    (filter_sign (forward fmt) true defaultNanString defaultInfString
      radix f).count byteDot ≤ 1 := by
  unfold filter_sign
  by_cases h0 : (true && f.isZero) = true
  · rw [if_pos h0]
    decide
  · rw [if_neg h0]
    by_cases h1 : f.isSignNegative = true
    · rw [if_pos h1]
      rw [List.count_cons]
      have hbm : ((byteMinus : ℕ) == byteDot) = false := by decide
      rw [hbm]
      have h := count_dot_filter_special fmt radix f.neg
      simp only [Bool.false_eq_true, if_false]
      omega
    · rw [if_neg h1]
      exact count_dot_filter_special fmt radix f

/-- Helper: the full formatting pipeline with trimming enabled never ends
in ".0" under the default spellings. -/
theorem no_dotzero_ftoa (fmt : FloatFmt) (radix : ℕ) (f : FloatVal) :
    endsInDotZero (ftoaImpl (forward fmt) true defaultNanString
      defaultInfString radix f) = false := by
  unfold ftoaImpl
  exact trim_no_dotzero (count_dot_filter_sign fmt radix f)

/-- Helper: the generator output of a finite non-zero float contains the
dot byte. -/
theorem dot_mem_gen (fmt : FloatFmt) (hprec : 1 ≤ fmt.prec) (radix : ℕ)
    (hr : 2 ≤ radix) (s : Bool) (m : ℕ) (e : ℤ) (hm : 0 < m) :
    byteDot ∈ forward fmt radix (.finite s m e) := by
  have hq : (0 : ℚ) < (m : ℚ) * (2 : ℚ) ^ e :=
    mul_pos (by exact_mod_cast hm) (zpow_pos (by norm_num) e)
  unfold forward
  by_cases h : radix = 10
  · rw [if_pos h]
    show byteDot ∈ render 10
      (searchShortest fmt ((m : ℚ) * (2 : ℚ) ^ e) (.finite false m e) 1
        (exactLen ((m : ℚ) * (2 : ℚ) ^ e) e - 1)).1
      (searchShortest fmt ((m : ℚ) * (2 : ℚ) ^ e) (.finite false m e) 1
        (exactLen ((m : ℚ) * (2 : ℚ) ^ e) e - 1)).2
    obtain ⟨n, hn, hub, he⟩ := searchShortest_eq_sigDigits fmt
      ((m : ℚ) * (2 : ℚ) ^ e) (.finite false m e) 1
      (exactLen ((m : ℚ) * (2 : ℚ) ^ e) e - 1)
    rw [he]
    exact dot_mem_render 10 _ _ (sigDigits_ne_nil 10 (by norm_num) _ hq n hn)
  · rw [if_neg h]
    show byteDot ∈ render radix
      (sigDigits radix ((m : ℚ) * (2 : ℚ) ^ e) fmt.prec).1
      (sigDigits radix ((m : ℚ) * (2 : ℚ) ^ e) fmt.prec).2
    exact dot_mem_render radix _ _
      (sigDigits_ne_nil radix hr _ hq fmt.prec hprec)

/-- Helper: the special filter's output for a finite float contains the
dot byte (trim disabled). -/
theorem dot_mem_filter_special (fmt : FloatFmt) (hprec : 1 ≤ fmt.prec)
    (radix : ℕ) (hr : 2 ≤ radix) (s : Bool) (m : ℕ) (e : ℤ) :
    byteDot ∈ filter_special (forward fmt) false defaultNanString
      defaultInfString radix (.finite s m e) := by
  unfold filter_special
  by_cases hz : (!false && (FloatVal.finite s m e).isZero) = true
  · rw [if_pos hz]
    decide
  · rw [if_neg hz]
    rw [if_neg (by simp [FloatVal.isNan])]
    rw [if_neg (by simp [FloatVal.isSpecial])]
    have hm : 0 < m := by
      simp only [Bool.not_false, Bool.true_and, FloatVal.isZero,
        decide_eq_true_eq] at hz
      omega
    exact dot_mem_gen fmt hprec radix hr s m e hm

/-- Helper: the full formatting pipeline with trimming disabled always
emits the dot byte for finite floats. -/
theorem dot_mem_ftoa (fmt : FloatFmt) (hprec : 1 ≤ fmt.prec) (radix : ℕ)
    (hr : 2 ≤ radix) (f : FloatVal) (hf : f.isFinite = true) :
    byteDot ∈ ftoaImpl (forward fmt) false defaultNanString
      defaultInfString radix f := by
  unfold ftoaImpl trimOut
  rw [if_neg (by simp)]
  cases f with
  | inf s => exact absurd hf (by simp [FloatVal.isFinite])
  | nan s => exact absurd hf (by simp [FloatVal.isFinite])
  | finite s m e =>
    unfold filter_sign
    rw [if_neg (by simp)]
    by_cases hs : (FloatVal.finite s m e).isSignNegative = true
    · rw [if_pos hs]
      exact List.mem_cons_of_mem _
        (dot_mem_filter_special fmt hprec radix hr (!s) m e)
    · rw [if_neg hs]
      exact dot_mem_filter_special fmt hprec radix hr s m e



/-- C8: with trimming enabled the trim step drops exactly the final
".0" when present and no formatted output (default spellings, any radix,
any float) ever ends in ".0"; with trimming disabled every formatted
finite value contains a decimal point. -/
theorem C8_trim_invariant :
    (∀ bs : List ℕ, endsInDotZero bs = true →
        trimOut true bs = bs.take (bs.length - 2)) ∧
    (∀ radix : ℕ, ∀ f : FloatVal,
        endsInDotZero (f32toa_withConfig true defaultNanString
          defaultInfString radix f) = false) ∧
    (∀ radix : ℕ, ∀ f : FloatVal,
        endsInDotZero (f64toa_withConfig true defaultNanString
          defaultInfString radix f) = false) ∧
    (∀ radix : ℕ, ∀ f : FloatVal, 2 ≤ radix → f.isFinite = true →
        byteDot ∈ f32toa_impl radix f) ∧
    (∀ radix : ℕ, ∀ f : FloatVal, 2 ≤ radix → f.isFinite = true →
        byteDot ∈ f64toa_impl radix f) := by
  refine ⟨?_, ?_, ?_, ?_, ?_⟩
  · intro bs h
    unfold trimOut
    rw [h]
    simp
  · intro radix f
    exact no_dotzero_ftoa fmt32 radix f
  · intro radix f
    exact no_dotzero_ftoa fmt64 radix f
  · intro radix f hr hf
    exact dot_mem_ftoa fmt32 (by norm_num [fmt32]) radix hr f hf
  · intro radix f hr hf
    exact dot_mem_ftoa fmt64 (by norm_num [fmt64]) radix hr f hf

/-- Witness for C8 at concrete inputs: the trim step on "1.0", and dot
membership for the formatted f32 and f64 values 1.0 in base 10. -/
theorem C8_trim_invariant_witness :
    endsInDotZero [49, 46, 48] = true ∧
    trimOut true [49, 46, 48] = [49, 46, 48].take ([49, 46, 48].length - 2) ∧
    (2 : ℕ) ≤ 10 ∧
    (FloatVal.finite false 8388608 (-23)).isFinite = true ∧
    (FloatVal.finite false 4503599627370496 (-52)).isFinite = true ∧
    byteDot ∈ f32toa_impl 10 (.finite false 8388608 (-23)) ∧
    byteDot ∈ f64toa_impl 10 (.finite false 4503599627370496 (-52)) :=
  ⟨by decide,
   C8_trim_invariant.1 [49, 46, 48] (by decide),
   by norm_num,
   by decide,
   by decide,
   C8_trim_invariant.2.2.2.1 10 (.finite false 8388608 (-23))
     (by norm_num) (by decide),
   C8_trim_invariant.2.2.2.2 10 (.finite false 4503599627370496 (-52))
     (by norm_num) (by decide)⟩


/-- C2: an invalid first byte makes checked parsing fail at offset 0
and unchecked parsing return zero (floats and integers); when a positive
count of bytes is consumed, checked parsing of the whole input fails at
the offset of the first unconsumed byte while the consumed prefix parses
cleanly and unchecked parsing returns exactly the value of that prefix;
concretely, checked f32 parsing of "1.0." fails at offset 3 and unchecked
integer parsing of "1a" yields 1. -/
theorem C2_parse_error_semantics :
    (∀ (radix b : ℕ) (rest : List ℕ), isDigitByte radix b = false →
        b ≠ bytePlus → b ≠ byteMinus → b ≠ 105 → b ≠ 78 →
        try_parse_radix_f32 (b :: rest) radix = .error 0 ∧
        parse_radix_f32 (b :: rest) radix = .finite false 0 fmt32.emin) ∧
    (∀ (radix b : ℕ) (rest : List ℕ), isDigitByte radix b = false →
        b ≠ bytePlus → b ≠ byteMinus →
        try_parse_radix_int (b :: rest) radix = .error 0 ∧
        parse_radix_int (b :: rest) radix = 0) ∧
    (∀ (fmt : FloatFmt) (radix : ℕ) (bs : List ℕ),
        0 < (atofCore fmt radix (exponent_notation_char radix)
          defaultNanString defaultInfString defaultInfinityString bs).1 →
        atofChecked fmt radix (exponent_notation_char radix)
            defaultNanString defaultInfString defaultInfinityString
            (bs.take (atofCore fmt radix (exponent_notation_char radix)
              defaultNanString defaultInfString defaultInfinityString bs).1)
          = .ok (atofUnchecked fmt radix (exponent_notation_char radix)
              defaultNanString defaultInfString defaultInfinityString bs) ∧
        ((atofCore fmt radix (exponent_notation_char radix)
            defaultNanString defaultInfString defaultInfinityString bs).1
              < bs.length →
          atofChecked fmt radix (exponent_notation_char radix)
              defaultNanString defaultInfString defaultInfinityString bs
            = .error (atofCore fmt radix (exponent_notation_char radix)
                defaultNanString defaultInfString defaultInfinityString
                bs).1) ∧
        atofUnchecked fmt radix (exponent_notation_char radix)
            defaultNanString defaultInfString defaultInfinityString
            (bs.take (atofCore fmt radix (exponent_notation_char radix)
              defaultNanString defaultInfString defaultInfinityString bs).1)
          = atofUnchecked fmt radix (exponent_notation_char radix)
              defaultNanString defaultInfString defaultInfinityString bs) ∧
    (∀ (radix : ℕ) (bs : List ℕ), 0 < (atoiCore radix bs).1 →
        try_parse_radix_int (bs.take (atoiCore radix bs).1) radix
          = .ok (parse_radix_int bs radix) ∧
        ((atoiCore radix bs).1 < bs.length →
          try_parse_radix_int bs radix = .error (atoiCore radix bs).1) ∧
        parse_radix_int (bs.take (atoiCore radix bs).1) radix
          = parse_radix_int bs radix) ∧
    try_parse_radix_f32 [49, 46, 48, 46] 10 = .error 3 ∧
    parse_radix_int [49, 97] 10 = 1 := by
  refine ⟨?_, ?_, ?_, ?_, ?_, ?_⟩
  · intro radix b rest hb hbp hbm hbi hbn
    have hc := atofCore_invalid fmt32 radix b rest hb hbp hbm hbi hbn
    constructor
    · unfold try_parse_radix_f32 atofChecked
      rw [hc]
      dsimp only
      rw [if_neg (by simp)]
    · unfold parse_radix_f32 atofUnchecked
      rw [hc]
  · intro radix b rest hb hbp hbm
    have hc := atoiCore_invalid radix b rest hb hbp hbm
    constructor
    · unfold try_parse_radix_int
      rw [hc]
      dsimp only
      rw [if_neg (by simp)]
    · unfold parse_radix_int
      rw [hc]
  · intro fmt radix bs h
    obtain ⟨hre, hle⟩ := atofCore_consumed fmt radix bs h
    refine ⟨?_, ?_, ?_⟩
    · unfold atofChecked
      rw [hre]
      dsimp only
      rw [if_pos ⟨h, by rw [List.length_take]; omega⟩]
      rfl
    · intro hlt
      unfold atofChecked
      dsimp only
      rw [if_neg (fun hcon => by omega)]
    · unfold atofUnchecked
      rw [hre]
  · intro radix bs h
    obtain ⟨hre, hle⟩ := atoiCore_consumed radix bs h
    refine ⟨?_, ?_, ?_⟩
    · unfold try_parse_radix_int
      rw [hre]
      dsimp only
      rw [if_pos ⟨h, by rw [List.length_take]; omega⟩]
      rfl
    · intro hlt
      unfold try_parse_radix_int
      dsimp only
      rw [if_neg (fun hcon => by omega)]
    · unfold parse_radix_int
      rw [hre]
  · rfl
  · decide

/-- Witness for C2 at concrete inputs: the invalid first bytes ":" (for
f32) and "a" (for i32), and the consumed-prefix property at "1.0." (f32)
and "1a" (i32). -/
theorem C2_parse_error_semantics_witness :
    isDigitByte 10 58 = false ∧ (58 : ℕ) ≠ bytePlus ∧ (58 : ℕ) ≠ byteMinus ∧
      (58 : ℕ) ≠ 105 ∧ (58 : ℕ) ≠ 78 ∧
    try_parse_radix_f32 [58] 10 = .error 0 ∧
    try_parse_radix_int [97] 10 = .error 0 ∧
    0 < (atofCore fmt32 10 (exponent_notation_char 10) defaultNanString
      defaultInfString defaultInfinityString [49, 46, 48, 46]).1 ∧
    atofChecked fmt32 10 (exponent_notation_char 10) defaultNanString
        defaultInfString defaultInfinityString
        ([49, 46, 48, 46].take (atofCore fmt32 10 (exponent_notation_char 10)
          defaultNanString defaultInfString defaultInfinityString
          [49, 46, 48, 46]).1)
      = .ok (atofUnchecked fmt32 10 (exponent_notation_char 10)
          defaultNanString defaultInfString defaultInfinityString
          [49, 46, 48, 46]) ∧
    0 < (atoiCore 10 [49, 97]).1 ∧
    try_parse_radix_int ([49, 97].take (atoiCore 10 [49, 97]).1) 10
      = .ok (parse_radix_int [49, 97] 10) :=
  ⟨by decide, by decide, by decide, by decide, by decide,
   (C2_parse_error_semantics.1 10 58 [] (by decide) (by decide) (by decide)
     (by decide) (by decide)).1,
   (C2_parse_error_semantics.2.1 10 97 [] (by decide) (by decide)
     (by decide)).1,
   by decide,
   (C2_parse_error_semantics.2.2.1 fmt32 10 [49, 46, 48, 46] (by decide)).1,
   by decide,
   (C2_parse_error_semantics.2.2.2.1 10 [49, 97] (by decide)).1⟩


/-!
### Output length bounds (C3)
-/

/-- Helper: a number below a power of the radix has at most that many
digits. -/
theorem natDigits_length_le (radix n k : ℕ) (hr : 2 ≤ radix)
    (h : n < radix ^ k) : (natDigits radix n).length ≤ k := by
  unfold natDigits
  rw [List.length_reverse]
  rcases Nat.eq_zero_or_pos n with rfl | hn
  · simp
  · rw [Nat.digits_len radix n (by omega) (by omega)]
    have hlog := Nat.log_lt_of_lt_pow (by omega : n ≠ 0) h
    omega

/-- Helper: the significant-digit extraction produces at most one digit
beyond the requested count. -/
theorem sigDigits_length_le (radix : ℕ) (hr : 2 ≤ radix) (q : ℚ)
    (hq : 0 < q) (n : ℕ) : (sigDigits radix q n).1.length ≤ n + 1 := by
  have hb1 : (1 : ℕ) < radix := by omega
  have hrq : (0 : ℚ) < (radix : ℚ) := by
    exact_mod_cast Nat.lt_of_lt_of_le (by norm_num) hr
  show (natDigits radix (roundHalfEven
    (q * (radix : ℚ) ^ ((n : ℤ) - 1 - Int.log radix q))).toNat).length ≤ n + 1
  have hlt : q * (radix : ℚ) ^ ((n : ℤ) - 1 - Int.log radix q)
      < ((radix : ℤ) ^ n : ℤ) := by
    push_cast
    rw [← zpow_natCast (radix : ℚ) n]
    calc q * (radix : ℚ) ^ ((n : ℤ) - 1 - Int.log radix q)
        < (radix : ℚ) ^ (Int.log radix q + 1)
            * (radix : ℚ) ^ ((n : ℤ) - 1 - Int.log radix q) :=
          mul_lt_mul_of_pos_right (Int.lt_zpow_succ_log_self hb1 q)
            (zpow_pos hrq _)
      _ = (radix : ℚ) ^ ((n : ℕ) : ℤ) := by
          rw [← zpow_add₀ (ne_of_gt hrq)]
          congr 1
          ring
  have hle := roundHalfEven_le hlt
  have hcast : ((radix : ℤ) ^ n) = ((radix ^ n : ℕ) : ℤ) := by push_cast; ring
  refine natDigits_length_le radix _ (n + 1) hr ?_
  have hpow : radix ^ n < radix ^ (n + 1) :=
    Nat.pow_lt_pow_succ hb1
  omega

/-- Helper: the decimal exponent reported by `sigDigits`. -/
theorem sigDigits_snd (radix : ℕ) (q : ℚ) (n : ℕ) :
    (sigDigits radix q n).2
      = Int.log radix q + (((sigDigits radix q n).1.length : ℤ) - (n : ℤ)) :=
  rfl

/-- Helper: the exact digit count of a canonical value is bounded by the
format parameters. -/
theorem exactLen_le (fmt : FloatFmt) (m : ℕ) (e : ℤ) (hm : 0 < m)
    (hmp : m < 2 ^ fmt.prec) (he1 : fmt.emin ≤ e) (he2 : e ≤ fmt.etop)
    (hemin : fmt.emin ≤ 0) (hetop : 0 ≤ fmt.etop) :
    exactLen ((m : ℚ) * (2 : ℚ) ^ e) e
      ≤ max (fmt.prec + fmt.etop.toNat) (1 + (-fmt.emin).toNat) := by
  set q : ℚ := (m : ℚ) * (2 : ℚ) ^ e with hqdef
  have hq : 0 < q :=
    mul_pos (by exact_mod_cast hm) (zpow_pos (by norm_num) e)
  by_cases h1 : (1 : ℚ) ≤ q
  · have hlt : q < (2 : ℚ) ^ ((fmt.prec : ℤ) + e) := by
      rw [hqdef]
      calc (m : ℚ) * (2 : ℚ) ^ e
          < ((2 ^ fmt.prec : ℕ) : ℚ) * (2 : ℚ) ^ e := by
            exact mul_lt_mul_of_pos_right (by exact_mod_cast hmp)
              (zpow_pos (by norm_num) e)
        _ = (2 : ℚ) ^ ((fmt.prec : ℤ) + e) := by
            push_cast
            rw [← zpow_natCast (2 : ℚ) fmt.prec, ← zpow_add₀ (by norm_num)]
    have hlog2 : Int.log 2 q < (fmt.prec : ℤ) + e :=
      (Int.lt_zpow_iff_log_lt (by norm_num) hq).mp hlt
    have hlog10 : Int.log 10 q ≤ Int.log 2 q := by
      rw [Int.log_of_one_le_right 2 h1, Int.log_of_one_le_right 10 h1]
      exact_mod_cast Nat.log_anti_left (by norm_num) (by norm_num) ..
    unfold exactLen
    omega
  · have hlog10 : Int.log 10 q ≤ 0 := by
      have h1' : q ≤ 1 := le_of_not_le h1
      rw [Int.log_of_right_le_one 10 h1']
      omega
    unfold exactLen
    omega

/-- Helper: the radix logarithm of a canonical value lies between the
format's exponent bounds. -/
theorem log_radix_range (radix : ℕ) (hr2 : 2 ≤ radix) (fmt : FloatFmt)
    (m : ℕ) (e : ℤ) (hm : 0 < m) (hmp : m < 2 ^ fmt.prec)
    (he1 : fmt.emin ≤ e) (he2 : e ≤ fmt.etop)
    (hemin : fmt.emin ≤ 0) (hetop : 0 ≤ fmt.etop) :
    fmt.emin ≤ Int.log radix ((m : ℚ) * (2 : ℚ) ^ e) ∧
      Int.log radix ((m : ℚ) * (2 : ℚ) ^ e)
        < (fmt.prec : ℤ) + fmt.etop + 1 := by
  set q : ℚ := (m : ℚ) * (2 : ℚ) ^ e with hqdef
  have hq : 0 < q :=
    mul_pos (by exact_mod_cast hm) (zpow_pos (by norm_num) e)
  have hb1 : (1 : ℕ) < radix := by omega
  have hrq2 : (2 : ℚ) ≤ (radix : ℚ) := by exact_mod_cast hr2
  have hrq : (0 : ℚ) < (radix : ℚ) := by linarith
  constructor
  · rw [← Int.zpow_le_iff_le_log hb1 hq]
    have hstep1 : (radix : ℚ) ^ fmt.emin ≤ (2 : ℚ) ^ fmt.emin := by
      set k : ℕ := (-fmt.emin).toNat with hkdef
      have hek : fmt.emin = -(k : ℤ) := by omega
      rw [hek, zpow_neg, zpow_neg, zpow_natCast, zpow_natCast]
      exact inv_anti₀ (by positivity) (pow_le_pow_left₀ (by norm_num) hrq2 k)
    have hstep2 : (2 : ℚ) ^ fmt.emin ≤ (2 : ℚ) ^ e :=
      zpow_le_zpow_right₀ (by norm_num) he1
    have hstep3 : (2 : ℚ) ^ e ≤ q := by
      rw [hqdef]
      nth_rewrite 1 [← one_mul ((2 : ℚ) ^ e)]
      exact mul_le_mul_of_nonneg_right (by exact_mod_cast hm)
        (le_of_lt (zpow_pos (by norm_num) e))
    exact le_trans hstep1 (le_trans hstep2 hstep3)
  · rw [← Int.lt_zpow_iff_log_lt hb1 hq]
    have hlt : q < (2 : ℚ) ^ ((fmt.prec : ℤ) + fmt.etop + 1) := by
      rw [hqdef]
      calc (m : ℚ) * (2 : ℚ) ^ e
          < ((2 ^ fmt.prec : ℕ) : ℚ) * (2 : ℚ) ^ e := by
            exact mul_lt_mul_of_pos_right (by exact_mod_cast hmp)
              (zpow_pos (by norm_num) e)
        _ = (2 : ℚ) ^ ((fmt.prec : ℤ) + e) := by
            push_cast
            rw [← zpow_natCast (2 : ℚ) fmt.prec, ← zpow_add₀ (by norm_num)]
        _ ≤ (2 : ℚ) ^ ((fmt.prec : ℤ) + fmt.etop + 1) :=
            zpow_le_zpow_right₀ (by norm_num) (by omega)
    have hstep : (2 : ℚ) ^ ((fmt.prec : ℤ) + fmt.etop + 1)
        ≤ (radix : ℚ) ^ ((fmt.prec : ℤ) + fmt.etop + 1) := by
      set k : ℕ := ((fmt.prec : ℤ) + fmt.etop + 1).toNat with hkdef
      have hek : (fmt.prec : ℤ) + fmt.etop + 1 = (k : ℤ) := by omega
      rw [hek, zpow_natCast, zpow_natCast]
      exact pow_le_pow_left₀ (by norm_num) hrq2 k
    exact lt_of_lt_of_le hlt hstep

/-- Helper: length of a rendered exponent section. -/
theorem renderExpDigits_length_le (radix : ℕ) (hr : 2 ≤ radix) (E : ℤ)
    (K : ℕ) (hK : E.natAbs < 2 ^ K) :
    (renderExpDigits radix E).length ≤ 1 + K := by
  have hb : E.natAbs < radix ^ K :=
    lt_of_lt_of_le hK (Nat.pow_le_pow_left hr K)
  unfold renderExpDigits
  split_ifs with h
  · simp only [List.length_cons, renderDigits_length]
    have hta : (-E).toNat = E.natAbs := by omega
    rw [hta]
    have := natDigits_length_le radix E.natAbs K hr hb
    omega
  · rw [renderDigits_length]
    have hta : E.toNat = E.natAbs := by omega
    rw [hta]
    have := natDigits_length_le radix E.natAbs K hr hb
    omega

/-- Helper: length of a rendered layout. -/
theorem render_length_le (radix : ℕ) (hr : 2 ≤ radix) (ds : List ℕ) (E : ℤ)
    (K : ℕ) (hK : E.natAbs < 2 ^ K) :
    (render radix ds E).length ≤ ds.length + 7 + K := by
  have hexp := renderExpDigits_length_le radix hr E K hK
  unfold render
  split_ifs with h1 h2 h3
  · simp only [List.length_append, List.length_cons, List.length_nil,
      renderDigits_length, List.length_take]
    omega
  · simp only [List.length_append, List.length_cons, List.length_nil,
      renderDigits_length, List.length_take, List.length_drop]
    omega
  · simp only [List.length_append, List.length_cons, List.length_nil,
      renderDigits_length, List.length_replicate]
    omega
  · cases ds with
    | nil =>
      simp only [List.length_cons, List.length_nil]
      omega
    | cons d rest =>
      simp only [List.length_cons, List.length_append, renderDigits_length]
      by_cases h4 : rest = []
      · rw [if_pos h4]
        simp only [List.length_cons, List.length_nil]
        omega
      · rw [if_neg h4]
        simp only [renderDigits_length]
        omega


/-- Helper: with trimming disabled, the trim step is the identity. -/
theorem trimOut_false (bs : List ℕ) : trimOut false bs = bs := by
  unfold trimOut
  simp

/-- Helper: negation preserves canonicality (the representation bounds
ignore the sign). -/
theorem Canonical_neg (fmt : FloatFmt) (f : FloatVal)
    (hc : Canonical fmt f) : Canonical fmt f.neg := by
  cases f with
  | finite s m e => exact hc
  | inf s => trivial
  | nan s => trivial

/-- Helper: the digit generator's output length is bounded in terms of the
format parameters, for every canonical finite non-zero value and every
radix. -/
theorem forward_length_le (fmt : FloatFmt) (radix : ℕ) (hr2 : 2 ≤ radix)
    (hprec : 1 ≤ fmt.prec) (hemin : fmt.emin ≤ 0) (hetop : 0 ≤ fmt.etop)
    (s : Bool) (m : ℕ) (e : ℤ) (hm : 0 < m)
    (hmp : m < 2 ^ fmt.prec) (he1 : fmt.emin ≤ e) (he2 : e ≤ fmt.etop)
    (N K : ℕ)
    (hN1 : fmt.prec + fmt.etop.toNat ≤ N)
    (hN2 : 1 + (-fmt.emin).toNat ≤ N)
    (hNp : fmt.prec ≤ N)
    (hK : fmt.prec + fmt.etop.toNat + 1 + ((-fmt.emin).toNat + N) < 2 ^ K) :
    (forward fmt radix (.finite s m e)).length ≤ N + 8 + K := by
  set q : ℚ := (m : ℚ) * (2 : ℚ) ^ e with hqdef
  have hq : 0 < q :=
    mul_pos (by exact_mod_cast hm) (zpow_pos (by norm_num) e)
  have key : ∀ n : ℕ, 1 ≤ n → n ≤ N →
      (render radix (sigDigits radix q n).1
        (sigDigits radix q n).2).length ≤ N + 8 + K := by
    intro n hn1 hnN
    obtain ⟨hlo, hhi⟩ :=
      log_radix_range radix hr2 fmt m e hm hmp he1 he2 hemin hetop
    rw [← hqdef] at hlo hhi
    have hlen := sigDigits_length_le radix hr2 q hq n
    have hlenpos : 0 < (sigDigits radix q n).1.length :=
      List.length_pos.mpr (sigDigits_ne_nil radix hr2 q hq n hn1)
    have hE := sigDigits_snd radix q n
    have habs : (sigDigits radix q n).2.natAbs
        ≤ fmt.prec + fmt.etop.toNat + 1 + ((-fmt.emin).toNat + N) := by
      omega
    have hKabs : (sigDigits radix q n).2.natAbs < 2 ^ K :=
      lt_of_le_of_lt habs hK
    have hrl := render_length_le radix hr2 (sigDigits radix q n).1
      (sigDigits radix q n).2 K hKabs
    omega
  unfold forward
  by_cases h10 : radix = 10
  · subst h10
    rw [if_pos rfl]
    show (render 10
      (searchShortest fmt q (.finite false m e) 1 (exactLen q e - 1)).1
      (searchShortest fmt q (.finite false m e) 1 (exactLen q e - 1)).2).length
        ≤ N + 8 + K
    obtain ⟨n, hn1, hub, he⟩ := searchShortest_eq_sigDigits fmt q
      (.finite false m e) 1 (exactLen q e - 1)
    rw [he]
    refine key n hn1 ?_
    have hpos : 1 ≤ exactLen q e := by
      rw [hqdef]
      exact exactLen_pos m e hm
    have hlex : exactLen q e
        ≤ max (fmt.prec + fmt.etop.toNat) (1 + (-fmt.emin).toNat) := by
      rw [hqdef]
      exact exactLen_le fmt m e hm hmp he1 he2 hemin hetop
    have hmax : max (fmt.prec + fmt.etop.toNat) (1 + (-fmt.emin).toNat)
        ≤ N := by omega
    omega
  · rw [if_neg h10]
    show (render radix (sigDigits radix q fmt.prec).1
      (sigDigits radix q fmt.prec).2).length ≤ N + 8 + K
    exact key fmt.prec hprec hNp

/-- Helper: the special filter's output length (trim disabled, default
spellings) is bounded by any bound on the generator output. -/
theorem filter_special_length_le (fmt : FloatFmt) (radix : ℕ) (B : ℕ)
    (hB3 : 3 ≤ B)
    (hfwd : ∀ (s : Bool) (m : ℕ) (e : ℤ), 0 < m →
      Canonical fmt (.finite s m e) →
      (forward fmt radix (.finite s m e)).length ≤ B)
    (f : FloatVal) (hc : Canonical fmt f) :
    (filter_special (forward fmt) false defaultNanString defaultInfString
      radix f).length ≤ B := by
  unfold filter_special
  by_cases hz : (!false && f.isZero) = true
  · rw [if_pos hz]
    simpa using hB3
  · rw [if_neg hz]
    by_cases hn : f.isNan = true
    · rw [if_pos hn]
      simpa using hB3
    · rw [if_neg hn]
      by_cases hi : f.isSpecial = true
      · rw [if_pos hi]
        simpa using hB3
      · rw [if_neg hi]
        cases f with
        | finite s m e =>
          refine hfwd s m e ?_ hc
          simp only [Bool.not_false, Bool.true_and, FloatVal.isZero,
            decide_eq_true_eq] at hz
          omega
        | inf s => simp [FloatVal.isSpecial] at hi
        | nan s => simp [FloatVal.isNan] at hn

/-- Helper: the untrimmed formatting pipeline's output length is bounded
by the generator bound plus one sign byte. -/
theorem ftoaImpl_length_le (fmt : FloatFmt) (radix : ℕ) (B : ℕ)
    (hB3 : 3 ≤ B)
    (hfwd : ∀ (s : Bool) (m : ℕ) (e : ℤ), 0 < m →
      Canonical fmt (.finite s m e) →
      (forward fmt radix (.finite s m e)).length ≤ B)
    (f : FloatVal) (hc : Canonical fmt f) :
    (ftoaImpl (forward fmt) false defaultNanString defaultInfString
      radix f).length ≤ B + 1 := by
  unfold ftoaImpl
  rw [trimOut_false]
  unfold filter_sign
  rw [if_neg (by simp)]
  by_cases hs : f.isSignNegative = true
  · rw [if_pos hs]
    rw [List.length_cons]
    have hspec := filter_special_length_le fmt radix B hB3 hfwd f.neg
      (Canonical_neg fmt f hc)
    omega
  · rw [if_neg hs]
    have hspec := filter_special_length_le fmt radix B hB3 hfwd f hc
    omega

/-- C3: a slice-mode format call with a destination buffer smaller
than the published maximum aborts without writing, and the formatted
output of every canonical value in every supported base never exceeds
that maximum. -/
theorem C3_slice_buffer_safety :
    (∀ (f : FloatVal) (radix buflen : ℕ), buflen < MAX_F32_SIZE →
        f32toa_slice f radix buflen = none) ∧
    (∀ (f : FloatVal) (radix buflen : ℕ), buflen < MAX_F64_SIZE →
        f64toa_slice f radix buflen = none) ∧
    (∀ (f : FloatVal) (radix : ℕ), 2 ≤ radix → Canonical fmt32 f →
        (f32toa_impl radix f).length ≤ MAX_F32_SIZE) ∧
    (∀ (f : FloatVal) (radix : ℕ), 2 ≤ radix → Canonical fmt64 f →
        (f64toa_impl radix f).length ≤ MAX_F64_SIZE) := by
  refine ⟨?_, ?_, ?_, ?_⟩
  · intro f radix buflen h
    unfold f32toa_slice
    rw [if_pos h]
  · intro f radix buflen h
    unfold f64toa_slice
    rw [if_pos h]
  · intro f radix hr hc
    show (ftoaImpl (forward fmt32) false defaultNanString defaultInfString
      radix f).length ≤ MAX_F32_SIZE
    refine le_trans (ftoaImpl_length_le fmt32 radix 167 (by norm_num)
      ?_ f hc) (by norm_num [MAX_F32_SIZE])
    intro s m e hm0 hcan
    obtain ⟨hmp, he1, he2, _⟩ := hcan
    have hb := forward_length_le fmt32 radix hr (by decide) (by decide)
      (by decide) s m e hm0 hmp he1 he2 150 9 (by decide) (by decide)
      (by decide) (by decide)
    simpa using hb
  · intro f radix hr hc
    show (ftoaImpl (forward fmt64) false defaultNanString defaultInfString
      radix f).length ≤ MAX_F64_SIZE
    refine le_trans (ftoaImpl_length_le fmt64 radix 1095 (by norm_num)
      ?_ f hc) (by norm_num [MAX_F64_SIZE])
    intro s m e hm0 hcan
    obtain ⟨hmp, he1, he2, _⟩ := hcan
    have hb := forward_length_le fmt64 radix hr (by decide) (by decide)
      (by decide) s m e hm0 hmp he1 he2 1075 12 (by decide) (by decide)
      (by decide) (by decide)
    simpa using hb

/-- Witness for C3 at concrete inputs: a one-byte-short buffer aborts for
both widths, and the length bound applied to the f32 and f64 values 1.0
in base 10. -/
theorem C3_slice_buffer_safety_witness :
    (255 : ℕ) < MAX_F32_SIZE ∧ (1279 : ℕ) < MAX_F64_SIZE ∧
    f32toa_slice (.finite false 8388608 (-23)) 10 255 = none ∧
    f64toa_slice (.finite false 4503599627370496 (-52)) 10 1279 = none ∧
    (2 : ℕ) ≤ 10 ∧ Canonical fmt32 (.finite false 8388608 (-23)) ∧
    Canonical fmt64 (.finite false 4503599627370496 (-52)) ∧
    (f32toa_impl 10 (.finite false 8388608 (-23))).length ≤ MAX_F32_SIZE ∧
    (f64toa_impl 10 (.finite false 4503599627370496 (-52))).length
      ≤ MAX_F64_SIZE :=
  ⟨by decide, by decide,
   C3_slice_buffer_safety.1 (.finite false 8388608 (-23)) 10 255 (by decide),
   C3_slice_buffer_safety.2.1 (.finite false 4503599627370496 (-52)) 10 1279
     (by decide),
   by norm_num, by decide, by decide,
   C3_slice_buffer_safety.2.2.1 (.finite false 8388608 (-23)) 10
     (by norm_num) (by decide),
   C3_slice_buffer_safety.2.2.2 (.finite false 4503599627370496 (-52)) 10
     (by norm_num) (by decide)⟩

end Lexical


